import Mathlib

/-!
# myalloc: a thread-partitioned free-list allocator

Shallow embedding of `src/myalloc.c` (64-bit target: `size_t` and pointers are
64 bits wide, `sizeof(Header) = 16`, `sizeof(ThreadTable) = 24`).

* Memory is a byte map `Nat → Nat`; header fields are 8-byte little-endian
  words.  Pointer and `size_t` arithmetic is reduced modulo `W = 2 ^ 64`.
* Every load and store checks that the bytes it touches lie in a region
  obtained from the operating system; otherwise the call ends in `Err.fault`.
* Loops that walk a linked list take a fuel argument; running out of fuel is
  `Err.fuel`.
* A `char **list` argument is passed as the value of the head cell and the
  new value of that cell is returned next to the result.
* The rows of `_thread_tbl` are kept as a list next to the byte memory; the
  page that holds them is a mapped region like any other.  A run of these
  definitions and a run of the C program agree as long as no block header
  that a call reads or writes lies in that page; in C such a header is made
  of the fields of a row.
* Calls of several threads are interleaved as whole calls (`MTrace`).
* A call is one call of the public interface.  What the calling program
  stores in the memory it was given is not part of a call; where it matters
  it is written with `caller_store`.
-/

namespace Myalloc

/-- Modulus of `size_t` and of pointer arithmetic. -/
def W : Nat := 2 ^ 64

/-- The value of `sizeof(Header)`: two 8-byte fields, `next` at offset 0 and `size` at offset 8. -/
def sizeofHeader : Nat := 16

/-- The value of `sizeof(ThreadTable)`: three 8-byte fields. -/
def sizeofThreadTable : Nat := 24

/-- The value `(void *) -1` returned by a failing `mmap`. -/
def MAP_FAILED : Nat := W - 1

/-- Ways in which a call does not return: a memory fault, or a loop that exhausted its fuel. -/
inductive Err where
  | fault
  | fuel
deriving DecidableEq, Repr

/-- Result of running a piece of the program. -/
abbrev M := Except Err

/-- Byte memory together with the regions `(start, length)` obtained from the operating system. -/
structure Heap where
  mem : Nat → Nat
  mapped : List (Nat × Nat)

/-- One row of `_thread_tbl`. -/
structure ThreadTable where
  id : Int
  used : Nat
  free : Nat
deriving DecidableEq, Repr

instance : Inhabited ThreadTable := ⟨⟨0, 0, 0⟩⟩

/-- Global state of the allocator: the heap, the pointer `_thread_tbl` and the rows it points to. -/
structure State where
  heap : Heap
  thread_tbl : Nat
  slots : List ThreadTable

/-- Whether address `a` lies in a mapped region. -/
def isMapped (mapped : List (Nat × Nat)) (a : Nat) : Bool :=
  mapped.any fun r => decide (r.1 ≤ a ∧ a < r.1 + r.2)

/-- The `n` bytes from `a` can be touched: they do not run past the end of the
address space and each of them is mapped. -/
def accessible (hp : Heap) (a n : Nat) : Prop :=
  a + n ≤ W ∧ ∀ i, i < n → isMapped hp.mapped (a + i) = true

instance (hp : Heap) (a n : Nat) : Decidable (accessible hp a n) := by
  unfold accessible; infer_instance

/-- Little-endian 8-byte word at `a`. -/
def load64raw (m : Nat → Nat) (a : Nat) : Nat :=
  m a % 256 + 256 * (m (a + 1) % 256 + 256 * (m (a + 2) % 256 + 256 * (m (a + 3) % 256
    + 256 * (m (a + 4) % 256 + 256 * (m (a + 5) % 256 + 256 * (m (a + 6) % 256
    + 256 * (m (a + 7) % 256)))))))

/-- Memory after writing the 8-byte word `v` at `a`. -/
def store64raw (m : Nat → Nat) (a v : Nat) : Nat → Nat :=
  fun x => if a ≤ x ∧ x < a + 8 then (v / 256 ^ (x - a)) % 256 else m x

/-- Checked 8-byte load. -/
def load64 (hp : Heap) (a : Nat) : M Nat :=
  if accessible hp a 8 then .ok (load64raw hp.mem a) else .error .fault

/-- Checked 8-byte store. -/
def store64 (hp : Heap) (a v : Nat) : M Heap :=
  if accessible hp a 8 then .ok ⟨store64raw hp.mem a v, hp.mapped⟩ else .error .fault

/-- Memory after `memset(dst, c, n)`. -/
def memset_raw (m : Nat → Nat) (dst c n : Nat) : Nat → Nat :=
  fun x => if dst ≤ x ∧ x < dst + n then c % 256 else m x

/-- Checked `memset`. -/
def memset (hp : Heap) (dst c n : Nat) : M Heap :=
  if accessible hp dst n then .ok ⟨memset_raw hp.mem dst c n, hp.mapped⟩ else .error .fault

/-- Memory after `memcpy(dst, src, n)`, copying byte by byte from the lowest
address.  The C library leaves the result open when the two ranges overlap
without being equal; this definition fixes the forward order, which matters
only for destination bytes whose source byte lies in the destination range. -/
def memcpy_raw (m : Nat → Nat) (dst src : Nat) : Nat → (Nat → Nat)
  | 0 => m
  | n + 1 => fun x =>
      if x = dst + n then memcpy_raw m dst src n (src + n) else memcpy_raw m dst src n x

/-- Checked `memcpy`. -/
def memcpy (hp : Heap) (dst src n : Nat) : M Heap :=
  if accessible hp dst n ∧ accessible hp src n then .ok ⟨memcpy_raw hp.mem dst src n, hp.mapped⟩
  else .error .fault

/-- Environment: anonymous private `mmap(NULL, len, ...)`.  The argument `hint` is
the address the kernel chooses (`none`: the kernel refuses).  The kernel only
hands out a non-empty, page-aligned range that does not contain address 0,
ends below the top of the address space and is disjoint from every region
handed out before; the new pages are zero-filled. -/
def mmap (pagesize : Nat) (hp : Heap) (len : Nat) (hint : Option Nat) : Nat × Heap :=
  match hint with
  | none => (MAP_FAILED, hp)
  | some a =>
    if 0 < len ∧ 0 < a ∧ a % pagesize = 0 ∧ a + len < W ∧
        (∀ r ∈ hp.mapped, a + len ≤ r.1 ∨ r.1 + r.2 ≤ a) then
      (a, ⟨fun x => if a ≤ x ∧ x < a + len then 0 else hp.mem x, (a, len) :: hp.mapped⟩)
    else (MAP_FAILED, hp)

/-- Source `is_aligned(p, &offset)`: the pair (return value, offset). -/
def is_aligned (p : Nat) : Bool × Nat :=
  (p &&& 7 == 0, p &&& 7)

/-- The loop of `add_block`: `while (h_ptr->next) h_ptr = h_ptr->next;`. -/
def add_block_last (hp : Heap) : Nat → Nat → M Nat
  | 0, _ => .error .fuel
  | fuel + 1, h_ptr => do
    let next ← load64 hp h_ptr
    if next ≠ 0 then add_block_last hp fuel next else pure h_ptr

/-- Source `add_block(block, list)`; returns the new `*list` and the heap. -/
def add_block (fuel : Nat) (block list : Nat) (hp : Heap) : M (Nat × Heap) :=
  if list = 0 then pure (block, hp)
  else do
    let h_ptr ← add_block_last hp fuel list
    let hp1 ← store64 hp h_ptr block
    pure (list, hp1)

/-- The loop of `remove_block`: the node whose `next` is `block`, or `none`
when the end of the list is reached first. -/
def remove_block_find (hp : Heap) (block : Nat) : Nat → Nat → M (Option Nat)
  | 0, _ => .error .fuel
  | fuel + 1, h_ptr => do
    let next ← load64 hp h_ptr
    if next ≠ block then
      if next = 0 then pure none else remove_block_find hp block fuel next
    else pure (some h_ptr)

/-- Source `remove_block(block, list)`; returns the return value, the new `*list` and the heap. -/
def remove_block (fuel : Nat) (block list : Nat) (hp : Heap) : M (Nat × Nat × Heap) :=
  if list = 0 ∨ block = 0 then pure (1, list, hp)
  else if list = block then do
    let next ← load64 hp list
    if next = 0 then pure (0, 0, hp) else pure (0, next, hp)
  else do
    match ← remove_block_find hp block fuel list with
    | none => pure (1, list, hp)
    | some h_ptr => do
      let n1 ← load64 hp h_ptr
      let n2 ← load64 hp n1
      let hp1 ← store64 hp h_ptr n2
      pure (0, list, hp1)

/-- The address `block2` computed by `split`: `block + sizeof(Header) + bytes`,
advanced by `8 - offset` when `is_aligned` reports a non-zero offset. -/
def split_block2 (block bytes : Nat) : Nat :=
  if (is_aligned ((block + sizeofHeader + bytes) % W)).1 then (block + sizeofHeader + bytes) % W
  else ((block + sizeofHeader + bytes) % W
          + (8 - (is_aligned ((block + sizeofHeader + bytes) % W)).2)) % W

/-- Source `split(block, bytes, free)`; `free` is a by-value copy of the list head. -/
def split (fuel : Nat) (block bytes free : Nat) (hp : Heap) : M (Nat × Heap) := do
  let size ← load64 hp (block + 8)
  let block_end := (block + sizeofHeader + size) % W
  let block_size := (block_end + W - block) % W
  let block2 := split_block2 block bytes
  let block2_size := (block_end + W - block2) % W
  if block2_size ≤ sizeofHeader then pure (block, hp)
  else do
    let r ← remove_block fuel block free hp
    let hp1 ← store64 r.2.2 block 0
    let hp2 ← store64 hp1 (block + 8) ((block_size + W - block2_size + W - sizeofHeader) % W)
    let hp3 ← store64 hp2 block2 0
    let hp4 ← store64 hp3 (block2 + 8) (block2_size - sizeofHeader)
    let a1 ← add_block fuel block r.2.1 hp4
    let a2 ← add_block fuel block2 a1.1 a1.2
    pure (block, a2.2)

/-- The first-fit loop of `find_block`: the first block with `size >= bytes`, or `none`. -/
def find_block_scan (hp : Heap) (bytes : Nat) : Nat → Nat → M (Option Nat)
  | 0, _ => .error .fuel
  | fuel + 1, h_ptr =>
    if h_ptr = 0 then pure none
    else do
      let size ← load64 hp (h_ptr + 8)
      if size ≥ bytes then pure (some h_ptr)
      else do
        let next ← load64 hp h_ptr
        find_block_scan hp bytes fuel next

/-- The length `find_block` asks of `mmap`. -/
def numbytes (pagesize bytes : Nat) : Nat :=
  ((bytes + sizeofHeader + pagesize - 1) % W) &&& (W - 1 - (pagesize - 1) % W)

/-- Source `find_block(bytes, free)`; `free` is a by-value copy of the list head. -/
def find_block (pagesize : Nat) (hint : Option Nat) (fuel : Nat) (bytes free : Nat) (hp : Heap) :
    M (Nat × Heap) := do
  match ← find_block_scan hp bytes fuel free with
  | some h_ptr => split fuel h_ptr bytes free hp
  | none =>
    let r := mmap pagesize hp (numbytes pagesize bytes) hint
    if r.1 = MAP_FAILED then pure (0, r.2)
    else do
      let hp1 ← store64 r.2 r.1 0
      let hp2 ← store64 hp1 (r.1 + 8) ((numbytes pagesize bytes + W - sizeofHeader) % W)
      let a ← add_block fuel r.1 free hp2
      split fuel r.1 bytes a.1 a.2

/-- The slot loop of `malloc`, started at index `i` with `k` rows left: the final
index (the number of rows when no row was found) and the rows. -/
def malloc_scan (tid : Int) (slots : List ThreadTable) : Nat → Nat → Nat × List ThreadTable
  | 0, i => (i, slots)
  | k + 1, i =>
    if (slots.getD i default).id = tid then (i, slots)
    else if (slots.getD i default).id = -1 then
      (i, slots.set i ⟨tid, (slots.getD i default).used, (slots.getD i default).free⟩)
    else malloc_scan tid slots k (i + 1)

/-- The slot loop of `free`. -/
def free_scan (tid : Int) (slots : List ThreadTable) : Nat → Nat → Nat
  | 0, i => i
  | k + 1, i => if (slots.getD i default).id = tid then i else free_scan tid slots k (i + 1)

/-- The rows written when `malloc` creates the thread table. -/
def init_slots (tid : Int) (num : Nat) : List ThreadTable :=
  ⟨tid, 0, 0⟩ :: List.replicate (num - 1) ⟨-1, 0, 0⟩

/-- The first part of `malloc`: create the thread table when `_thread_tbl` is NULL.
Returns `none` when the function returns NULL from here. -/
def malloc_init (pagesize : Nat) (tid : Int) (tblHint : Option Nat) (s : State) : Option Unit × State :=
  if s.thread_tbl = 0 then
    let r := mmap pagesize s.heap pagesize tblHint
    if r.1 = MAP_FAILED then (none, ⟨r.2, r.1, s.slots⟩)
    else (some (), ⟨r.2, r.1, init_slots tid (pagesize / sizeofThreadTable)⟩)
  else (some (), s)

/-- The part of `malloc` that follows the creation of the thread table: find the
row of the caller, find a block, move it from the free list to the used list. -/
def malloc_main (pagesize : Nat) (tid : Int) (blkHint : Option Nat) (fuel : Nat) (bytes : Nat)
    (s1 : State) : M (Nat × State) :=
  let num := pagesize / sizeofThreadTable
  if num ≠ 0 ∧ ¬ accessible s1.heap s1.thread_tbl sizeofThreadTable then .error .fault
  else
    let sc := malloc_scan tid s1.slots num 0
    if sc.1 = num then pure (0, ⟨s1.heap, s1.thread_tbl, sc.2⟩)
    else do
      let e := sc.2.getD sc.1 default
      let f ← find_block pagesize blkHint fuel bytes e.free s1.heap
      if f.1 = 0 then pure (0, ⟨f.2, s1.thread_tbl, sc.2⟩)
      else do
        let r ← remove_block fuel f.1 e.free f.2
        let hp1 ← store64 r.2.2 f.1 0
        let a ← add_block fuel f.1 e.used hp1
        pure ((f.1 + sizeofHeader) % W, ⟨a.2, s1.thread_tbl, sc.2.set sc.1 ⟨e.id, a.1, r.2.1⟩⟩)

/-- Source `malloc(bytes)` called by thread `tid`.  `tblHint` and `blkHint` are the
kernel's answers to the two `mmap` calls the function can make.  The mutex
operations succeed. -/
def malloc (pagesize : Nat) (tid : Int) (tblHint blkHint : Option Nat) (fuel : Nat) (bytes : Nat)
    (s : State) : M (Nat × State) :=
  match malloc_init pagesize tid tblHint s with
  | (none, s1) => pure (0, s1)
  | (some _, s1) => malloc_main pagesize tid blkHint fuel bytes s1

/-- Source `calloc(bytes, value)`. -/
def calloc (pagesize : Nat) (tid : Int) (tblHint blkHint : Option Nat) (fuel : Nat)
    (bytes value : Nat) (s : State) : M (Nat × State) := do
  let r ← malloc pagesize tid tblHint blkHint fuel bytes s
  if r.1 = 0 then pure (0, r.2)
  else do
    let hp ← memset r.2.heap r.1 0 bytes
    pure (r.1, ⟨hp, r.2.thread_tbl, r.2.slots⟩)

/-- The header address `ptr - sizeof(Header)` that `free` and `realloc` compute
from a user pointer. -/
def hdr (ptr : Nat) : Nat := (ptr + W - sizeofHeader) % W

/-- Source `free(ptr)` called by thread `tid`. -/
def free (pagesize : Nat) (tid : Int) (fuel : Nat) (ptr : Nat) (s : State) : M State :=
  let num := pagesize / sizeofThreadTable
  if ptr = 0 then pure s
  else
    let h_ptr := hdr ptr
    if num ≠ 0 ∧ ¬ accessible s.heap s.thread_tbl sizeofThreadTable then .error .fault
    else
      let i := free_scan tid s.slots num 0
      if i = num then pure s
      else do
        let e := s.slots.getD i default
        let r ← remove_block fuel h_ptr e.used s.heap
        let hp1 ← store64 r.2.2 h_ptr 0
        let a ← add_block fuel h_ptr e.free hp1
        pure ⟨a.2, s.thread_tbl, s.slots.set i ⟨e.id, r.2.1, a.1⟩⟩

/-- Source `realloc(ptr, bytes)`. -/
def realloc (pagesize : Nat) (tid : Int) (tblHint blkHint : Option Nat) (fuel : Nat)
    (ptr bytes : Nat) (s : State) : M (Nat × State) := do
  let r ← malloc pagesize tid tblHint blkHint fuel bytes s
  if r.1 = 0 then pure (0, r.2)
  else do
    let hp ← memcpy r.2.heap r.1 ptr bytes
    let s2 ← free pagesize tid fuel ptr ⟨hp, r.2.thread_tbl, r.2.slots⟩
    pure (r.1, s2)

/-- The state of a process that has not called the allocator yet. -/
def init : State := ⟨⟨fun _ => 0, []⟩, 0, []⟩


/-! ## Specification vocabulary -/

/-- Page sizes considered: the powers of two from 8 to 2 ^ 63. -/
def PageOK (pagesize : Nat) : Prop := ∃ k, 3 ≤ k ∧ k < 64 ∧ pagesize = 2 ^ k

/-- The node reached from `head` after `n` steps along `next` (0 once the chain has ended). -/
def nth_node (m : Nat → Nat) (head : Nat) : Nat → Nat
  | 0 => head
  | n + 1 => if nth_node m head n = 0 then 0 else load64raw m (nth_node m head n)

/-- Block `b` is reachable from the list head `head`. -/
def OnList (m : Nat → Nat) (head b : Nat) : Prop := b ≠ 0 ∧ ∃ n, nth_node m head n = b

/-- The chain from `head` visits exactly the nodes `l` and then ends with NULL. -/
def IsList (m : Nat → Nat) : Nat → List Nat → Prop
  | head, [] => head = 0
  | head, b :: l => head = b ∧ b ≠ 0 ∧ IsList m (load64raw m b) l

/-- The row of the thread table that `free` finds for thread `tid`. -/
def slotOf (pagesize : Nat) (tid : Int) (s : State) : ThreadTable :=
  s.slots.getD (free_scan tid s.slots (pagesize / sizeofThreadTable) 0) default

/-- Thread `tid` has a row in the thread table. -/
def HasSlot (pagesize : Nat) (tid : Int) (s : State) : Prop :=
  free_scan tid s.slots (pagesize / sizeofThreadTable) 0 ≠ pagesize / sizeofThreadTable

/-- Invariant I1 of the specification: `ptr` is a valid user pointer of thread
`tid` when its block is in the used list of that thread. -/
def ValidPtr (pagesize : Nat) (tid : Int) (s : State) (ptr : Nat) : Prop :=
  ptr ≠ 0 ∧ ptr < W ∧ HasSlot pagesize tid s ∧
    OnList s.heap.mem (slotOf pagesize tid s).used (hdr ptr)

/-- A call of the public interface, with the kernel's answers to its `mmap` requests. -/
inductive Call where
  | alloc (bytes : Nat) (tblHint blkHint : Option Nat)
  | zero_alloc (count unit : Nat) (tblHint blkHint : Option Nat)
  | resize (ptr bytes : Nat) (tblHint blkHint : Option Nat)
  | release (ptr : Nat)

/-- Run one call; the first component is the returned pointer (0 for `release`). -/
def Call.run (pagesize : Nat) (tid : Int) (fuel : Nat) : Call → State → M (Nat × State)
  | .alloc bytes t b, s => malloc pagesize tid t b fuel bytes s
  | .zero_alloc count unit t b, s => calloc pagesize tid t b fuel count unit s
  | .resize ptr bytes t b, s => realloc pagesize tid t b fuel ptr bytes s
  | .release ptr, s => (free pagesize tid fuel ptr s).map fun s1 => (0, s1)

/-- The arguments of a call are `size_t` values and every pointer handed to
`release` or `resize` is currently valid. -/
def Call.wf (pagesize : Nat) (tid : Int) (s : State) : Call → Prop
  | .alloc bytes _ _ => bytes < W
  | .zero_alloc count unit _ _ => count < W ∧ unit < W
  | .resize ptr bytes _ _ => ValidPtr pagesize tid s ptr ∧ bytes < W
  | .release ptr => ValidPtr pagesize tid s ptr

/-- The request size of a call does not wrap around when the header and a page are added. -/
def Call.small (pagesize : Nat) : Call → Prop
  | .alloc bytes _ _ => bytes + sizeofHeader + pagesize < W
  | .zero_alloc count _ _ _ => count + sizeofHeader + pagesize < W
  | .resize _ bytes _ _ => bytes + sizeofHeader + pagesize < W
  | .release _ => True

/-- The call is an `alloc` or a `release`. -/
def Call.basic : Call → Prop
  | .alloc _ _ _ => True
  | .release _ => True
  | _ => False

/-- States reached from the initial state by a single thread `tid` through
well-formed calls that all satisfy `P` and all return. -/
inductive Trace (pagesize : Nat) (tid : Int) (P : Call → Prop) : State → Prop where
  | init : Trace pagesize tid P init
  | step {s s1 : State} {c : Call} {fuel p : Nat} :
      Trace pagesize tid P s → P c → c.wf pagesize tid s →
      c.run pagesize tid fuel s = .ok (p, s1) → Trace pagesize tid P s1

/-- Every byte at an 8-aligned address is a multiple of 8. -/
def MemAl (m : Nat → Nat) : Prop := ∀ a, a % 8 = 0 → m a % 8 = 0

/-- Both list heads of a row are 8-byte aligned. -/
def HeadsAl (e : ThreadTable) : Prop := e.used % 8 = 0 ∧ e.free % 8 = 0

/-- All pointers stored in the allocator state are 8-byte aligned. -/
def Aligned (s : State) : Prop :=
  MemAl s.heap.mem ∧ ∀ e ∈ s.slots, HeadsAl e

instance (pagesize : Nat) (tid : Int) (s : State) : Decidable (HasSlot pagesize tid s) := by
  unfold HasSlot; infer_instance

/-- Bounded search for `b` on the chain from `head`. -/
def onListB (m : Nat → Nat) : Nat → Nat → Nat → Bool
  | 0, _, _ => false
  | fuel + 1, head, b => head != 0 && (head == b || onListB m fuel (load64raw m head) b)

/-- Executable check of `Call.wf`; the used list is searched with `fuel` steps. -/
def Call.wfB (pagesize : Nat) (tid : Int) (fuel : Nat) (s : State) : Call → Bool
  | .alloc bytes _ _ => decide (bytes < W)
  | .zero_alloc count unit _ _ => decide (count < W ∧ unit < W)
  | .resize ptr bytes _ _ =>
      decide (ptr ≠ 0 ∧ ptr < W ∧ HasSlot pagesize tid s) &&
        onListB s.heap.mem fuel (slotOf pagesize tid s).used (hdr ptr) && decide (bytes < W)
  | .release ptr =>
      decide (ptr ≠ 0 ∧ ptr < W ∧ HasSlot pagesize tid s) &&
        onListB s.heap.mem fuel (slotOf pagesize tid s).used (hdr ptr)

/-- Executable check of `Call.small`. -/
def Call.smallB (pagesize : Nat) : Call → Bool
  | .alloc bytes _ _ => decide (bytes + sizeofHeader + pagesize < W)
  | .zero_alloc count _ _ _ => decide (count + sizeofHeader + pagesize < W)
  | .resize _ bytes _ _ => decide (bytes + sizeofHeader + pagesize < W)
  | .release _ => true

/-- Executable check of `Call.basic`. -/
def Call.basicB : Call → Bool
  | .alloc _ _ _ => true
  | .release _ => true
  | _ => false

/-- Run a sequence of calls from `s`; `none` when a call is not admitted by `P`,
is not well-formed, or does not return. -/
def exec (pagesize : Nat) (tid : Int) (fuel : Nat) (P : Call → Bool) : List Call → State → Option State
  | [], s => some s
  | c :: cs, s =>
    if P c && c.wfB pagesize tid fuel s then
      match c.run pagesize tid fuel s with
      | .ok r => exec pagesize tid fuel P cs r.2
      | .error _ => none
    else none

/-- The state after running `cs` in a fresh process (the initial state when the run fails). -/
def after (pagesize : Nat) (tid : Int) (fuel : Nat) (P : Call → Bool) (cs : List Call) : State :=
  (exec pagesize tid fuel P cs init).getD init

instance instDecidableIsList (m : Nat → Nat) :
    ∀ (l : List Nat) (head : Nat), Decidable (IsList m head l)
  | [], head => inferInstanceAs (Decidable (head = 0))
  | b :: l, head =>
    have := instDecidableIsList m l (load64raw m b)
    inferInstanceAs (Decidable (head = b ∧ b ≠ 0 ∧ IsList m (load64raw m b) l))

/-- Calls that are an `alloc` or a `release` with a non-wrapping request size. -/
def Call.plain (pagesize : Nat) (c : Call) : Prop := c.basic ∧ c.small pagesize

/-- Executable check of `Call.plain`. -/
def Call.plainB (pagesize : Nat) (c : Call) : Bool := c.basicB && c.smallB pagesize

/-- A process that allocated 8 bytes and released them. -/
def state_C3 : State :=
  after 4096 7 10 Call.basicB [.alloc 8 (some 0x100000) (some 0x10000), .release 0x10010]

/-- A process whose free list holds a 16-byte block directly below a large one. -/
def state_C6 : State :=
  after 4096 7 10 (Call.plainB 4096)
    [.alloc 8 (some 0x100000) (some 0x10000), .release 0x10010,
     .alloc 16 none (some 0x20000), .release 0x20010]

/-- A process that released two small blocks around a request of `2 ^ 64 - 8` bytes
and then asked for `0x10000` bytes. -/
def state_C7 : State :=
  after 4096 7 10 Call.basicB
    [.alloc 8 (some 0x100000) (some 0x10000), .alloc 8 none (some 0x30000), .release 0x30010,
     .alloc (2 ^ 64 - 8) none (some 0x20000), .release 0x20010, .alloc 0x10000 none none]

/-- A process whose free list holds three blocks, the first of 104 bytes. -/
def state_C8 : State :=
  after 4096 7 10 (Call.plainB 4096)
    [.alloc 100 (some 0x100000) (some 0x10000), .alloc 8 none (some 0x20000),
     .alloc 8 none (some 0x30000), .release 0x10010, .release 0x20010, .release 0x30010]

/-- The address ranges `[a, a + 16 + size)` of the blocks `a` and `b` do not meet. -/
def Disj (m : Nat → Nat) (a b : Nat) : Prop :=
  a + 16 + load64raw m (a + 8) ≤ b ∨ b + 16 + load64raw m (b + 8) ≤ a

/-- Block `b` is well placed: non-NULL, 8-byte aligned, with a size that is a
multiple of 8, and lying inside one region obtained from the kernel. -/
structure BlockOK (hp : Heap) (b : Nat) : Prop where
  pos : b ≠ 0
  al : b % 8 = 0
  szal : load64raw hp.mem (b + 8) % 8 = 0
  reg : ∃ r ∈ hp.mapped, r.1 ≤ b ∧ b + 16 + load64raw hp.mem (b + 8) ≤ r.1 + r.2

/-- The blocks `S` are well placed and pairwise disjoint, and every mapped region
starts at or above the first page boundary and ends below the top of the
address space. -/
structure HeapOK (pagesize : Nat) (hp : Heap) (S : List Nat) : Prop where
  regs : ∀ r ∈ hp.mapped, pagesize ≤ r.1 ∧ r.1 + r.2 < W
  ok : ∀ b ∈ S, BlockOK hp b
  disj : ∀ a ∈ S, ∀ b ∈ S, a ≠ b → Disj hp.mem a b

/-- The directory of one thread: the free list is `lf`, the used list is `lu`,
no block is on both, and the blocks are well placed and pairwise disjoint. -/
structure DirOK (pagesize : Nat) (hp : Heap) (free used : Nat) (lf lu : List Nat) : Prop where
  isf : IsList hp.mem free lf
  isu : IsList hp.mem used lu
  nodup : (lf ++ lu).Nodup
  heap : HeapOK pagesize hp (lf ++ lu)

/-- Invariant of the states a single thread `tid` reaches: either the thread
table does not exist (not created yet, or its mapping failed), or row 0
belongs to `tid`; the directory of row 0 is well formed. -/
structure Inv (pagesize : Nat) (tid : Int) (s : State) (lf lu : List Nat) : Prop where
  own : (s.slots = [] ∧ (s.thread_tbl = 0 ∨ s.thread_tbl = MAP_FAILED)) ∨
    (s.slots ≠ [] ∧ accessible s.heap s.thread_tbl sizeofThreadTable ∧
      (s.slots.getD 0 default).id = tid)
  dir : DirOK pagesize s.heap (s.slots.getD 0 default).free (s.slots.getD 0 default).used lf lu

/-- Memory `m1` agrees with `m` outside the `next` fields of the blocks in `F`. -/
def NextFrame (F : List Nat) (m m1 : Nat → Nat) : Prop :=
  ∀ x, (∀ b ∈ F, x < b ∨ b + 8 ≤ x) → m1 x = m x

/-- Every byte of every block in `S` (header and payload) is the same in `m1` as in `m`. -/
def Untouched (S : List Nat) (m m1 : Nat → Nat) : Prop :=
  ∀ b ∈ S, ∀ x, b ≤ x → x < b + 16 + load64raw m (b + 8) → m1 x = m x

/-- Every mapped region ends below the top of the address space. -/
def RegsTop (mapped : List (Nat × Nat)) : Prop := ∀ r ∈ mapped, r.1 + r.2 < W

/-- Whether a computation returned. -/
def okB {α : Type} : M α → Bool
  | .ok _ => true
  | .error _ => false

/-- The result of a computation (`d` when it did not return). -/
def getOk {α : Type} (d : α) : M α → α
  | .ok r => r
  | .error _ => d

/-- A process that allocated 8 bytes. -/
def state_C10 : State :=
  after 4096 7 10 (Call.smallB 4096) [.alloc 8 (some 0x100000) (some 0x10000)]

/-- The state after the `malloc(16)` inside `realloc(0x10010, 16)` from `state_C10`. -/
def state_C10_malloc : State :=
  (getOk (0, init) (malloc 4096 7 none (some 0x20000) 10 16 state_C10)).2

/-- The heap after the `memcpy` inside `realloc(0x10010, 16)` from `state_C10`. -/
def heap_C10_memcpy : Heap := getOk init.heap (memcpy state_C10_malloc.heap 0x20010 0x10010 16)

/-- The state after `realloc(0x10010, 16)` from `state_C10`. -/
def state_C10_resized : State :=
  getOk init (free 4096 7 10 0x10010
    ⟨heap_C10_memcpy, state_C10_malloc.thread_tbl, state_C10_malloc.slots⟩)

/-- Runs of `alloc` calls with non-wrapping request sizes that all return:
`Allocs pagesize tid s s1` when such a run leads from `s` to `s1`. -/
inductive Allocs (pagesize : Nat) (tid : Int) : State → State → Prop where
  | refl (s : State) : Allocs pagesize tid s s
  | step {s s1 s2 : State} {bytes fuel p : Nat} {t b : Option Nat} :
      Allocs pagesize tid s s1 → bytes + sizeofHeader + pagesize < W →
      malloc pagesize tid t b fuel bytes s1 = .ok (p, s2) → Allocs pagesize tid s s2

/-- The state after `alloc(100)` in `state_C6`. -/
def state_C6_first : State := (getOk (0, init) (malloc 4096 7 none none 10 100 state_C6)).2

/-- A process with 32-byte pages (one table row) after thread 7 called `alloc(1)`. -/
def state_C12 : State :=
  after 32 7 10 (Call.plainB 32) [.alloc 1 (some 0x100000) (some 0x10000)]

/-- The state after `calloc(8, 1)` in a fresh process. -/
def state_C11 : State :=
  (getOk (0, init) (calloc 4096 7 (some 0x100000) (some 0x10000) 10 8 1 init)).2

/-- The rows of an existing registry: the claimed rows are the first `k > 0` rows,
their ids are pairwise distinct, and every later row holds the sentinel `-1`
with empty lists. -/
def RowsOK (num : Nat) (slots : List ThreadTable) : Prop :=
  slots.length = num ∧ ∃ k, 0 < k ∧ k ≤ num ∧
    (∀ i, i < k → (slots.getD i default).id ≠ -1) ∧
    (∀ i, k ≤ i → i < num → slots.getD i default = ⟨-1, 0, 0⟩) ∧
    (∀ i j, i < k → j < k → (slots.getD i default).id = (slots.getD j default).id → i = j)

/-- The registry of a state with `num` rows: either it does not exist (not
created yet, or its mapping failed), or its rows are well formed. -/
def Registry (num : Nat) (s : State) : Prop :=
  (s.slots = [] ∧ (s.thread_tbl = 0 ∨ s.thread_tbl = MAP_FAILED)) ∨
  (s.thread_tbl ≠ 0 ∧ RowsOK num s.slots)

/-- States reached from the initial state by any number of threads, each call
being one atomic step: the calls are well-formed, satisfy `P`, return, and no
thread id is the sentinel `-1`. -/
inductive MTrace (pagesize : Nat) (P : Call → Prop) : State → Prop where
  | init : MTrace pagesize P init
  | step {s s1 : State} {tid : Int} {c : Call} {fuel p : Nat} :
      MTrace pagesize P s → tid ≠ -1 → P c → c.wf pagesize tid s →
      c.run pagesize tid fuel s = .ok (p, s1) → MTrace pagesize P s1

/-- A process with 64-byte pages (two table rows) after thread 7 called `alloc(8)`. -/
def state_C20_first : State :=
  after 64 7 10 (Call.plainB 64) [.alloc 8 (some 0x100000) (some 0x10000)]

/-- The state after thread 8 then called `alloc(8)`. -/
def state_C20 : State :=
  (getOk (0, init) (malloc 64 8 none (some 0x20000) 10 8 state_C20_first)).2

/-- Invariant of the states reached by several threads: the registry is well
formed; row `i` has the free list `F i` and the used list `U i`; no block is
on two lists; the blocks `S` (those on the lists, and blocks that were
dropped) are well placed and pairwise disjoint. -/
structure MInv (pagesize : Nat) (s : State) (S : List Nat) (F U : Nat → List Nat) : Prop where
  reg : Registry (pagesize / sizeofThreadTable) s
  acc : s.slots ≠ [] → accessible s.heap s.thread_tbl sizeofThreadTable
  dead : s.slots = [] → S = []
  isf : ∀ i, IsList s.heap.mem (s.slots.getD i default).free (F i)
  isu : ∀ i, IsList s.heap.mem (s.slots.getD i default).used (U i)
  sub : ∀ i, ∀ b ∈ F i ++ U i, b ∈ S
  nodup : ∀ i, (F i ++ U i).Nodup
  sep : ∀ i j, i ≠ j → ∀ b ∈ F i ++ U i, b ∉ F j ++ U j
  heap : HeapOK pagesize s.heap S

/-- Run a sequence of calls of several threads from `s`; `none` when a thread id is
`-1`, a call is not admitted by `P`, is not well-formed, or does not return. -/
def mexec (pagesize : Nat) (fuel : Nat) (P : Call → Bool) : List (Int × Call) → State → Option State
  | [], s => some s
  | tc :: cs, s =>
    if tc.1 ≠ -1 ∧ P tc.2 = true ∧ tc.2.wfB pagesize tc.1 fuel s = true then
      match tc.2.run pagesize tc.1 fuel s with
      | .ok r => mexec pagesize fuel P cs r.2
      | .error _ => none
    else none

/-- The state after the calls `cs` of several threads in a fresh process (the
initial state when the run fails). -/
def mafter (pagesize : Nat) (fuel : Nat) (P : Call → Bool) (cs : List (Int × Call)) : State :=
  (mexec pagesize fuel P cs init).getD init

/-- Thread 7 allocated twice and released the second block, thread 8 allocated
a block in the page at `0x31000`, and thread 7 then requested `2 ^ 64 - 8`
bytes and released them. -/
def state_C13 : State :=
  mafter 4096 20 Call.basicB
    [(7, .alloc 8 (some 0x100000) (some 0x10000)), (7, .alloc 8 none (some 0x40000)),
     (7, .release 0x40010), (8, .alloc 8 none (some 0x31000)),
     (7, .alloc (2 ^ 64 - 8) none (some 0x20000)), (7, .release 0x20010)]

/-- A store of the calling program: the 8-byte word `v` is written at `a`. -/
def caller_store (a v : Nat) (s : State) : State :=
  ⟨⟨store64raw s.heap.mem a v, s.heap.mapped⟩, s.thread_tbl, s.slots⟩

/-- A process that allocated twice, released the second block, and then
requested `2 ^ 64 - 8` bytes and released them. -/
def state_C5 : State :=
  after 4096 7 10 Call.basicB
    [.alloc 8 (some 0x100000) (some 0x10000), .alloc 8 none (some 0x30000), .release 0x30010,
     .alloc (2 ^ 64 - 8) none (some 0x20000), .release 0x20010]

/-- A process that allocated 8 and 126960 bytes, allocated and released 8 bytes,
requested `2 ^ 64 - 8` bytes and released them, and allocated `0x10000` bytes. -/
def state_C10_wrapped : State :=
  after 4096 7 10 Call.basicB
    [.alloc 8 (some 0x100000) (some 0x10000), .alloc 126960 none (some 0x22000),
     .alloc 8 none (some 0x50000), .release 0x50010,
     .alloc (2 ^ 64 - 8) none (some 0x20000), .release 0x20010, .alloc 0x10000 none none]

/-- The state after the `malloc(5000)` inside `realloc(0x22010, 5000)` from `state_C10_wrapped`. -/
def state_C10_wrapped_malloc : State :=
  (getOk (0, init) (malloc 4096 7 none none 10 5000 state_C10_wrapped)).2

/-- The state after `realloc(0x22010, 5000)` from `state_C10_wrapped`. -/
def state_C10_wrapped_resized : State :=
  getOk init (free 4096 7 10 0x22010 state_C10_wrapped_malloc)

/-- A process that allocated 8 and 131072 bytes, allocated and released 8 bytes,
and then requested `2 ^ 64 - 8` bytes and released them. -/
def state_C11_wrapped : State :=
  after 4096 7 10 Call.basicB
    [.alloc 8 (some 0x100000) (some 0x10000), .alloc 131072 none (some 0x21000),
     .alloc 8 none (some 0x50000), .release 0x50010,
     .alloc (2 ^ 64 - 8) none (some 0x20000), .release 0x20010]

/-- The state after the `malloc(131072)` inside `calloc(131072, 1)` from `state_C11_wrapped`. -/
def state_C11_wrapped_malloc : State :=
  (getOk (0, init) (malloc 4096 7 none none 10 131072 state_C11_wrapped)).2

/-- The state after `calloc(131072, 1)` from `state_C11_wrapped`. -/
def state_C11_wrapped_zeroed : State :=
  ⟨⟨memset_raw state_C11_wrapped_malloc.heap.mem 0x20010 0 131072,
      state_C11_wrapped_malloc.heap.mapped⟩,
    state_C11_wrapped_malloc.thread_tbl, state_C11_wrapped_malloc.slots⟩

/-- A process whose thread table is the page at `0x30000`: thread 7 allocated
twice, released the second block, and then requested `2 ^ 64 - 8` bytes and
released them. -/
def state_C20_wrapped : State :=
  mafter 4096 20 Call.basicB
    [(7, .alloc 8 (some 0x30000) (some 0x10000)), (7, .alloc 8 none (some 0xF000)),
     (7, .release 0xF010), (7, .alloc (2 ^ 64 - 8) none (some 0x20000)), (7, .release 0x20010)]

/-! ## Theorems -/

theorem load64raw_lt (m : Nat → Nat) (a : Nat) : load64raw m a < W := by
  unfold load64raw W
  omega

theorem load64raw_store64raw_same (m : Nat → Nat) (a v : Nat) (hv : v < W) :
    load64raw (store64raw m a v) a = v := by
  unfold W at hv
  simp only [load64raw, store64raw]
  simp
  omega

theorem load64raw_congr (m m1 : Nat → Nat) (a : Nat)
    (h : ∀ x, a ≤ x → x < a + 8 → m1 x = m x) : load64raw m1 a = load64raw m a := by
  unfold load64raw
  rw [h a (by omega) (by omega), h (a+1) (by omega) (by omega), h (a+2) (by omega) (by omega),
    h (a+3) (by omega) (by omega), h (a+4) (by omega) (by omega), h (a+5) (by omega) (by omega),
    h (a+6) (by omega) (by omega), h (a+7) (by omega) (by omega)]

theorem store64raw_other (m : Nat → Nat) (a v x : Nat) (h : x < a ∨ a + 8 ≤ x) :
    store64raw m a v x = m x := by
  unfold store64raw
  rw [if_neg (by omega)]

theorem load64raw_store64raw_disj (m : Nat → Nat) (a v b : Nat) (h : b + 8 ≤ a ∨ a + 8 ≤ b) :
    load64raw (store64raw m a v) b = load64raw m b := by
  apply load64raw_congr
  intro x h1 h2
  exact store64raw_other m a v x (by omega)

theorem load64raw_mod8 (m : Nat → Nat) (a : Nat) : load64raw m a % 8 = m a % 8 := by
  unfold load64raw
  omega

theorem bind_ok {α β : Type} {x : M α} {f : α → M β} {b : β}
    (h : (x >>= f) = Except.ok b) : ∃ a, x = Except.ok a ∧ f a = Except.ok b := by
  cases x with
  | error e => simp [bind, Except.bind] at h
  | ok a => exact ⟨a, rfl, h⟩

theorem load64_ok {hp : Heap} {a v : Nat} (h : load64 hp a = Except.ok v) :
    accessible hp a 8 ∧ v = load64raw hp.mem a := by
  unfold load64 at h
  split at h
  · rename_i hacc
    exact ⟨hacc, by injection h with h; exact h.symm⟩
  · simp at h

theorem store64_ok {hp hp1 : Heap} {a v : Nat} (h : store64 hp a v = Except.ok hp1) :
    accessible hp a 8 ∧ hp1 = ⟨store64raw hp.mem a v, hp.mapped⟩ := by
  unfold store64 at h
  split at h
  · rename_i hacc
    exact ⟨hacc, by injection h with h; exact h.symm⟩
  · simp at h


/-! ## C1: the size field against the request, near 2 ^ 64 -/

/-- C1 (failing input): in a fresh process with 4096-byte pages, `malloc(2^64 - 1)`
returns the non-NULL pointer `0x10010` when the kernel maps the thread table at
`0x100000` and the block at `0x10000`, and the header at `0x10010 - 16` then has
`size = 0`, far less than the request: the sum `bytes + sizeof(Header) + pagesize - 1`
wrapped around. -/
theorem C1_size_below_request :
    ∃ s, malloc 4096 7 (some 0x100000) (some 0x10000) 10 (2 ^ 64 - 1) init = Except.ok (0x10010, s)
      ∧ load64raw s.heap.mem (0x10010 - sizeofHeader + 8) = 0
      ∧ ¬ (2 ^ 64 - 1 ≤ load64raw s.heap.mem (0x10010 - sizeofHeader + 8)) := by
  refine ⟨_, rfl, ?_, ?_⟩ <;> decide

/-! ## Executable traces -/

theorem nth_node_succ (m : Nat → Nat) (head : Nat) (h0 : head ≠ 0) (n : Nat) :
    nth_node m head (n + 1) = nth_node m (load64raw m head) n := by
  induction n with
  | zero => simp [nth_node, h0]
  | succ k ih =>
    rw [nth_node, ih]
    rfl

theorem onListB_sound (m : Nat → Nat) : ∀ (fuel head b : Nat),
    onListB m fuel head b = true → OnList m head b := by
  intro fuel
  induction fuel with
  | zero => intro head b h; simp [onListB] at h
  | succ k ih =>
    intro head b h
    simp only [onListB, Bool.and_eq_true, Bool.or_eq_true, bne_iff_ne, beq_iff_eq] at h
    obtain ⟨h0, h1 | h1⟩ := h
    · subst h1
      exact ⟨h0, 0, rfl⟩
    · obtain ⟨hb, n, hn⟩ := ih _ _ h1
      exact ⟨hb, n + 1, by rw [nth_node_succ m head h0]; exact hn⟩

theorem wfB_sound {pagesize : Nat} {tid : Int} {fuel : Nat} {s : State} {c : Call}
    (h : c.wfB pagesize tid fuel s = true) : c.wf pagesize tid s := by
  cases c with
  | alloc bytes t b => simpa [Call.wfB, Call.wf] using h
  | zero_alloc count unit t b => simpa [Call.wfB, Call.wf] using h
  | resize ptr bytes t b =>
    simp only [Call.wfB, Bool.and_eq_true, decide_eq_true_eq] at h
    obtain ⟨⟨⟨h1, h2, h3⟩, h4⟩, h5⟩ := h
    exact ⟨⟨h1, h2, h3, onListB_sound _ _ _ _ h4⟩, h5⟩
  | release ptr =>
    simp only [Call.wfB, Bool.and_eq_true, decide_eq_true_eq] at h
    obtain ⟨⟨h1, h2, h3⟩, h4⟩ := h
    exact ⟨h1, h2, h3, onListB_sound _ _ _ _ h4⟩

theorem basicB_sound (c : Call) (h : c.basicB = true) : c.basic := by
  cases c <;> simp_all [Call.basicB, Call.basic]

theorem smallB_sound (pagesize : Nat) (c : Call) (h : c.smallB pagesize = true) :
    c.small pagesize := by
  cases c <;> simp_all [Call.smallB, Call.small]

theorem exec_trace {pagesize : Nat} {tid : Int} {fuel : Nat} {P : Call → Prop} {Pb : Call → Bool}
    (hP : ∀ c, Pb c = true → P c) :
    ∀ (cs : List Call) (s s1 : State), Trace pagesize tid P s →
      exec pagesize tid fuel Pb cs s = some s1 → Trace pagesize tid P s1 := by
  intro cs
  induction cs with
  | nil => intro s s1 ht h; simp [exec] at h; subst h; exact ht
  | cons c cs ih =>
    intro s s1 ht h
    unfold exec at h
    split at h
    · rename_i hc
      simp only [Bool.and_eq_true] at hc
      split at h
      · rename_i r hr
        exact ih _ _ (Trace.step ht (hP c hc.1) (wfB_sound hc.2) hr) h
      · simp at h
    · simp at h

theorem after_trace {pagesize : Nat} {tid : Int} {fuel : Nat} {P : Call → Prop} {Pb : Call → Bool}
    (hP : ∀ c, Pb c = true → P c) (cs : List Call)
    (h : (exec pagesize tid fuel Pb cs init).isSome = true) :
    Trace pagesize tid P (after pagesize tid fuel Pb cs) := by
  obtain ⟨s, hs⟩ := Option.isSome_iff_exists.mp h
  unfold after
  rw [hs]
  exact exec_trace hP cs init s Trace.init hs

theorem plainB_sound (pagesize : Nat) (c : Call) (h : c.plainB pagesize = true) :
    c.plain pagesize := by
  unfold Call.plainB at h
  simp only [Bool.and_eq_true] at h
  exact ⟨basicB_sound c h.1, smallB_sound pagesize c h.2⟩

/-! ## Chains and lists -/

theorem nth_node_zero (m : Nat → Nat) (n : Nat) : nth_node m 0 n = 0 := by
  induction n with
  | zero => rfl
  | succ k ih => simp [nth_node, ih]

theorem IsList_ne_zero {m : Nat → Nat} : ∀ {l : List Nat} {head : Nat},
    IsList m head l → ∀ b ∈ l, b ≠ 0 := by
  intro l
  induction l with
  | nil => intro head _ b hb; simp at hb
  | cons a l ih =>
    intro head h b hb
    obtain ⟨_, h2, h3⟩ := h
    rcases List.mem_cons.mp hb with rfl | hb
    · exact h2
    · exact ih h3 b hb

theorem IsList_onList {m : Nat → Nat} : ∀ {l : List Nat} {head : Nat},
    IsList m head l → ∀ b, OnList m head b ↔ b ∈ l := by
  intro l
  induction l with
  | nil =>
    intro head h b
    have h0 : head = 0 := h
    subst h0
    constructor
    · rintro ⟨hb, n, hn⟩
      rw [nth_node_zero] at hn
      exact absurd hn.symm hb
    · intro hb; simp at hb
  | cons a l ih =>
    intro head h b
    obtain ⟨h1, h2, h3⟩ := h
    subst h1
    constructor
    · rintro ⟨hb, n, hn⟩
      cases n with
      | zero => simp [nth_node] at hn; simp [hn]
      | succ k =>
        rw [nth_node_succ m head h2] at hn
        exact List.mem_cons_of_mem _ ((ih h3 b).mp ⟨hb, k, hn⟩)
    · intro hb
      rcases List.mem_cons.mp hb with rfl | hb
      · exact ⟨h2, 0, rfl⟩
      · obtain ⟨hb0, n, hn⟩ := (ih h3 b).mpr hb
        exact ⟨hb0, n + 1, by rw [nth_node_succ m head h2]; exact hn⟩

/-! ## Evaluations at concrete inputs -/

/-- C2 (failing input): in a fresh process with 4096-byte pages, `malloc(8)` maps a
page at `0x10000` and `split` writes the header of a second block at `0x10018`
(`size = 4056`); after the call that block is reachable neither from the free
head nor from the used head of the thread, because `find_block` and `split`
update a by-value copy of the free head. -/
theorem C2_second_block_dropped :
    ∃ s, malloc 4096 7 (some 0x100000) (some 0x10000) 10 8 init = Except.ok (0x10010, s)
      ∧ load64raw s.heap.mem (0x10018 + 8) = 4056
      ∧ ¬ OnList s.heap.mem (slotOf 4096 7 s).free 0x10018
      ∧ ¬ OnList s.heap.mem (slotOf 4096 7 s).used 0x10018 := by
  refine ⟨_, rfl, by decide, ?_, ?_⟩
  · rw [IsList_onList (l := []) (by decide)]
    simp
  · rw [IsList_onList (l := [0x10000]) (by decide)]
    simp

/-- C3 (counterexample): after `alloc(8)` and `release` of the returned pointer
`0x10010`, the thread owns a slot and the block `0x10000` is not in its used
list; a second `release(0x10010)` returns, but it is not a no-op: the `next`
field of the block, NULL before, then holds the address of the block itself. -/
theorem C3_release_unknown_not_noop :
    Trace 4096 7 Call.basic state_C3 ∧ HasSlot 4096 7 state_C3
      ∧ ¬ OnList state_C3.heap.mem (slotOf 4096 7 state_C3).used (hdr 0x10010)
      ∧ load64raw state_C3.heap.mem (hdr 0x10010) = 0
      ∧ ∃ s1, free 4096 7 10 0x10010 state_C3 = Except.ok s1
          ∧ load64raw s1.heap.mem (hdr 0x10010) = 0x10000 := by
  refine ⟨after_trace basicB_sound _ (by decide), by decide, ?_, by decide, _, rfl, by decide⟩
  rw [IsList_onList (l := []) (by decide)]
  simp

/-- C4 (failing input): in a fresh process `malloc(1)` returns `0x10010`, but
`realloc(NULL, 1)` with the same kernel answers does not return: after its
`malloc` succeeded, `memcpy(new_mem, NULL, 1)` reads address 0, which is not
mapped. -/
theorem C4_resize_absent_faults :
    (∃ s, malloc 4096 7 (some 0x100000) (some 0x10000) 10 1 init = Except.ok (0x10010, s))
      ∧ realloc 4096 7 (some 0x100000) (some 0x10000) 10 0 1 init = Except.error Err.fault := by
  exact ⟨⟨_, rfl⟩, rfl⟩

/-- C6 (counterexample): from a state reached by alloc/release calls with small
requests, `alloc(100)` returns `0x20030` and the next `alloc(16)` returns
`0x20010`; the two pointers are 32 bytes apart, less than
`sizeof(Header) + 100`. -/
theorem C6_pointers_closer_than_first_request :
    Trace 4096 7 (Call.plain 4096) state_C6
      ∧ ∃ s1 s2, malloc 4096 7 none none 10 100 state_C6 = Except.ok (0x20030, s1)
          ∧ malloc 4096 7 none none 10 16 s1 = Except.ok (0x20010, s2)
          ∧ ¬ (0x20030 + (sizeofHeader + 100) ≤ 0x20010)
          ∧ ¬ (0x20010 + (sizeofHeader + 100) ≤ 0x20030) := by
  exact ⟨after_trace (plainB_sound 4096) _ (by decide), _, _, rfl, rfl, by decide, by decide⟩

/-- C7 (failing input): a single thread calls `alloc(8)`, `alloc(8)`, `release`
of the second pointer, `alloc(2^64 - 8)`, `release` of that pointer and
`alloc(0x10000)`; every release is given a valid pointer.  In the final state
the block `0x10000` is reachable from the free head and from the used head. -/
theorem C7_block_in_both_lists :
    Trace 4096 7 Call.basic state_C7
      ∧ OnList state_C7.heap.mem (slotOf 4096 7 state_C7).free 0x10000
      ∧ OnList state_C7.heap.mem (slotOf 4096 7 state_C7).used 0x10000 := by
  refine ⟨after_trace basicB_sound _ (by decide), ?_, ?_⟩
  · exact ⟨by decide, 2, by decide⟩
  · exact ⟨by decide, 0, by decide⟩

/-- C8 (failing input): in a state reached by alloc/release calls whose free
list is `[0x10000, 0x20000, 0x30000]` and whose used list is empty, `alloc(8)`
followed by `release` of the returned pointer leaves the free list
`[0x10018, 0x10000]`: two blocks instead of three plus the one created by the
split. -/
theorem C8_free_list_shrinks :
    Trace 4096 7 (Call.plain 4096) state_C8
      ∧ IsList state_C8.heap.mem (slotOf 4096 7 state_C8).free [0x10000, 0x20000, 0x30000]
      ∧ IsList state_C8.heap.mem (slotOf 4096 7 state_C8).used []
      ∧ ∃ s1 s2, malloc 4096 7 none none 10 8 state_C8 = Except.ok (0x10010, s1)
          ∧ free 4096 7 10 0x10010 s1 = Except.ok s2
          ∧ IsList s2.heap.mem (slotOf 4096 7 s2).free [0x10018, 0x10000]
          ∧ IsList s2.heap.mem (slotOf 4096 7 s2).used [] := by
  exact ⟨after_trace (plainB_sound 4096) _ (by decide), by decide, by decide,
    _, _, rfl, rfl, by decide, by decide⟩

/-! ## Page rounding -/

theorem land_mask (x k : Nat) (hk : k < 64) (hx : x < 2 ^ 64) :
    x &&& (2 ^ 64 - 2 ^ k) = x - x % 2 ^ k := by
  have h1 : x &&& (2 ^ 64 - 2 ^ k) = (x >>> k) <<< k := by
    apply Nat.eq_of_testBit_eq
    intro i
    have hp : 2 ^ 64 - 2 ^ k = 2 ^ 64 - ((2 ^ k - 1) + 1) := by
      have : 0 < 2 ^ k := Nat.two_pow_pos k
      omega
    have hlt : 2 ^ k - 1 < 2 ^ 64 := by
      have : 2 ^ k < 2 ^ 64 := Nat.pow_lt_pow_right (by decide) hk
      omega
    rw [Nat.testBit_and, hp, Nat.testBit_two_pow_sub_succ hlt, Nat.testBit_two_pow_sub_one,
      Nat.testBit_shiftLeft, Nat.testBit_shiftRight]
    by_cases hik : k ≤ i
    · have e : k + (i - k) = i := by omega
      by_cases hi : i < 64
      · simp [hik, hi, e, Nat.not_lt.mpr hik]
      · have : x.testBit i = false := by
          apply Nat.testBit_lt_two_pow
          exact lt_of_lt_of_le hx (Nat.pow_le_pow_right (by decide) (by omega))
        simp [this, e]
    · have : i < k := by omega
      simp [this, hik]
  rw [h1, Nat.shiftLeft_eq, Nat.shiftRight_eq_div_pow]
  have := Nat.div_add_mod x (2 ^ k)
  have h2 : x / 2 ^ k * 2 ^ k = 2 ^ k * (x / 2 ^ k) := Nat.mul_comm _ _
  omega

theorem PageOK_facts {pagesize : Nat} (h : PageOK pagesize) :
    pagesize % 8 = 0 ∧ 8 ≤ pagesize ∧ pagesize < W := by
  obtain ⟨k, h1, h2, rfl⟩ := h
  refine ⟨?_, ?_, ?_⟩
  · obtain ⟨j, rfl⟩ : ∃ j, k = 3 + j := ⟨k - 3, by omega⟩
    rw [pow_add]; omega
  · calc 8 = 2 ^ 3 := by norm_num
      _ ≤ 2 ^ k := Nat.pow_le_pow_right (by decide) h1
  · exact Nat.pow_lt_pow_right (by decide) h2

theorem numbytes_eq {pagesize : Nat} (h : PageOK pagesize) (bytes : Nat) :
    numbytes pagesize bytes = (bytes + sizeofHeader + pagesize - 1) % W
      - (bytes + sizeofHeader + pagesize - 1) % W % pagesize := by
  obtain ⟨h8, hge, hlt⟩ := PageOK_facts h
  obtain ⟨k, h1, h2, rfl⟩ := h
  unfold numbytes
  have e : W - 1 - (2 ^ k - 1) % W = 2 ^ 64 - 2 ^ k := by
    rw [Nat.mod_eq_of_lt (by omega)]
    unfold W; omega
  rw [e]
  exact land_mask _ k h2 (Nat.mod_lt _ (by unfold W; norm_num))

theorem numbytes_mod {pagesize : Nat} (h : PageOK pagesize) (bytes : Nat) :
    numbytes pagesize bytes % pagesize = 0 ∧ numbytes pagesize bytes % 8 = 0 ∧
      numbytes pagesize bytes < W := by
  obtain ⟨h8, hge, hlt⟩ := PageOK_facts h
  rw [numbytes_eq h]
  have hxW : (bytes + sizeofHeader + pagesize - 1) % W < W := Nat.mod_lt _ (by unfold W; norm_num)
  generalize (bytes + sizeofHeader + pagesize - 1) % W = x at hxW ⊢
  have hx : (x - x % pagesize) % pagesize = 0 := Nat.sub_mod_eq_zero_of_mod_eq (by simp)
  refine ⟨hx, ?_, ?_⟩
  · have := Nat.mod_mod_of_dvd (x - x % pagesize) (Nat.dvd_of_mod_eq_zero h8)
    omega
  · omega

/-! ## Alignment of every stored pointer -/

theorem MemAl_load {m : Nat → Nat} (hm : MemAl m) {a : Nat} (ha : a % 8 = 0) :
    load64raw m a % 8 = 0 := by
  rw [load64raw_mod8]; exact hm a ha

theorem MemAl_store {m : Nat → Nat} (hm : MemAl m) {a v : Nat} (ha : a % 8 = 0) (hv : v % 8 = 0) :
    MemAl (store64raw m a v) := by
  intro x hx
  unfold store64raw
  split
  · rename_i h
    have : x = a := by omega
    subst this
    simp
    omega
  · exact hm x hx

theorem store64_al {hp hp1 : Heap} {a v : Nat} (hm : MemAl hp.mem) (ha : a % 8 = 0)
    (hv : v % 8 = 0) (h : store64 hp a v = Except.ok hp1) : MemAl hp1.mem := by
  obtain ⟨_, rfl⟩ := store64_ok h
  exact MemAl_store hm ha hv

theorem load64_al {hp : Heap} {a v : Nat} (hm : MemAl hp.mem) (ha : a % 8 = 0)
    (h : load64 hp a = Except.ok v) : v % 8 = 0 := by
  obtain ⟨_, rfl⟩ := load64_ok h
  exact MemAl_load hm ha

theorem add_block_last_al {hp : Heap} (hm : MemAl hp.mem) :
    ∀ (fuel h t : Nat), h % 8 = 0 → add_block_last hp fuel h = Except.ok t → t % 8 = 0 := by
  intro fuel
  induction fuel with
  | zero => intro h t _ he; simp [add_block_last] at he
  | succ n ih =>
    intro h t hh he
    unfold add_block_last at he
    obtain ⟨nx, h1, h2⟩ := bind_ok he
    split at h2
    · exact ih _ _ (load64_al hm hh h1) h2
    · injection h2 with h2; omega

theorem add_block_al {hp : Heap} (hm : MemAl hp.mem) {fuel block list : Nat} {r : Nat × Heap}
    (hb : block % 8 = 0) (hl : list % 8 = 0) (he : add_block fuel block list hp = Except.ok r) :
    r.1 % 8 = 0 ∧ MemAl r.2.mem := by
  unfold add_block at he
  split at he
  · injection he with he; subst he; exact ⟨hb, hm⟩
  · obtain ⟨t, h1, h2⟩ := bind_ok he
    obtain ⟨hp1, h3, h4⟩ := bind_ok h2
    injection h4 with h4; subst h4
    exact ⟨hl, store64_al hm (add_block_last_al hm _ _ _ hl h1) hb h3⟩

theorem remove_block_find_al {hp : Heap} (hm : MemAl hp.mem) (block : Nat) :
    ∀ (fuel h t : Nat), h % 8 = 0 → remove_block_find hp block fuel h = Except.ok (some t) →
      t % 8 = 0 := by
  intro fuel
  induction fuel with
  | zero => intro h t _ he; simp [remove_block_find] at he
  | succ n ih =>
    intro h t hh he
    unfold remove_block_find at he
    obtain ⟨nx, h1, h2⟩ := bind_ok he
    split at h2
    · split at h2
      · simp [pure, Except.pure] at h2
      · exact ih _ _ (load64_al hm hh h1) h2
    · simp [pure, Except.pure] at h2; omega

theorem remove_block_al {hp : Heap} (hm : MemAl hp.mem) {fuel block list : Nat}
    {r : Nat × Nat × Heap} (hl : list % 8 = 0)
    (he : remove_block fuel block list hp = Except.ok r) :
    r.2.1 % 8 = 0 ∧ MemAl r.2.2.mem := by
  unfold remove_block at he
  split at he
  · injection he with he; subst he; exact ⟨hl, hm⟩
  · split at he
    · obtain ⟨nx, h1, h2⟩ := bind_ok he
      split at h2
      · injection h2 with h2; subst h2; exact ⟨rfl, hm⟩
      · injection h2 with h2; subst h2; exact ⟨load64_al hm hl h1, hm⟩
    · obtain ⟨o, h1, h2⟩ := bind_ok he
      cases o with
      | none => injection h2 with h2; subst h2; exact ⟨hl, hm⟩
      | some t =>
        have ht := remove_block_find_al hm block _ _ _ hl h1
        obtain ⟨n1, h3, h4⟩ := bind_ok h2
        obtain ⟨n2, h5, h6⟩ := bind_ok h4
        obtain ⟨hp1, h7, h8⟩ := bind_ok h6
        injection h8 with h8; subst h8
        have hn1 := load64_al hm ht h3
        exact ⟨hl, store64_al hm ht (load64_al hm hn1 h5) h7⟩

theorem and7 (p : Nat) : p &&& 7 = p % 8 := Nat.and_pow_two_sub_one_eq_mod p 3

theorem split_block2_al (block bytes : Nat) : split_block2 block bytes % 8 = 0 := by
  unfold split_block2
  simp only [is_aligned, and7, beq_iff_eq, sizeofHeader, W]
  split <;> omega

theorem split_al {hp : Heap} (hm : MemAl hp.mem) {fuel block bytes free : Nat} {r : Nat × Heap}
    (hb : block % 8 = 0) (hf : free % 8 = 0)
    (he : split fuel block bytes free hp = Except.ok r) :
    r.1 = block ∧ MemAl r.2.mem := by
  unfold split at he
  obtain ⟨size, h1, h2⟩ := bind_ok he
  have hsz := load64_al hm (show (block + 8) % 8 = 0 by omega) h1
  have hb2 := split_block2_al block bytes
  generalize split_block2 block bytes = block2 at h2 hb2
  simp only [sizeofHeader, W] at h2
  split at h2
  · injection h2 with h2; subst h2; exact ⟨rfl, hm⟩
  · obtain ⟨rb, h3, h4⟩ := bind_ok h2
    obtain ⟨hr1, hr2⟩ := remove_block_al hm hf h3
    obtain ⟨hp1, h5, h6⟩ := bind_ok h4
    have m1 := store64_al hr2 hb (by rfl) h5
    obtain ⟨hp2, h7, h8⟩ := bind_ok h6
    have m2 := store64_al m1 (show (block + 8) % 8 = 0 by omega) (by omega) h7
    obtain ⟨hp3, h9, h10⟩ := bind_ok h8
    have m3 := store64_al m2 hb2 (by rfl) h9
    obtain ⟨hp4, h11, h12⟩ := bind_ok h10
    have m4 := store64_al m3 (by omega) (by omega) h11
    obtain ⟨a1, h13, h14⟩ := bind_ok h12
    obtain ⟨ha1, m5⟩ := add_block_al m4 hb hr1 h13
    obtain ⟨a2, h15, h16⟩ := bind_ok h14
    obtain ⟨ha2, m6⟩ := add_block_al m5 hb2 ha1 h15
    injection h16 with h16; subst h16
    exact ⟨rfl, m6⟩

theorem mmap_cases (pagesize : Nat) (hp : Heap) (len : Nat) (hint : Option Nat) :
    mmap pagesize hp len hint = (MAP_FAILED, hp) ∨
    ∃ a, 0 < len ∧ 0 < a ∧ a % pagesize = 0 ∧ a + len < W ∧ a ≠ MAP_FAILED ∧
      (∀ r ∈ hp.mapped, a + len ≤ r.1 ∨ r.1 + r.2 ≤ a) ∧
      mmap pagesize hp len hint =
        (a, ⟨fun x => if a ≤ x ∧ x < a + len then 0 else hp.mem x, (a, len) :: hp.mapped⟩) := by
  unfold mmap
  cases hint with
  | none => exact Or.inl rfl
  | some a =>
    simp only
    split
    · rename_i h
      obtain ⟨h1, h2, h3, h4, h5⟩ := h
      refine Or.inr ⟨a, h1, h2, h3, h4, ?_, h5, rfl⟩
      unfold MAP_FAILED; omega
    · exact Or.inl rfl

theorem malloc_init_cases (pagesize : Nat) (tid : Int) (tblHint : Option Nat) (s : State) :
    (s.thread_tbl ≠ 0 ∧ malloc_init pagesize tid tblHint s = (some (), s)) ∨
    (s.thread_tbl = 0 ∧ malloc_init pagesize tid tblHint s = (none, ⟨s.heap, MAP_FAILED, s.slots⟩)) ∨
    (s.thread_tbl = 0 ∧ ∃ a, 0 < a ∧ a % pagesize = 0 ∧ a + pagesize < W ∧
      (∀ r ∈ s.heap.mapped, a + pagesize ≤ r.1 ∨ r.1 + r.2 ≤ a) ∧
      malloc_init pagesize tid tblHint s =
        (some (), ⟨⟨fun x => if a ≤ x ∧ x < a + pagesize then 0 else s.heap.mem x,
          (a, pagesize) :: s.heap.mapped⟩, a, init_slots tid (pagesize / sizeofThreadTable)⟩)) := by
  unfold malloc_init
  by_cases h0 : s.thread_tbl = 0
  · rw [if_pos h0]
    rcases mmap_cases pagesize s.heap pagesize tblHint with hc | ⟨a, c1, c2, c3, c4, c5, c6, hc⟩
    · right; left
      refine ⟨h0, ?_⟩
      rw [hc]
      exact if_pos rfl
    · right; right
      refine ⟨h0, a, c2, c3, c4, c6, ?_⟩
      rw [hc]
      exact if_neg c5
  · left
    exact ⟨h0, if_neg h0⟩

theorem find_block_scan_al {hp : Heap} (hm : MemAl hp.mem) (bytes : Nat) :
    ∀ (fuel h t : Nat), h % 8 = 0 → find_block_scan hp bytes fuel h = Except.ok (some t) →
      t % 8 = 0 := by
  intro fuel
  induction fuel with
  | zero => intro h t _ he; simp [find_block_scan] at he
  | succ n ih =>
    intro h t hh he
    unfold find_block_scan at he
    split at he
    · simp [pure, Except.pure] at he
    · obtain ⟨sz, h1, h2⟩ := bind_ok he
      split at h2
      · simp [pure, Except.pure] at h2; omega
      · obtain ⟨nx, h3, h4⟩ := bind_ok h2
        exact ih _ _ (load64_al hm hh h3) h4

theorem find_block_al {pagesize : Nat} (hps : PageOK pagesize) {hp : Heap} (hm : MemAl hp.mem)
    {hint : Option Nat} {fuel bytes free : Nat} {r : Nat × Heap} (hf : free % 8 = 0)
    (he : find_block pagesize hint fuel bytes free hp = Except.ok r) :
    r.1 % 8 = 0 ∧ MemAl r.2.mem := by
  unfold find_block at he
  obtain ⟨o, h1, h2⟩ := bind_ok he
  cases o with
  | some h =>
    have hh := find_block_scan_al hm bytes _ _ _ hf h1
    obtain ⟨e1, e2⟩ := split_al hm hh hf h2
    exact ⟨by rw [e1]; exact hh, e2⟩
  | none =>
    simp only at h2
    obtain ⟨n1, n2, n3⟩ := numbytes_mod hps bytes
    obtain ⟨p8, _, _⟩ := PageOK_facts hps
    rcases mmap_cases pagesize hp (numbytes pagesize bytes) hint with hc | ⟨a, c1, c2, c3, c4, c5, c6, hc⟩
    · rw [hc] at h2
      simp only [if_true] at h2
      injection h2 with h2; subst h2
      exact ⟨rfl, hm⟩
    · rw [hc] at h2
      simp only [if_neg c5] at h2
      have ha : a % 8 = 0 := by
        have := Nat.mod_mod_of_dvd a (Nat.dvd_of_mod_eq_zero p8)
        omega
      have hm0 : MemAl (fun x => if a ≤ x ∧ x < a + numbytes pagesize bytes then 0 else hp.mem x) := by
        intro x hx
        simp only
        split
        · rfl
        · exact hm x hx
      obtain ⟨hp1, h3, h4⟩ := bind_ok h2
      have m1 := @store64_al ⟨_, _⟩ _ _ _ hm0 ha (by rfl) h3
      obtain ⟨hp2, h5, h6⟩ := bind_ok h4
      have m2 := store64_al m1 (show (a + 8) % 8 = 0 by omega)
        (by unfold W sizeofHeader; omega) h5
      obtain ⟨a1, h7, h8⟩ := bind_ok h6
      obtain ⟨ha1, m3⟩ := add_block_al m2 ha hf h7
      obtain ⟨e1, e2⟩ := split_al m3 ha ha1 h8
      exact ⟨by rw [e1]; exact ha, e2⟩

theorem getD_HeadsAl {slots : List ThreadTable} (h : ∀ e ∈ slots, HeadsAl e) (i : Nat) :
    HeadsAl (slots.getD i default) := by
  rw [List.getD_eq_getElem?_getD]
  cases hi : slots[i]? with
  | none => exact ⟨rfl, rfl⟩
  | some e => exact h e (List.getElem?_mem hi)

theorem set_HeadsAl {slots : List ThreadTable} (h : ∀ e ∈ slots, HeadsAl e) (i : Nat)
    {e : ThreadTable} (he : HeadsAl e) : ∀ x ∈ slots.set i e, HeadsAl x := by
  intro x hx
  rcases List.mem_or_eq_of_mem_set hx with hx | rfl
  · exact h x hx
  · exact he

theorem malloc_scan_al (tid : Int) {slots : List ThreadTable} (h : ∀ e ∈ slots, HeadsAl e) :
    ∀ (k i : Nat), ∀ e ∈ (malloc_scan tid slots k i).2, HeadsAl e := by
  intro k
  induction k with
  | zero => intro i; exact h
  | succ n ih =>
    intro i
    unfold malloc_scan
    split
    · exact h
    · split
      · exact set_HeadsAl h i (getD_HeadsAl h i)
      · exact ih (i + 1)

theorem init_slots_al (tid : Int) (num : Nat) : ∀ e ∈ init_slots tid num, HeadsAl e := by
  intro e he
  unfold init_slots at he
  rcases List.mem_cons.mp he with rfl | he
  · exact ⟨rfl, rfl⟩
  · rw [List.eq_of_mem_replicate he]; exact ⟨rfl, rfl⟩

theorem malloc_init_al {pagesize : Nat} {tid : Int} {tblHint : Option Nat} {s : State}
    (h : MemAl s.heap.mem ∧ ∀ e ∈ s.slots, HeadsAl e) :
    MemAl (malloc_init pagesize tid tblHint s).2.heap.mem ∧
      ∀ e ∈ (malloc_init pagesize tid tblHint s).2.slots, HeadsAl e := by
  rcases malloc_init_cases pagesize tid tblHint s with ⟨_, hc⟩ | ⟨_, hc⟩ | ⟨_, a, _, _, _, _, hc⟩
  · rw [hc]; exact h
  · rw [hc]; exact h
  · rw [hc]
    refine ⟨?_, init_slots_al _ _⟩
    intro x hx
    show (if a ≤ x ∧ x < a + pagesize then 0 else s.heap.mem x) % 8 = 0
    split
    · rfl
    · exact h.1 x hx

theorem malloc_main_al {pagesize : Nat} (hps : PageOK pagesize) {tid : Int} {blkHint : Option Nat}
    {fuel bytes : Nat} {s1 : State} {r : Nat × State}
    (hi : MemAl s1.heap.mem ∧ ∀ e ∈ s1.slots, HeadsAl e)
    (he : malloc_main pagesize tid blkHint fuel bytes s1 = Except.ok r) :
    r.1 % 8 = 0 ∧ MemAl r.2.heap.mem ∧ ∀ e ∈ r.2.slots, HeadsAl e := by
  unfold malloc_main at he
  simp only at he
  split at he
  · simp at he
  · have hsc := malloc_scan_al tid hi.2 (pagesize / sizeofThreadTable) 0
    generalize malloc_scan tid s1.slots (pagesize / sizeofThreadTable) 0 = sc at he hsc
    split at he
    · injection he with he; subst he
      exact ⟨rfl, hi.1, hsc⟩
    · obtain ⟨f, h1, h2⟩ := bind_ok he
      have hg := getD_HeadsAl hsc sc.1
      obtain ⟨f1, f2⟩ := find_block_al hps hi.1 hg.2 h1
      split at h2
      · injection h2 with h2; subst h2
        exact ⟨rfl, f2, hsc⟩
      · obtain ⟨rb, h3, h4⟩ := bind_ok h2
        obtain ⟨r1, r2⟩ := remove_block_al f2 hg.2 h3
        obtain ⟨hp1, h5, h6⟩ := bind_ok h4
        have m1 := store64_al r2 f1 (by rfl) h5
        obtain ⟨a, h7, h8⟩ := bind_ok h6
        obtain ⟨a1, a2⟩ := add_block_al m1 f1 hg.1 h7
        injection h8 with h8; subst h8
        refine ⟨by unfold sizeofHeader W; omega, a2, set_HeadsAl hsc _ ⟨a1, r1⟩⟩

theorem malloc_al {pagesize : Nat} (hps : PageOK pagesize) {tid : Int} {tblHint blkHint : Option Nat}
    {fuel bytes : Nat} {s : State} {r : Nat × State}
    (h : MemAl s.heap.mem ∧ ∀ e ∈ s.slots, HeadsAl e)
    (he : malloc pagesize tid tblHint blkHint fuel bytes s = Except.ok r) :
    r.1 % 8 = 0 ∧ MemAl r.2.heap.mem ∧ ∀ e ∈ r.2.slots, HeadsAl e := by
  unfold malloc at he
  have hi := @malloc_init_al pagesize tid tblHint s h
  generalize malloc_init pagesize tid tblHint s = mi at he hi
  obtain ⟨o, s1⟩ := mi
  cases o with
  | none =>
    simp only [pure, Except.pure] at he
    injection he with he; subst he
    exact ⟨rfl, hi⟩
  | some u =>
    simp only at he hi
    exact malloc_main_al hps hi he

theorem free_al {pagesize : Nat} {tid : Int} {fuel ptr : Nat} {s s1 : State}
    (h : MemAl s.heap.mem ∧ ∀ e ∈ s.slots, HeadsAl e) (hp : ptr % 8 = 0)
    (he : free pagesize tid fuel ptr s = Except.ok s1) :
    MemAl s1.heap.mem ∧ ∀ e ∈ s1.slots, HeadsAl e := by
  unfold free at he
  simp only at he
  split at he
  · injection he with he; subst he; exact h
  · split at he
    · simp at he
    · split at he
      · injection he with he; subst he; exact h
      · have hg := getD_HeadsAl h.2 (free_scan tid s.slots (pagesize / sizeofThreadTable) 0)
        have hh : hdr ptr % 8 = 0 := by unfold hdr W sizeofHeader; omega
        obtain ⟨rb, h3, h4⟩ := bind_ok he
        obtain ⟨r1, r2⟩ := remove_block_al h.1 hg.1 h3
        obtain ⟨hp1, h5, h6⟩ := bind_ok h4
        have m1 := store64_al r2 hh (by rfl) h5
        obtain ⟨a, h7, h8⟩ := bind_ok h6
        obtain ⟨a1, a2⟩ := add_block_al m1 hh hg.2 h7
        injection h8 with h8; subst h8
        exact ⟨a2, set_HeadsAl h.2 _ ⟨r1, a1⟩⟩

/-! ## C5: returned pointers are 8-byte aligned -/

theorem memset_al {hp hp1 : Heap} {dst n : Nat} (hm : MemAl hp.mem)
    (h : memset hp dst 0 n = Except.ok hp1) : MemAl hp1.mem := by
  unfold memset at h
  split at h
  · injection h with h; subst h
    intro x hx
    show (if dst ≤ x ∧ x < dst + n then 0 % 256 else hp.mem x) % 8 = 0
    split
    · rfl
    · exact hm x hx
  · simp at h

theorem memcpy_raw_al {m : Nat → Nat} (hm : MemAl m) {dst src : Nat} (hd : dst % 8 = 0)
    (hs : src % 8 = 0) : ∀ n, MemAl (memcpy_raw m dst src n) := by
  intro n
  induction n with
  | zero => exact hm
  | succ k ih =>
    intro x hx
    unfold memcpy_raw
    split
    · rename_i h
      exact ih (src + k) (by omega)
    · exact ih x hx

theorem memcpy_al {hp hp1 : Heap} {dst src n : Nat} (hm : MemAl hp.mem) (hd : dst % 8 = 0)
    (hs : src % 8 = 0) (h : memcpy hp dst src n = Except.ok hp1) : MemAl hp1.mem := by
  unfold memcpy at h
  split at h
  · injection h with h; subst h
    exact memcpy_raw_al hm hd hs n
  · simp at h

theorem calloc_al {pagesize : Nat} (hps : PageOK pagesize) {tid : Int} {tblHint blkHint : Option Nat}
    {fuel bytes value : Nat} {s : State} {r : Nat × State} (h : Aligned s)
    (he : calloc pagesize tid tblHint blkHint fuel bytes value s = Except.ok r) :
    r.1 % 8 = 0 ∧ Aligned r.2 := by
  unfold calloc at he
  obtain ⟨m, h1, h2⟩ := bind_ok he
  obtain ⟨m1, m2, m3⟩ := malloc_al hps h h1
  split at h2
  · injection h2 with h2; subst h2; exact ⟨rfl, m2, m3⟩
  · obtain ⟨hp, h3, h4⟩ := bind_ok h2
    injection h4 with h4; subst h4
    exact ⟨m1, memset_al m2 h3, m3⟩

theorem realloc_al {pagesize : Nat} (hps : PageOK pagesize) {tid : Int} {tblHint blkHint : Option Nat}
    {fuel ptr bytes : Nat} {s : State} {r : Nat × State} (h : Aligned s) (hp : ptr % 8 = 0)
    (he : realloc pagesize tid tblHint blkHint fuel ptr bytes s = Except.ok r) :
    r.1 % 8 = 0 ∧ Aligned r.2 := by
  unfold realloc at he
  obtain ⟨m, h1, h2⟩ := bind_ok he
  obtain ⟨m1, m2, m3⟩ := malloc_al hps h h1
  split at h2
  · injection h2 with h2; subst h2; exact ⟨rfl, m2, m3⟩
  · obtain ⟨hp1, h3, h4⟩ := bind_ok h2
    obtain ⟨s2, h5, h6⟩ := bind_ok h4
    injection h6 with h6; subst h6
    exact ⟨m1, @free_al pagesize tid fuel ptr ⟨hp1, _, _⟩ s2 ⟨memcpy_al m2 m1 hp h3, m3⟩ hp h5⟩

theorem nth_node_al {m : Nat → Nat} (hm : MemAl m) {head : Nat} (hh : head % 8 = 0) :
    ∀ n, nth_node m head n % 8 = 0 := by
  intro n
  induction n with
  | zero => exact hh
  | succ k ih =>
    unfold nth_node
    split
    · rfl
    · exact MemAl_load hm ih

theorem OnList_al {m : Nat → Nat} (hm : MemAl m) {head b : Nat} (hh : head % 8 = 0)
    (h : OnList m head b) : b % 8 = 0 := by
  obtain ⟨_, n, rfl⟩ := h
  exact nth_node_al hm hh n

theorem ValidPtr_al {pagesize : Nat} {tid : Int} {s : State} {ptr : Nat} (h : Aligned s)
    (hv : ValidPtr pagesize tid s ptr) : ptr % 8 = 0 := by
  obtain ⟨_, _, _, h4⟩ := hv
  have := OnList_al h.1 (getD_HeadsAl h.2 _).1 h4
  unfold hdr W sizeofHeader at this
  omega

theorem run_al {pagesize : Nat} (hps : PageOK pagesize) {tid : Int} {c : Call} {fuel : Nat}
    {s : State} {r : Nat × State} (h : Aligned s) (hwf : c.wf pagesize tid s)
    (he : c.run pagesize tid fuel s = Except.ok r) : r.1 % 8 = 0 ∧ Aligned r.2 := by
  cases c with
  | alloc bytes t b => exact malloc_al hps h he
  | zero_alloc count unit t b => exact @calloc_al pagesize hps tid t b fuel count unit s r h he
  | resize ptr bytes t b => exact realloc_al hps h (ValidPtr_al h hwf.1) he
  | release ptr =>
    simp only [Call.run] at he
    cases hf : free pagesize tid fuel ptr s with
    | error e => rw [hf] at he; simp [Except.map] at he
    | ok s1 =>
      rw [hf] at he
      simp only [Except.map] at he
      injection he with he; subst he
      exact ⟨rfl, free_al h (ValidPtr_al h hwf) hf⟩

theorem init_al : Aligned init := ⟨fun _ _ => rfl, fun e he => by simp [init] at he⟩

theorem Trace_al {pagesize : Nat} (hps : PageOK pagesize) {tid : Int} {P : Call → Prop} {s : State}
    (h : Trace pagesize tid P s) : Aligned s := by
  induction h with
  | init => exact init_al
  | step _ _ hwf hr ih => exact (run_al hps ih hwf hr).2

/-- Alignment without wrap-around.  In every state reached by a single thread
through alloc, zero_alloc, resize and release calls with non-wrapping request
sizes (release and resize only on valid pointers; the kernel hands out
page-aligned regions, pages being a power of two of at least 8 bytes), the
pointer returned by the next such call is a multiple of 8, and so is every
header address on the free and the used list of the thread, as well as that
address plus `sizeof(Header)`. -/
theorem returned_pointers_aligned {pagesize : Nat} (hps : PageOK pagesize) {tid : Int}
    {s s1 : State} {c : Call} {fuel p : Nat}
    (ht : Trace pagesize tid (Call.small pagesize) s) (hwf : c.wf pagesize tid s)
    (_hsm : c.small pagesize)
    (hr : c.run pagesize tid fuel s = Except.ok (p, s1)) :
    p % 8 = 0 ∧
      ∀ b, OnList s1.heap.mem (slotOf pagesize tid s1).free b ∨
           OnList s1.heap.mem (slotOf pagesize tid s1).used b →
        b % 8 = 0 ∧ (b + sizeofHeader) % 8 = 0 := by
  obtain ⟨h1, h2⟩ := run_al hps (Trace_al hps ht) hwf hr
  refine ⟨h1, ?_⟩
  intro b hb
  have hg := getD_HeadsAl h2.2 (free_scan tid s1.slots (pagesize / sizeofThreadTable) 0)
  have : b % 8 = 0 := by
    rcases hb with hb | hb
    · exact OnList_al h2.1 hg.2 hb
    · exact OnList_al h2.1 hg.1 hb
  exact ⟨this, by unfold sizeofHeader; omega⟩

/-- The first `alloc(8)` of a fresh process returns `0x10010`. -/
theorem returned_pointers_aligned_example : (0x10010 : Nat) % 8 = 0 :=
  (@returned_pointers_aligned 4096 ⟨12, by decide, by decide, by decide⟩ 7 init
    (after 4096 7 10 (fun _ => true) [Call.alloc 8 (some 0x100000) (some 0x10000)])
    (Call.alloc 8 (some 0x100000) (some 0x10000)) 10 0x10010
    Trace.init (show (8 : Nat) < W by decide) (smallB_sound 4096 _ (by decide)) rfl).1

/-! ## The list operations on well-formed lists -/

theorem load64_eq {hp : Heap} {a : Nat} (h : accessible hp a 8) :
    load64 hp a = Except.ok (load64raw hp.mem a) := if_pos h

theorem store64_eq {hp : Heap} {a : Nat} (v : Nat) (h : accessible hp a 8) :
    store64 hp a v = Except.ok ⟨store64raw hp.mem a v, hp.mapped⟩ := if_pos h

theorem ok_bind {α β : Type} (a : α) (f : α → M β) : (Except.ok a >>= f) = f a := rfl

theorem IsList_head_ne {m : Nat → Nat} {head b : Nat} {l : List Nat}
    (h : IsList m head (b :: l)) : head = b ∧ head ≠ 0 := by
  obtain ⟨h1, h2, _⟩ := h
  exact ⟨h1, h1 ▸ h2⟩

/-- The walk of `add_block` ends at the last node of the list. -/
theorem add_block_last_eq {hp : Heap} {t : Nat} : ∀ (l : List Nat) (head fuel : Nat),
    IsList hp.mem head (l ++ [t]) → (∀ b ∈ l ++ [t], accessible hp b 8) →
    add_block_last hp fuel head =
      if (l ++ [t]).length ≤ fuel then Except.ok t else Except.error Err.fuel := by
  intro l
  induction l with
  | nil =>
    intro head fuel hl hacc
    obtain ⟨h1, h2, h3⟩ := hl
    subst h1
    have h3 : load64raw hp.mem head = 0 := h3
    cases fuel with
    | zero => rfl
    | succ k =>
      unfold add_block_last
      rw [load64_eq (hacc head (by simp)), ok_bind]
      simp [h3]
      rfl
  | cons b l ih =>
    intro head fuel hl hacc
    obtain ⟨h1, h2, h3⟩ := hl
    subst h1
    cases fuel with
    | zero => simp [add_block_last]
    | succ k =>
      unfold add_block_last
      rw [load64_eq (hacc head (by simp)), ok_bind]
      have hne : load64raw hp.mem head ≠ 0 := by
        cases l with
        | nil => exact (IsList_head_ne h3).2
        | cons c l2 => exact (IsList_head_ne h3).2
      rw [if_pos hne, ih _ k h3 (fun x hx => hacc x (List.mem_cons_of_mem _ hx))]
      simp

theorem add_block_nil (fuel block : Nat) (hp : Heap) :
    add_block fuel block 0 hp = Except.ok (block, hp) := by
  unfold add_block
  rfl

theorem add_block_eq {hp : Heap} {t list : Nat} {l : List Nat} (fuel block : Nat)
    (hl : IsList hp.mem list (l ++ [t])) (hacc : ∀ b ∈ l ++ [t], accessible hp b 8) :
    add_block fuel block list hp =
      if (l ++ [t]).length ≤ fuel then
        Except.ok (list, ⟨store64raw hp.mem t block, hp.mapped⟩)
      else Except.error Err.fuel := by
  unfold add_block
  have hne : list ≠ 0 := by
    cases l with
    | nil => exact (IsList_head_ne hl).2
    | cons c l2 => exact (IsList_head_ne hl).2
  rw [if_neg hne, add_block_last_eq l list fuel hl hacc]
  split
  · rw [ok_bind, store64_eq block (hacc t (by simp)), ok_bind]
    rfl
  · rfl

theorem IsList_next {m : Nat → Nat} {head b : Nat} {l : List Nat}
    (h : IsList m head (b :: l)) : IsList m (load64raw m b) l := h.2.2

/-- The `next` field of a node followed by `c` holds `c`. -/
theorem IsList_next_cons {m : Nat → Nat} {head b c : Nat} {l : List Nat}
    (h : IsList m head (b :: c :: l)) : load64raw m b = c ∧ c ≠ 0 :=
  ⟨(IsList_head_ne h.2.2).1, h.2.2.2.1⟩

theorem IsList_next_nil {m : Nat → Nat} {head b : Nat}
    (h : IsList m head [b]) : load64raw m b = 0 := h.2.2

/-- A list can be entered at any of its nodes. -/
theorem IsList_mid {m : Nat → Nat} {p : Nat} {rest : List Nat} : ∀ (l1 : List Nat) (list : Nat),
    IsList m list (l1 ++ p :: rest) → IsList m p (p :: rest) := by
  intro l1
  induction l1 with
  | nil => intro list hl; exact (IsList_head_ne hl).1 ▸ hl
  | cons c l3 ih =>
    intro list hl
    exact ih _ (IsList_next hl)

/-- The search of `remove_block` stops at the predecessor of `block`. -/
theorem remove_block_find_found {hp : Heap} {p block : Nat} {l2 : List Nat} :
    ∀ (l1 : List Nat) (head fuel : Nat),
    IsList hp.mem head (l1 ++ p :: block :: l2) → block ∉ l1 → block ≠ p →
    (∀ b ∈ l1 ++ [p], accessible hp b 8) →
    remove_block_find hp block fuel head =
      if l1.length + 1 ≤ fuel then Except.ok (some p) else Except.error Err.fuel := by
  intro l1
  induction l1 with
  | nil =>
    intro head fuel hl _ _ hacc
    have hh := (IsList_head_ne hl).1
    subst hh
    have hn := (IsList_next_cons hl).1
    cases fuel with
    | zero => rfl
    | succ k =>
      unfold remove_block_find
      rw [load64_eq (hacc head (by simp)), ok_bind, hn]
      simp
      rfl
  | cons b l1 ih =>
    intro head fuel hl hnot hne hacc
    have hh := (IsList_head_ne hl).1
    subst hh
    cases fuel with
    | zero => simp [remove_block_find]
    | succ k =>
      unfold remove_block_find
      rw [load64_eq (hacc head (by simp)), ok_bind]
      have hnb : block ∉ l1 := fun h => hnot (List.mem_cons_of_mem _ h)
      have hnext : load64raw hp.mem head ≠ block ∧ load64raw hp.mem head ≠ 0 := by
        cases l1 with
        | nil =>
          obtain ⟨e, e0⟩ := IsList_next_cons (hl : IsList hp.mem head (head :: p :: block :: l2))
          rw [e]; exact ⟨fun h => hne h.symm, e0⟩
        | cons c l3 =>
          obtain ⟨e, e0⟩ := IsList_next_cons
            (hl : IsList hp.mem head (head :: c :: (l3 ++ p :: block :: l2)))
          rw [e]
          exact ⟨fun h => hnb (by rw [← h]; simp), e0⟩
      rw [if_pos hnext.1, if_neg hnext.2,
        ih _ k (IsList_next hl) hnb hne (fun x hx => hacc x (List.mem_cons_of_mem _ hx))]
      simp

/-- The search of `remove_block` reaches the end of a list that does not hold `block`. -/
theorem remove_block_find_none {hp : Heap} {block : Nat} (hb : block ≠ 0) :
    ∀ (l : List Nat) (b head fuel : Nat),
    IsList hp.mem head (b :: l) → block ∉ l →
    (∀ x ∈ b :: l, accessible hp x 8) →
    remove_block_find hp block fuel head =
      if (b :: l).length ≤ fuel then Except.ok none else Except.error Err.fuel := by
  intro l
  induction l with
  | nil =>
    intro b head fuel hl _ hacc
    have hh := (IsList_head_ne hl).1
    subst hh
    have hn := IsList_next_nil hl
    cases fuel with
    | zero => rfl
    | succ k =>
      unfold remove_block_find
      rw [load64_eq (hacc head (by simp)), ok_bind, hn, if_pos (fun h => hb h.symm), if_pos rfl]
      simp
      rfl
  | cons c l ih =>
    intro b head fuel hl hnot hacc
    have hh := (IsList_head_ne hl).1
    subst hh
    obtain ⟨e, e0⟩ := IsList_next_cons hl
    cases fuel with
    | zero => simp [remove_block_find]
    | succ k =>
      unfold remove_block_find
      rw [load64_eq (hacc head (by simp)), ok_bind, e,
        if_pos (fun h => hnot (by rw [← h]; simp)), if_neg e0,
        ih c c k (by have := IsList_next hl; rw [e] at this; exact this)
          (fun h => hnot (List.mem_cons_of_mem _ h))
          (fun x hx => hacc x (List.mem_cons_of_mem _ hx))]
      simp

/-- `remove_block` on the head of the list. -/
theorem remove_block_head {hp : Heap} {block list : Nat} {l2 : List Nat} (fuel : Nat)
    (hl : IsList hp.mem list (block :: l2)) (hacc : accessible hp block 8) :
    remove_block fuel block list hp = Except.ok (0, load64raw hp.mem block, hp) := by
  obtain ⟨h1, h2⟩ := IsList_head_ne hl
  subst h1
  unfold remove_block
  rw [if_neg (by simp [h2]), if_pos rfl, load64_eq hacc, ok_bind]
  split
  · rename_i h; rw [h]; rfl
  · rfl

/-- `remove_block` on an inner node of the list. -/
theorem remove_block_inner {hp : Heap} {p block list : Nat} {l1 l2 : List Nat} (fuel : Nat)
    (hl : IsList hp.mem list (l1 ++ p :: block :: l2)) (hnot : block ∉ l1) (hne : block ≠ p)
    (hacc : ∀ b ∈ l1 ++ [p, block], accessible hp b 8) :
    remove_block fuel block list hp =
      if l1.length + 1 ≤ fuel then
        Except.ok (0, list, ⟨store64raw hp.mem p (load64raw hp.mem block), hp.mapped⟩)
      else Except.error Err.fuel := by
  have hb0 : block ≠ 0 := IsList_ne_zero hl block (by simp)
  have hhead : list ≠ 0 ∧ list ≠ block := by
    cases l1 with
    | nil =>
      obtain ⟨e1, e2⟩ := IsList_head_ne (hl : IsList hp.mem list (p :: block :: l2))
      exact ⟨e2, fun h => hne (by rw [← h, e1])⟩
    | cons c l3 =>
      obtain ⟨e1, e2⟩ := IsList_head_ne (hl : IsList hp.mem list (c :: (l3 ++ p :: block :: l2)))
      exact ⟨e2, fun h => hnot (by rw [← h, e1]; simp)⟩
  unfold remove_block
  rw [if_neg (by simp [hhead.1, hb0]), if_neg hhead.2,
    remove_block_find_found l1 list fuel hl hnot hne
      (fun b hb => hacc b (by simp at hb ⊢; tauto))]
  split
  · have hnp : load64raw hp.mem p = block := (IsList_next_cons (IsList_mid l1 list hl)).1
    rw [ok_bind]
    simp only
    rw [load64_eq (hacc p (by simp)), ok_bind, hnp, load64_eq (hacc block (by simp)), ok_bind,
      store64_eq _ (hacc p (by simp)), ok_bind]
    rfl
  · rfl

/-- `remove_block` on a list that does not hold `block`. -/
theorem remove_block_absent {hp : Heap} {block list : Nat} {l : List Nat} (fuel : Nat)
    (hl : IsList hp.mem list l) (hnot : block ∉ l)
    (hacc : ∀ b ∈ l, accessible hp b 8) :
    remove_block fuel block list hp =
      if l = [] ∨ block = 0 ∨ l.length ≤ fuel then Except.ok (1, list, hp)
      else Except.error Err.fuel := by
  unfold remove_block
  cases l with
  | nil =>
    have : list = 0 := hl
    subst this
    simp
    rfl
  | cons b l =>
    obtain ⟨e1, e2⟩ := IsList_head_ne hl
    subst e1
    by_cases hb : block = 0
    · subst hb; simp; rfl
    · have hne : list ≠ block := fun h => hnot (by rw [← h]; simp)
      rw [if_neg (by simp [e2, hb]), if_neg hne,
        remove_block_find_none hb l list list fuel hl
          (fun h => hnot (List.mem_cons_of_mem _ h)) hacc]
      by_cases hf : (list :: l).length ≤ fuel
      · rw [if_pos hf, if_pos (Or.inr (Or.inr hf))]; rfl
      · rw [if_neg hf, if_neg (by simp [hb]; simpa using hf)]; rfl

theorem accessible_sub {hp : Heap} {a n : Nat} (h : accessible hp a n) (k j : Nat)
    (hk : k + j ≤ n) : accessible hp (a + k) j := by
  obtain ⟨h1, h2⟩ := h
  refine ⟨by omega, fun i hi => ?_⟩
  have := h2 (k + i) (by omega)
  rwa [← Nat.add_assoc] at this

theorem accessible_hdr {hp : Heap} {a : Nat} (h : accessible hp a 16) :
    accessible hp a 8 ∧ accessible hp (a + 8) 8 :=
  ⟨by simpa using accessible_sub h 0 8 (by omega), accessible_sub h 8 8 (by omega)⟩

/-- The first-fit loop stops at the first block whose size reaches `bytes`. -/
theorem find_block_scan_found {hp : Heap} {bytes c : Nat} {l2 : List Nat} :
    ∀ (l1 : List Nat) (head fuel : Nat),
    IsList hp.mem head (l1 ++ c :: l2) → (∀ b ∈ l1, load64raw hp.mem (b + 8) < bytes) →
    bytes ≤ load64raw hp.mem (c + 8) → (∀ b ∈ l1 ++ [c], accessible hp b 16) →
    find_block_scan hp bytes fuel head =
      if l1.length + 1 ≤ fuel then Except.ok (some c) else Except.error Err.fuel := by
  intro l1
  induction l1 with
  | nil =>
    intro head fuel hl _ hc hacc
    obtain ⟨e1, e2⟩ := IsList_head_ne hl
    subst e1
    cases fuel with
    | zero => rfl
    | succ k =>
      unfold find_block_scan
      rw [if_neg e2, load64_eq (accessible_hdr (hacc head (by simp))).2, ok_bind]
      simp [hc]
      rfl
  | cons b l1 ih =>
    intro head fuel hl hlt hc hacc
    obtain ⟨e1, e2⟩ := IsList_head_ne hl
    subst e1
    cases fuel with
    | zero => simp [find_block_scan]
    | succ k =>
      unfold find_block_scan
      have hb := hlt head (by simp)
      rw [if_neg e2, load64_eq (accessible_hdr (hacc head (by simp))).2, ok_bind,
        if_neg (by omega), load64_eq (accessible_hdr (hacc head (by simp))).1, ok_bind,
        ih _ k (IsList_next hl) (fun x hx => hlt x (List.mem_cons_of_mem _ hx)) hc
          (fun x hx => hacc x (List.mem_cons_of_mem _ hx))]
      simp

/-- The first-fit loop runs to the end of a list without a fitting block. -/
theorem find_block_scan_none {hp : Heap} {bytes : Nat} :
    ∀ (l : List Nat) (head fuel : Nat),
    IsList hp.mem head l → (∀ b ∈ l, load64raw hp.mem (b + 8) < bytes) →
    (∀ b ∈ l, accessible hp b 16) →
    find_block_scan hp bytes fuel head =
      if l.length + 1 ≤ fuel then Except.ok none else Except.error Err.fuel := by
  intro l
  induction l with
  | nil =>
    intro head fuel hl _ _
    have : head = 0 := hl
    subst this
    cases fuel with
    | zero => rfl
    | succ k => simp [find_block_scan]; rfl
  | cons b l ih =>
    intro head fuel hl hlt hacc
    obtain ⟨e1, e2⟩ := IsList_head_ne hl
    subst e1
    cases fuel with
    | zero => simp [find_block_scan]
    | succ k =>
      unfold find_block_scan
      have hb := hlt head (by simp)
      rw [if_neg e2, load64_eq (accessible_hdr (hacc head (by simp))).2, ok_bind,
        if_neg (by omega), load64_eq (accessible_hdr (hacc head (by simp))).1, ok_bind,
        ih _ k (IsList_next hl) (fun x hx => hlt x (List.mem_cons_of_mem _ hx))
          (fun x hx => hacc x (List.mem_cons_of_mem _ hx))]
      simp

/-- A list either has no element reaching `bytes` or splits at the first such element. -/
theorem firstfit_cases (Z : Nat → Nat) (bytes : Nat) : ∀ (l : List Nat),
    (∀ b ∈ l, Z b < bytes) ∨
    ∃ l1 c l2, l = l1 ++ c :: l2 ∧ (∀ b ∈ l1, Z b < bytes) ∧ bytes ≤ Z c := by
  intro l
  induction l with
  | nil => left; simp
  | cons a l ih =>
    by_cases ha : bytes ≤ Z a
    · right; exact ⟨[], a, l, rfl, by simp, ha⟩
    · rcases ih with h | ⟨l1, c, l2, e, h1, h2⟩
      · left
        intro b hb
        rcases List.mem_cons.mp hb with rfl | hb
        · omega
        · exact h b hb
      · right
        refine ⟨a :: l1, c, l2, by rw [e]; rfl, ?_, h2⟩
        intro b hb
        rcases List.mem_cons.mp hb with rfl | hb
        · omega
        · exact h1 b hb

/-! ## Lists under stores -/

/-- A list is not disturbed by a store that stays clear of the `next` fields of its nodes. -/
theorem IsList_store_other {m : Nat → Nat} {c v : Nat} : ∀ (l : List Nat) (head : Nat),
    IsList m head l → (∀ a ∈ l, a + 8 ≤ c ∨ c + 8 ≤ a) → IsList (store64raw m c v) head l := by
  intro l
  induction l with
  | nil => intro head h _; exact h
  | cons b l ih =>
    intro head h hs
    obtain ⟨h1, h2, h3⟩ := h
    refine ⟨h1, h2, ?_⟩
    rw [load64raw_store64raw_disj m c v b (hs b (by simp))]
    exact ih _ h3 (fun a ha => hs a (List.mem_cons_of_mem _ ha))

/-- A list is not disturbed by a change of memory that keeps the `next` fields of its nodes. -/
theorem IsList_congr {m m1 : Nat → Nat} : ∀ (l : List Nat) (head : Nat),
    IsList m head l → (∀ a ∈ l, load64raw m1 a = load64raw m a) → IsList m1 head l := by
  intro l
  induction l with
  | nil => intro head h _; exact h
  | cons b l ih =>
    intro head h hs
    obtain ⟨h1, h2, h3⟩ := h
    refine ⟨h1, h2, ?_⟩
    rw [hs b (by simp)]
    exact ih _ h3 (fun a ha => hs a (List.mem_cons_of_mem _ ha))

/-- Linking `block` behind the last node `t` appends it to the list. -/
theorem IsList_snoc_store {m : Nat → Nat} {t block : Nat} (hb0 : block ≠ 0) (hbW : block < W)
    (hnb : load64raw m block = 0) (htb : t + 8 ≤ block ∨ block + 8 ≤ t) :
    ∀ (l : List Nat) (head : Nat), IsList m head (l ++ [t]) →
    (∀ a ∈ l, a + 8 ≤ t ∨ t + 8 ≤ a) →
    IsList (store64raw m t block) head (l ++ [t, block]) := by
  intro l
  induction l with
  | nil =>
    intro head h _
    obtain ⟨h1, h2, _⟩ := h
    refine ⟨h1, h2, ?_⟩
    rw [load64raw_store64raw_same m t block hbW]
    refine ⟨rfl, hb0, ?_⟩
    rw [load64raw_store64raw_disj m t block block (by omega), hnb]
    rfl
  | cons b l ih =>
    intro head h hs
    obtain ⟨h1, h2, h3⟩ := h
    refine ⟨h1, h2, ?_⟩
    rw [load64raw_store64raw_disj m t block b (hs b (by simp))]
    exact ih _ h3 (fun a ha => hs a (List.mem_cons_of_mem _ ha))

/-- Storing the successor of `block` into its predecessor `p` unlinks `block`. -/
theorem IsList_splice_store {m : Nat → Nat} {p block : Nat} {l2 : List Nat}
    (hl2 : ∀ a ∈ l2, a + 8 ≤ p ∨ p + 8 ≤ a) :
    ∀ (l1 : List Nat) (head : Nat), IsList m head (l1 ++ p :: block :: l2) →
    (∀ a ∈ l1, a + 8 ≤ p ∨ p + 8 ≤ a) →
    IsList (store64raw m p (load64raw m block)) head (l1 ++ p :: l2) := by
  intro l1
  induction l1 with
  | nil =>
    intro head h _
    obtain ⟨h1, h2, h3⟩ := h
    refine ⟨h1, h2, ?_⟩
    rw [load64raw_store64raw_same m p _ (load64raw_lt m block)]
    exact IsList_store_other l2 _ (IsList_next h3) hl2
  | cons b l ih =>
    intro head h hs
    obtain ⟨h1, h2, h3⟩ := h
    refine ⟨h1, h2, ?_⟩
    rw [load64raw_store64raw_disj m p _ b (hs b (by simp))]
    exact ih _ h3 (fun a ha => hs a (List.mem_cons_of_mem _ ha))

/-- Two chains from the same head that both end are the same list. -/
theorem IsList_unique {m : Nat → Nat} : ∀ (l1 l2 : List Nat) (head : Nat),
    IsList m head l1 → IsList m head l2 → l1 = l2 := by
  intro l1
  induction l1 with
  | nil =>
    intro l2 head h1 h2
    have e : head = 0 := h1
    cases l2 with
    | nil => rfl
    | cons b l => exact absurd e (IsList_head_ne h2).2
  | cons a l ih =>
    intro l2 head h1 h2
    cases l2 with
    | nil =>
      have e : head = 0 := h2
      exact absurd e (IsList_head_ne h1).2
    | cons b l2 =>
      have e1 := (IsList_head_ne h1).1
      have e2 := (IsList_head_ne h2).1
      have : a = b := by rw [← e1, ← e2]
      subst this
      rw [ih l2 _ (IsList_next h1) (IsList_next h2)]

/-- A chain that ends visits no node twice. -/
theorem IsList_nodup {m : Nat → Nat} : ∀ (l : List Nat) (head : Nat),
    IsList m head l → l.Nodup := by
  intro l
  induction l with
  | nil => intro _ _; exact List.nodup_nil
  | cons a l ih =>
    intro head h
    refine List.nodup_cons.mpr ⟨?_, ih _ (IsList_next h)⟩
    intro ha
    obtain ⟨l1, l2, e⟩ := List.append_of_mem ha
    have h1 : IsList m a (a :: l) := (IsList_head_ne h).1 ▸ h
    have h2 : IsList m a (a :: l2) := by
      have := IsList_next h
      rw [e] at this
      exact IsList_mid l1 _ this
    have := IsList_unique _ _ _ h1 h2
    have hlen := congrArg List.length this
    rw [e] at hlen
    simp at hlen
    omega

/-! ## The heap invariant -/

theorem accessible_of_reg {hp : Heap} {r : Nat × Nat} {a n : Nat} (hr : r ∈ hp.mapped)
    (h1 : r.1 ≤ a) (h2 : a + n ≤ r.1 + r.2) (h3 : r.1 + r.2 ≤ W) : accessible hp a n := by
  refine ⟨by omega, fun i hi => ?_⟩
  unfold isMapped
  rw [List.any_eq_true]
  exact ⟨r, hr, by simp; omega⟩

theorem HeapOK.subset {pagesize : Nat} {hp : Heap} {S S1 : List Nat} (h : HeapOK pagesize hp S)
    (hs : ∀ b ∈ S1, b ∈ S) : HeapOK pagesize hp S1 :=
  ⟨h.regs, fun b hb => h.ok b (hs b hb), fun a ha b hb hne => h.disj a (hs a ha) b (hs b hb) hne⟩

theorem HeapOK.bound {pagesize : Nat} {hp : Heap} {S : List Nat} (h : HeapOK pagesize hp S)
    {b : Nat} (hb : b ∈ S) : pagesize ≤ b ∧ b + 16 + load64raw hp.mem (b + 8) < W := by
  obtain ⟨r, hr, h1, h2⟩ := (h.ok b hb).reg
  have := h.regs r hr
  omega

theorem HeapOK.acc {pagesize : Nat} {hp : Heap} {S : List Nat} (h : HeapOK pagesize hp S)
    {b : Nat} (hb : b ∈ S) : accessible hp b (16 + load64raw hp.mem (b + 8)) := by
  obtain ⟨r, hr, h1, h2⟩ := (h.ok b hb).reg
  have := h.regs r hr
  exact accessible_of_reg hr h1 (by omega) (by omega)

theorem HeapOK.acc16 {pagesize : Nat} {hp : Heap} {S : List Nat} (h : HeapOK pagesize hp S)
    {b : Nat} (hb : b ∈ S) : accessible hp b 16 := by
  have := accessible_sub (h.acc hb) 0 16 (by omega)
  simpa using this

theorem HeapOK.acc8 {pagesize : Nat} {hp : Heap} {S : List Nat} (h : HeapOK pagesize hp S)
    {b : Nat} (hb : b ∈ S) : accessible hp b 8 := (accessible_hdr (h.acc16 hb)).1

theorem HeapOK.sep {pagesize : Nat} {hp : Heap} {S : List Nat} (h : HeapOK pagesize hp S)
    {a b : Nat} (ha : a ∈ S) (hb : b ∈ S) (hne : a ≠ b) : a + 16 ≤ b ∨ b + 16 ≤ a := by
  have := h.disj a ha b hb hne
  unfold Disj at this
  omega

/-- A change of memory that keeps the size fields of the blocks keeps them well placed. -/
theorem HeapOK.congr {pagesize : Nat} {hp hp1 : Heap} {S : List Nat} (h : HeapOK pagesize hp S)
    (hm : hp1.mapped = hp.mapped)
    (hs : ∀ b ∈ S, load64raw hp1.mem (b + 8) = load64raw hp.mem (b + 8)) :
    HeapOK pagesize hp1 S := by
  refine ⟨by rw [hm]; exact h.regs, fun b hb => ?_, fun a ha b hb hne => ?_⟩
  · have := h.ok b hb
    exact ⟨this.pos, this.al, by rw [hs b hb]; exact this.szal, by rw [hs b hb, hm]; exact this.reg⟩
  · have := h.disj a ha b hb hne
    unfold Disj at this ⊢
    rw [hs a ha, hs b hb]
    exact this

/-- Under `NextFrame F`, with `F` among well-placed disjoint blocks, every byte
of a block behind its `next` field is unchanged. -/
theorem NextFrame.body {pagesize : Nat} {hp : Heap} {S F : List Nat} {m1 : Nat → Nat}
    (h : HeapOK pagesize hp S) (hF : ∀ b ∈ F, b ∈ S) (hfr : NextFrame F hp.mem m1)
    {b : Nat} (hb : b ∈ S) {x : Nat} (h1 : b + 8 ≤ x) (h2 : x < b + 16 + load64raw hp.mem (b + 8)) :
    m1 x = hp.mem x := by
  apply hfr
  intro c hc
  by_cases e : c = b
  · subst e; omega
  · have := h.disj c (hF c hc) b hb e
    unfold Disj at this
    omega

theorem NextFrame.size {pagesize : Nat} {hp : Heap} {S F : List Nat} {m1 : Nat → Nat}
    (h : HeapOK pagesize hp S) (hF : ∀ b ∈ F, b ∈ S) (hfr : NextFrame F hp.mem m1)
    {b : Nat} (hb : b ∈ S) : load64raw m1 (b + 8) = load64raw hp.mem (b + 8) := by
  apply load64raw_congr
  intro x h1 h2
  exact hfr.body h hF hb (by omega) (by omega)

theorem NextFrame.next {pagesize : Nat} {hp : Heap} {S F : List Nat} {m1 : Nat → Nat}
    (h : HeapOK pagesize hp S) (hF : ∀ b ∈ F, b ∈ S) (hfr : NextFrame F hp.mem m1)
    {b : Nat} (hb : b ∈ S) (hbF : b ∉ F) : load64raw m1 b = load64raw hp.mem b := by
  apply load64raw_congr
  intro x h1 h2
  apply hfr
  intro c hc
  have e : c ≠ b := fun e => hbF (e ▸ hc)
  have := h.sep (hF c hc) hb e
  omega

theorem NextFrame.heapOK {pagesize : Nat} {hp hp1 : Heap} {S F : List Nat}
    (h : HeapOK pagesize hp S) (hF : ∀ b ∈ F, b ∈ S) (hfr : NextFrame F hp.mem hp1.mem)
    (hm : hp1.mapped = hp.mapped) : HeapOK pagesize hp1 S :=
  h.congr hm (fun _ hb => hfr.size h hF hb)

theorem NextFrame.refl (F : List Nat) (m : Nat → Nat) : NextFrame F m m := fun _ _ => rfl

theorem NextFrame.store {F : List Nat} {m : Nat → Nat} {c : Nat} (v : Nat) (hc : c ∈ F) :
    NextFrame F m (store64raw m c v) := by
  intro x hx
  exact store64raw_other m c v x (by have := hx c hc; omega)

theorem NextFrame.trans {F : List Nat} {m m1 m2 : Nat → Nat} (h1 : NextFrame F m m1)
    (h2 : NextFrame F m1 m2) : NextFrame F m m2 := fun x hx => (h2 x hx).trans (h1 x hx)

theorem NextFrame.weaken {F G : List Nat} {m m1 : Nat → Nat} (h : NextFrame F m m1)
    (hs : ∀ b ∈ F, b ∈ G) : NextFrame G m m1 := fun x hx => h x (fun b hb => hx b (hs b hb))

theorem list_nil_or_snoc (l : List Nat) : l = [] ∨ ∃ L t, l = L ++ [t] := by
  rcases List.eq_nil_or_concat l with h | ⟨L, t, h⟩
  · exact Or.inl h
  · exact Or.inr ⟨L, t, by rw [h, List.concat_eq_append]⟩

theorem nodup_mid2 {A B : List Nat} {p block : Nat} (h : (A ++ p :: block :: B).Nodup) :
    block ∉ A ∧ block ≠ p ∧ (∀ a ∈ A, a ≠ p) ∧ (∀ a ∈ B, a ≠ p) ∧ block ∉ B := by
  simp only [List.nodup_append, List.nodup_cons, List.mem_cons, not_or] at h
  obtain ⟨h1, ⟨⟨h2, h3⟩, ⟨h4, h5⟩⟩, h6⟩ := h
  refine ⟨fun ha => ?_, fun e => h2 e.symm, fun a ha e => ?_, fun a ha e => h3 (e ▸ ha), h4⟩
  · exact h6 ha (by simp)
  · exact h6 ha (by simp [e])

theorem nodup_mid1 {A B : List Nat} {block : Nat} (h : (A ++ block :: B).Nodup) :
    block ∉ A ∧ block ∉ B := by
  simp only [List.nodup_append, List.nodup_cons] at h
  exact ⟨fun ha => h.2.2 ha (by simp), h.2.1.1⟩

/-- `add_block` on a well-formed list appends the block. -/
theorem add_block_spec {pagesize : Nat} {hp : Heap} {S l : List Nat} {list block fuel : Nat}
    {r : Nat × Heap} (h : HeapOK pagesize hp S) (hl : IsList hp.mem list l)
    (hS : ∀ b ∈ l, b ∈ S) (hb : block ∈ S) (hbl : block ∉ l)
    (hn : load64raw hp.mem block = 0) (he : add_block fuel block list hp = Except.ok r) :
    IsList r.2.mem r.1 (l ++ [block]) ∧ r.2.mapped = hp.mapped ∧ NextFrame l hp.mem r.2.mem := by
  rcases list_nil_or_snoc l with rfl | ⟨L, t, rfl⟩
  · have : list = 0 := hl
    subst this
    rw [add_block_nil] at he
    injection he with he; subst he
    exact ⟨⟨rfl, (h.ok block hb).pos, hn⟩, rfl, NextFrame.refl _ _⟩
  · have hnd := IsList_nodup _ _ hl
    rw [add_block_eq fuel block hl (fun b hb => h.acc8 (hS b hb))] at he
    split at he
    · injection he with he; subst he
      have ht : t ∈ S := hS t (by simp)
      have htb : t ≠ block := fun e => hbl (by simp [e])
      refine ⟨?_, rfl, NextFrame.store _ (by simp)⟩
      have := IsList_snoc_store (h.ok block hb).pos (by have := h.bound hb; omega) hn
        (by have := h.sep ht hb htb; omega) L list hl
        (fun a ha => by
          have hat : a ≠ t := by
            intro e; subst e
            simp [List.nodup_append] at hnd
            exact hnd.2 ha
          have := h.sep (hS a (by simp [ha])) ht hat
          omega)
      simpa using this
    · simp at he

/-- `remove_block` on a block of a well-formed list unlinks it. -/
theorem remove_block_spec {pagesize : Nat} {hp : Heap} {S A B : List Nat}
    {list block fuel : Nat} {r : Nat × Nat × Heap} (h : HeapOK pagesize hp S)
    (hl : IsList hp.mem list (A ++ block :: B)) (hS : ∀ b ∈ A ++ block :: B, b ∈ S)
    (he : remove_block fuel block list hp = Except.ok r) :
    r.1 = 0 ∧ IsList r.2.2.mem r.2.1 (A ++ B) ∧ r.2.2.mapped = hp.mapped ∧
      NextFrame A hp.mem r.2.2.mem := by
  have hnd := IsList_nodup _ _ hl
  rcases list_nil_or_snoc A with rfl | ⟨L, p, rfl⟩
  · rw [remove_block_head fuel hl (h.acc8 (hS block (by simp)))] at he
    injection he with he; subst he
    exact ⟨rfl, IsList_next hl, rfl, NextFrame.refl _ _⟩
  · rw [List.append_assoc] at hl hnd
    simp only [List.singleton_append] at hl hnd
    obtain ⟨n1, n2, n3, n4, n5⟩ := nodup_mid2 hnd
    rw [remove_block_inner fuel hl n1 n2
      (fun b hb => h.acc8 (hS b (by simp at hb ⊢; tauto)))] at he
    split at he
    · injection he with he; subst he
      have hp_ : p ∈ S := hS p (by simp)
      refine ⟨rfl, ?_, rfl, NextFrame.store _ (by simp)⟩
      have := IsList_splice_store
        (fun a ha => by
          have := h.sep (hS a (by simp [ha])) hp_ (n4 a ha); omega) L list hl
        (fun a ha => by
          have := h.sep (hS a (by simp [ha])) hp_ (n3 a ha); omega)
      simpa using this
    · simp at he

/-- `remove_block` on a block that is not in the list changes nothing. -/
theorem remove_block_absent_spec {pagesize : Nat} {hp : Heap} {S l : List Nat}
    {list block fuel : Nat} {r : Nat × Nat × Heap} (h : HeapOK pagesize hp S)
    (hl : IsList hp.mem list l) (hS : ∀ b ∈ l, b ∈ S) (hnot : block ∉ l)
    (he : remove_block fuel block list hp = Except.ok r) : r = (1, list, hp) := by
  rw [remove_block_absent fuel hl hnot (fun b hb => h.acc8 (hS b hb))] at he
  split at he
  · injection he with he; exact he.symm
  · simp at he

/-- A list among well-placed blocks survives changes to the `next` fields of other blocks. -/
theorem IsList_nextframe {pagesize : Nat} {hp : Heap} {S F l : List Nat} {m1 : Nat → Nat}
    {head : Nat} (h : HeapOK pagesize hp S) (hl : IsList hp.mem head l) (hS : ∀ b ∈ l, b ∈ S)
    (hF : ∀ b ∈ F, b ∈ S) (hd : ∀ b ∈ l, b ∉ F) (hfr : NextFrame F hp.mem m1) :
    IsList m1 head l :=
  IsList_congr l head hl (fun a ha => hfr.next h hF (hS a ha) (hd a ha))

theorem free_scan_zero {tid : Int} {slots : List ThreadTable} {num : Nat} (hnum : 0 < num)
    (h : (slots.getD 0 default).id = tid) : free_scan tid slots num 0 = 0 := by
  obtain ⟨k, rfl⟩ : ∃ k, num = k + 1 := ⟨num - 1, by omega⟩
  unfold free_scan
  rw [if_pos h]

theorem IsList_zero {m : Nat → Nat} {l : List Nat} (h : IsList m 0 l) : l = [] := by
  cases l with
  | nil => rfl
  | cons b l => exact absurd rfl (IsList_head_ne h).2

theorem Inv.live {pagesize : Nat} {tid : Int} {s : State} {lf lu : List Nat}
    (h : Inv pagesize tid s lf lu) (hne : lf ++ lu ≠ []) :
    s.slots ≠ [] ∧ accessible s.heap s.thread_tbl sizeofThreadTable ∧
      (s.slots.getD 0 default).id = tid := by
  rcases h.own with ⟨h1, _⟩ | h2
  · exfalso
    have hf := h.dir.isf
    have hu := h.dir.isu
    rw [h1] at hf hu
    have e1 := IsList_zero (show IsList s.heap.mem 0 lf from hf)
    have e2 := IsList_zero (show IsList s.heap.mem 0 lu from hu)
    exact hne (by rw [e1, e2]; rfl)
  · exact h2

theorem getD_set_zero {slots : List ThreadTable} (h : slots ≠ []) (e : ThreadTable) :
    (slots.set 0 e).getD 0 default = e := by
  cases slots with
  | nil => exact absurd rfl h
  | cons a l => rfl

theorem set_ne_nil {slots : List ThreadTable} (h : slots ≠ []) (e : ThreadTable) :
    slots.set 0 e ≠ [] := by
  cases slots with
  | nil => exact absurd rfl h
  | cons a l => simp

theorem accessible_mapped {hp hp1 : Heap} {a n : Nat} (hm : hp1.mapped = hp.mapped)
    (h : accessible hp a n) : accessible hp1 a n := by
  unfold accessible at h ⊢
  rw [hm]; exact h

/-- `free` on a valid pointer moves its block from the used list to the end of the free list. -/
theorem free_spec {pagesize : Nat} {tid : Int} {fuel p : Nat} {s s1 : State} {lf lu : List Nat}
    (hnum : 0 < pagesize / sizeofThreadTable) (hI : Inv pagesize tid s lf lu) (hp0 : p ≠ 0)
    (hv : hdr p ∈ lu) (he : free pagesize tid fuel p s = Except.ok s1) :
    Inv pagesize tid s1 (lf ++ [hdr p]) (lu.erase (hdr p)) ∧ s1.heap.mapped = s.heap.mapped ∧
      s1.thread_tbl = s.thread_tbl ∧ NextFrame (lf ++ lu) s.heap.mem s1.heap.mem := by
  unfold free at he
  simp only at he
  generalize hdr p = h at *
  obtain ⟨hs0, hacc, hid⟩ := hI.live (by intro e; simp at e; rw [e.2] at hv; simp at hv)
  obtain ⟨A, B, rfl⟩ := List.append_of_mem hv
  have hnd := hI.dir.nodup
  have hndu := IsList_nodup _ _ hI.dir.isu
  obtain ⟨hA, hB⟩ := nodup_mid1 hndu
  have herase : (A ++ h :: B).erase (h) = A ++ B := by
    rw [List.erase_append_right _ hA, List.erase_cons_head]
  rw [herase]
  have hH := hI.dir.heap
  have hhS : h ∈ lf ++ (A ++ h :: B) := by simp
  have hlf : h ∉ lf := by
    intro hin
    exact (List.nodup_append.mp hnd).2.2 hin hv
  rw [if_neg hp0, if_neg (fun h => h.2 hacc), free_scan_zero hnum hid,
    if_neg (Nat.ne_of_lt hnum)] at he
  change (remove_block fuel (h) _ s.heap >>= _) = _ at he
  obtain ⟨r, h1, h2⟩ := bind_ok he
  obtain ⟨r1, r2, r3, r4⟩ := remove_block_spec hH hI.dir.isu (fun b hb => by simp at hb ⊢; tauto) h1
  have hH1 : HeapOK pagesize r.2.2 (lf ++ (A ++ h :: B)) :=
    NextFrame.heapOK hH (fun b hb => by simp [hb]) r4 r3
  obtain ⟨hp1, h3, h4⟩ := bind_ok h2
  obtain ⟨_, rfl⟩ := store64_ok h3
  have hfr2 : NextFrame [h] r.2.2.mem (store64raw r.2.2.mem (h) 0) :=
    NextFrame.store 0 (List.mem_singleton.mpr rfl)
  have hH2 : HeapOK pagesize ⟨store64raw r.2.2.mem (h) 0, r.2.2.mapped⟩
      (lf ++ (A ++ h :: B)) :=
    NextFrame.heapOK hH1 (fun b hb => by simp at hb; simp [hb]) hfr2 rfl
  have hlf1 : IsList r.2.2.mem (s.slots.getD 0 default).free lf :=
    IsList_nextframe hH hI.dir.isf (fun b hb => by simp [hb]) (fun b hb => by simp [hb])
      (fun b hb hbA => (List.nodup_append.mp hnd).2.2 hb (by simp [hbA])) r4
  have hlf2 : IsList (store64raw r.2.2.mem (h) 0) (s.slots.getD 0 default).free lf :=
    IsList_nextframe hH1 hlf1 (fun b hb => by simp [hb]) (fun b hb => by simp at hb; simp [hb])
      (fun b hb hbA => by simp at hbA; exact hlf (hbA ▸ hb)) hfr2
  obtain ⟨a, h5, h6⟩ := bind_ok h4
  obtain ⟨a1, a2, a3⟩ := add_block_spec hH2 hlf2 (fun b hb => by simp [hb]) hhS hlf
    (load64raw_store64raw_same _ _ 0 (by unfold W; norm_num)) h5
  injection h6 with h6; subst h6
  have hH3 : HeapOK pagesize a.2 (lf ++ (A ++ h :: B)) :=
    NextFrame.heapOK hH2 (fun b hb => by simp [hb]) a3 a2
  have hu2 : IsList (store64raw r.2.2.mem (h) 0) r.2.1 (A ++ B) :=
    IsList_nextframe hH1 r2 (fun b hb => by simp at hb ⊢; tauto) (fun b hb => by simp at hb; simp [hb])
      (fun b hb hbA => by
        simp at hbA; subst hbA
        rcases List.mem_append.mp hb with hb | hb
        · exact hA hb
        · exact hB hb) hfr2
  have hu3 : IsList a.2.mem r.2.1 (A ++ B) :=
    IsList_nextframe hH2 hu2 (fun b hb => by simp at hb ⊢; tauto) (fun b hb => by simp [hb])
      (fun b hb hbA => (List.nodup_append.mp hnd).2.2 hbA (by simp at hb ⊢; tauto)) a3
  refine ⟨⟨Or.inr ⟨set_ne_nil hs0 _, ?_, ?_⟩, ?_⟩, ?_, rfl, ?_⟩
  · exact accessible_mapped (by rw [a2, r3]) hacc
  · rw [getD_set_zero hs0]; exact hid
  · rw [getD_set_zero hs0]
    refine ⟨a1, hu3, ?_, hH3.subset (fun b hb => by simp at hb ⊢; tauto)⟩
    have : (lf ++ [h] ++ (A ++ B)).Perm (lf ++ (A ++ h :: B)) := by
      rw [List.append_assoc]
      refine List.Perm.append_left lf ?_
      simpa using (@List.perm_middle _ h A B).symm
    exact this.nodup_iff.mpr hnd
  · simp only; rw [a2, r3]
  · intro x hx
    rw [a3 x (fun b hb => hx b (by simp [hb]))]
    show store64raw r.2.2.mem h 0 x = _
    rw [store64raw_other _ _ _ _ (by have := hx h (by simp); omega),
      r4 x (fun b hb => hx b (by simp [hb]))]

theorem split_block2_eq {block bytes : Nat} (hb : block % 8 = 0)
    (h : block + 16 + bytes + 8 ≤ W) :
    split_block2 block bytes = block + 16 + (bytes + 7) / 8 * 8 := by
  unfold split_block2
  simp only [is_aligned, and7, beq_iff_eq, sizeofHeader]
  unfold W at h ⊢
  rw [Nat.mod_eq_of_lt (show block + 16 + bytes < 2 ^ 64 by omega)]
  split
  · omega
  · rw [Nat.mod_eq_of_lt (by omega)]
    omega

/-- Cutting a block in two keeps the blocks well placed and disjoint. -/
theorem HeapOK_split {pagesize : Nat} {hp hp1 : Heap} {S : List Nat} {block n8 : Nat}
    (h : HeapOK pagesize hp S) (hb : block ∈ S) (hm : hp1.mapped = hp.mapped)
    (hs : ∀ b ∈ S, b ≠ block → load64raw hp1.mem (b + 8) = load64raw hp.mem (b + 8))
    (hs1 : load64raw hp1.mem (block + 8) = n8) (hn8 : n8 % 8 = 0)
    (hlt : n8 + 16 < load64raw hp.mem (block + 8))
    (hs2 : load64raw hp1.mem (block + 16 + n8 + 8) = load64raw hp.mem (block + 8) - n8 - 16) :
    HeapOK pagesize hp1 ((block + 16 + n8) :: S) ∧ block + 16 + n8 ∉ S := by
  have hbk := h.ok block hb
  have hnot : block + 16 + n8 ∉ S := by
    intro hin
    have := h.disj _ hin block hb (by omega)
    unfold Disj at this
    omega
  refine ⟨⟨by rw [hm]; exact h.regs, ?_, ?_⟩, hnot⟩
  · intro b hb1
    rcases List.mem_cons.mp hb1 with rfl | hb1
    · obtain ⟨r, hr, r1, r2⟩ := hbk.reg
      refine ⟨by omega, by have := hbk.al; omega, by rw [hs2]; have := hbk.szal; omega, ?_⟩
      rw [hm, hs2]
      exact ⟨r, hr, by omega, by omega⟩
    · by_cases e : b = block
      · subst e
        obtain ⟨r, hr, r1, r2⟩ := hbk.reg
        refine ⟨hbk.pos, hbk.al, by rw [hs1]; exact hn8, ?_⟩
        rw [hm, hs1]
        exact ⟨r, hr, r1, by omega⟩
      · have := h.ok b hb1
        refine ⟨this.pos, this.al, by rw [hs b hb1 e]; exact this.szal, ?_⟩
        rw [hm, hs b hb1 e]
        exact this.reg
  · have key : ∀ b ∈ S, b ≠ block → Disj hp1.mem (block + 16 + n8) b ∧ Disj hp1.mem block b := by
      intro b hb1 e
      have := h.disj b hb1 block hb e
      unfold Disj at this ⊢
      rw [hs2, hs1, hs b hb1 e]
      omega
    have hsym : ∀ a b, Disj hp1.mem a b → Disj hp1.mem b a := fun a b h => Or.symm h
    have hbb : Disj hp1.mem (block + 16 + n8) block := by
      unfold Disj; rw [hs1]; omega
    intro a ha b hb1 hne
    rcases List.mem_cons.mp ha with ea2 | ha1 <;> rcases List.mem_cons.mp hb1 with eb2 | hb2
    · exact absurd (ea2.trans eb2.symm) hne
    · rw [ea2]
      by_cases e : b = block
      · rw [e]; exact hbb
      · exact (key b hb2 e).1
    · rw [eb2]
      by_cases e : a = block
      · rw [e]; exact hsym _ _ hbb
      · exact hsym _ _ (key a ha1 e).1
    · by_cases ea : a = block
      · rw [ea]
        exact (key b hb2 (fun e => hne (ea.trans e.symm))).2
      · by_cases eb : b = block
        · rw [eb]
          exact hsym _ _ (key a ha1 ea).2
        · have := h.disj a ha1 b hb2 hne
          unfold Disj at this ⊢
          rw [hs a ha1 ea, hs b hb2 eb]
          exact this

theorem IsList_head_eq {m m1 : Nat → Nat} {h1 h2 a : Nat} {l1 l2 : List Nat}
    (x : IsList m h1 (a :: l1)) (y : IsList m1 h2 (a :: l2)) : h1 = h2 := by
  rw [(IsList_head_ne x).1, (IsList_head_ne y).1]

theorem mem_app_mid {b block : Nat} {A B : List Nat} (h : b ∈ A ++ B) : b ∈ A ++ block :: B := by
  rcases List.mem_append.mp h with h | h
  · exact List.mem_append_left _ h
  · exact List.mem_append_right _ (List.mem_cons_of_mem _ h)

theorem mem_app_snoc {b block : Nat} {L : List Nat} (h : b ∈ L ++ [block]) : b ∈ L ∨ b = block := by
  rcases List.mem_append.mp h with h | h
  · exact Or.inl h
  · exact Or.inr (List.mem_singleton.mp h)

/-- `split` keeps the heap well formed; the first block stays on the list that
starts at the head the caller passed. -/
theorem split_spec {pagesize : Nat} {hp : Heap} {S A B : List Nat} {free block bytes fuel : Nat}
    {r : Nat × Heap} (h : HeapOK pagesize hp S) (hl : IsList hp.mem free (A ++ block :: B))
    (hS : ∀ b ∈ A ++ block :: B, b ∈ S) (hfit : bytes ≤ load64raw hp.mem (block + 8))
    (he : split fuel block bytes free hp = Except.ok r) :
    r.1 = block ∧ r.2.mapped = hp.mapped ∧
    ∃ S1 A1 B1, HeapOK pagesize r.2 S1 ∧ (∀ b ∈ S, b ∈ S1) ∧
      IsList r.2.mem free (A1 ++ block :: B1) ∧
      (∀ b ∈ A1 ++ B1, b ∈ S1 ∧ (b ∈ A ++ B ∨ b ∉ S)) ∧
      (A1 ++ B1).length ≤ (A ++ B).length + 1 ∧
      bytes ≤ load64raw r.2.mem (block + 8) ∧
      (∀ b ∈ S, b ∉ A ++ block :: B → ∀ x, b ≤ x → x < b + 16 + load64raw hp.mem (b + 8) →
        r.2.mem x = hp.mem x) := by
  have hbS : block ∈ S := hS block (by simp)
  have hbnd := h.bound hbS
  have hbk := h.ok block hbS
  have hnd := IsList_nodup _ _ hl
  obtain ⟨hA, hB⟩ := nodup_mid1 hnd
  unfold split at he
  obtain ⟨size, h1, h2⟩ := bind_ok he
  obtain ⟨_, rfl⟩ := load64_ok h1
  have hal := hbk.al
  have hszal := hbk.szal
  have e2 : split_block2 block bytes = block + 16 + (bytes + 7) / 8 * 8 :=
    split_block2_eq hal (by unfold W at *; omega)
  have hABS : ∀ b ∈ A ++ B, b ∈ S := fun b hb => hS b (mem_app_mid hb)
  have hABb : ∀ b ∈ A ++ B, b ≠ block := by
    intro b hb e
    rw [e] at hb
    rcases List.mem_append.mp hb with hb | hb
    · exact hA hb
    · exact hB hb
  have hAB1S : ∀ b ∈ A ++ B ++ [block], b ∈ S := by
    intro b hb
    rcases mem_app_snoc hb with hb | hb
    · exact hABS b hb
    · rw [hb]; exact hbS
  generalize hsz : load64raw hp.mem (block + 8) = size at *
  generalize hn8 : (bytes + 7) / 8 * 8 = n8 at *
  have hn8a : n8 % 8 = 0 := by omega
  have hn8b : bytes ≤ n8 ∧ n8 ≤ size := by omega
  simp only [sizeofHeader, e2] at h2
  have e1 : (block + 16 + size) % W = block + 16 + size := Nat.mod_eq_of_lt hbnd.2
  have e3 : (block + 16 + size + W - (block + 16 + n8)) % W = size - n8 := by
    unfold W at *; omega
  have e4 : ((block + 16 + size + W - block) % W + W - (size - n8) + W - 16) % W = n8 := by
    unfold W at *; omega
  rw [e1, e3, e4] at h2
  split at h2
  · injection h2 with h2; subst h2
    refine ⟨rfl, rfl, S, A, B, h, fun _ hb => hb, hl, ?_, Nat.le_succ _, ?_,
      fun _ _ _ _ _ _ => rfl⟩
    · intro b hb
      exact ⟨hABS b hb, Or.inl hb⟩
    · show bytes ≤ load64raw hp.mem (block + 8)
      rw [hsz]; exact hfit
  · rename_i hbig
    obtain ⟨rr, h3, h4⟩ := bind_ok h2
    obtain ⟨_, rr2, rr3, rr4⟩ := remove_block_spec h hl hS h3
    obtain ⟨hp1, h5, h6⟩ := bind_ok h4
    obtain ⟨_, rfl⟩ := store64_ok h5
    obtain ⟨hp2, h7, h8⟩ := bind_ok h6
    obtain ⟨_, rfl⟩ := store64_ok h7
    obtain ⟨hp3, h9, h10⟩ := bind_ok h8
    obtain ⟨_, rfl⟩ := store64_ok h9
    obtain ⟨hp4, h11, h12⟩ := bind_ok h10
    obtain ⟨_, rfl⟩ := store64_ok h11
    simp only at h12
    -- the memory after the four header stores
    generalize hm5 : store64raw (store64raw (store64raw (store64raw rr.2.2.mem block 0)
      (block + 8) n8) (block + 16 + n8) 0) (block + 16 + n8 + 8) (size - n8 - 16) = m5 at h12
    have hAS : ∀ b ∈ A, b ∈ S := fun b hb => hS b (List.mem_append_left _ hb)
    have hout : ∀ x, (∀ b ∈ A, x < b ∨ b + 8 ≤ x) → (x < block ∨ block + 16 + size ≤ x) →
        m5 x = hp.mem x := by
      intro x hxA hx
      rw [← hm5, store64raw_other _ _ _ _ (by omega), store64raw_other _ _ _ _ (by omega),
        store64raw_other _ _ _ _ (by omega), store64raw_other _ _ _ _ (by omega), rr4 x hxA]
    have hothers : ∀ b ∈ S, b ≠ block → ∀ x, b ≤ x →
        x < b + 16 + load64raw hp.mem (b + 8) → (∀ c ∈ A, x < c ∨ c + 8 ≤ x) → m5 x = hp.mem x := by
      intro b hb e x hx1 hx2 hx3
      apply hout x hx3
      have := h.disj b hb block hbS e
      unfold Disj at this
      omega
    have hsz5 : ∀ b ∈ S, b ≠ block → load64raw m5 (b + 8) = load64raw hp.mem (b + 8) := by
      intro b hb e
      apply load64raw_congr
      intro x hx1 hx2
      apply hothers b hb e x (by omega) (by omega)
      intro c hc
      by_cases ec : c = b
      · omega
      · have := h.sep (hAS c hc) hb ec
        omega
    have hnx5 : ∀ b ∈ S, b ≠ block → b ∉ A → load64raw m5 b = load64raw hp.mem b := by
      intro b hb e hbA
      apply load64raw_congr
      intro x hx1 hx2
      apply hothers b hb e x (by omega) (by omega)
      intro c hc
      have := h.sep (hAS c hc) hb (fun ec => hbA (ec ▸ hc))
      omega
    have hs1 : load64raw m5 (block + 8) = n8 := by
      rw [← hm5, load64raw_store64raw_disj _ _ _ _ (by omega),
        load64raw_store64raw_disj _ _ _ _ (by omega),
        load64raw_store64raw_same _ _ _ (by unfold W at *; omega)]
    have hs2 : load64raw m5 (block + 16 + n8 + 8) = size - n8 - 16 := by
      rw [← hm5, load64raw_store64raw_same _ _ _ (by unfold W at *; omega)]
    have hn1 : load64raw m5 block = 0 := by
      rw [← hm5, load64raw_store64raw_disj _ _ _ _ (by omega),
        load64raw_store64raw_disj _ _ _ _ (by omega),
        load64raw_store64raw_disj _ _ _ _ (by omega),
        load64raw_store64raw_same _ _ _ (by unfold W at *; omega)]
    have hn2 : load64raw m5 (block + 16 + n8) = 0 := by
      rw [← hm5, load64raw_store64raw_disj _ _ _ _ (by omega),
        load64raw_store64raw_same _ _ _ (by unfold W at *; omega)]
    obtain ⟨hH5, hb2S⟩ := @HeapOK_split pagesize hp ⟨m5, rr.2.2.mapped⟩ S block n8 h hbS rr3 hsz5
      hs1 hn8a (by omega) (by rw [hs2, hsz])
    -- the remaining free list in the new memory
    have hl5 : IsList m5 rr.2.1 (A ++ B) := by
      refine IsList_congr _ _ rr2 ?_
      intro a ha
      have haS : a ∈ S := hABS a ha
      have hab : a ≠ block := hABb a ha
      apply load64raw_congr
      intro x hx1 hx2
      rw [← hm5, store64raw_other _ _ _ _ (by
          have := h.disj a haS block hbS hab; unfold Disj at this; omega),
        store64raw_other _ _ _ _ (by
          have := h.disj a haS block hbS hab; unfold Disj at this; omega),
        store64raw_other _ _ _ _ (by
          have := h.disj a haS block hbS hab; unfold Disj at this; omega),
        store64raw_other _ _ _ _ (by
          have := h.disj a haS block hbS hab; unfold Disj at this; omega)]
    obtain ⟨a1, h13, h14⟩ := bind_ok h12
    obtain ⟨x1, x2, x3⟩ := @add_block_spec pagesize ⟨m5, rr.2.2.mapped⟩ _ (A ++ B) _ block fuel a1
      hH5 hl5 (fun b hb => List.mem_cons_of_mem _ (hABS b hb))
      (List.mem_cons_of_mem _ hbS) (fun hb => hABb block hb rfl) hn1 h13
    have hH6 : HeapOK pagesize a1.2 ((block + 16 + n8) :: S) :=
      NextFrame.heapOK hH5 (fun b hb => List.mem_cons_of_mem _ (hABS b hb)) x3 x2
    have hb2AB : block + 16 + n8 ∉ A ++ B ++ [block] := by
      intro hin
      exact hb2S (hAB1S _ hin)
    obtain ⟨a2, h15, h16⟩ := bind_ok h14
    have hn2' : load64raw a1.2.mem (block + 16 + n8) = 0 := by
      rw [NextFrame.next hH5 (fun b hb => List.mem_cons_of_mem _ (hABS b hb))
        x3 (List.mem_cons_self _ _) (fun hin => hb2S (hABS _ hin))]
      exact hn2
    obtain ⟨y1, y2, y3⟩ := add_block_spec hH6 x1
      (fun b hb => List.mem_cons_of_mem _ (hAB1S b hb))
      (List.mem_cons_self _ _) hb2AB hn2' h15
    injection h16 with h16; subst h16
    have hH7 : HeapOK pagesize a2.2 ((block + 16 + n8) :: S) :=
      NextFrame.heapOK hH6 (fun b hb => List.mem_cons_of_mem _ (hAB1S b hb)) y3 y2
    have hfin : IsList a2.2.mem a2.1 (A ++ B ++ [block, block + 16 + n8]) := by
      simpa using y1
    refine ⟨rfl, by rw [y2, x2]; exact rr3, (block + 16 + n8) :: S, ?_⟩
    have hsize : bytes ≤ load64raw a2.2.mem (block + 8) := by
      rw [NextFrame.size hH6 (fun b hb => List.mem_cons_of_mem _ (hAB1S b hb)) y3 (List.mem_cons_of_mem _ hbS),
        NextFrame.size hH5
          (fun b hb => List.mem_cons_of_mem _ (hABS b hb)) x3
          (List.mem_cons_of_mem _ hbS)]
      show bytes ≤ load64raw m5 (block + 8)
      rw [hs1]; exact hn8b.1
    have hunt : ∀ b ∈ S, b ∉ A ++ block :: B → ∀ x, b ≤ x →
        x < b + 16 + load64raw hp.mem (b + 8) → a2.2.mem x = hp.mem x := by
      intro b hb hbn x hx1 hx2
      have hbb : b ≠ block := fun e => hbn (by simp [e])
      have hsepAB : ∀ c ∈ A ++ B ++ [block], x < c ∨ c + 8 ≤ x := by
        intro c hc
        have hcS : c ∈ S := hAB1S c hc
        have hcb : c ≠ b := by
          intro e
          rw [e] at hc
          rcases mem_app_snoc hc with hc | hc
          · exact hbn (mem_app_mid hc)
          · exact hbb hc
        have := h.disj c hcS b hb hcb
        unfold Disj at this
        omega
      rw [y3 x hsepAB, x3 x (fun c hc => hsepAB c (List.mem_append_left _ hc))]
      exact hothers b hb hbb x hx1 hx2
        (fun c hc => hsepAB c (List.mem_append_left _ (List.mem_append_left _ hc)))
    rcases A with _ | ⟨a0, A0⟩
    · -- the block was the head: the caller's head still points at it
      refine ⟨[], [block + 16 + n8], hH7, fun b hb => List.mem_cons_of_mem _ hb, ?_, ?_,
        by simp, hsize, hunt⟩
      · have := IsList_mid B a2.1 (by simpa using hfin)
        rw [(IsList_head_ne hl).1]
        exact this
      · intro b hb
        have hb' : b = block + 16 + n8 := List.mem_singleton.mp hb
        rw [hb']
        exact ⟨List.mem_cons_self _ _, Or.inr hb2S⟩
    · refine ⟨(a0 :: A0) ++ B, [block + 16 + n8], hH7, fun b hb => List.mem_cons_of_mem _ hb,
        ?_, ?_, by simp; omega, hsize, hunt⟩
      · have e : free = a2.1 := IsList_head_eq hl hfin
        rw [e]
        simpa using hfin
      · intro b hb
        rcases mem_app_snoc hb with hb | hb
        · exact ⟨List.mem_cons_of_mem _ (hABS b hb), Or.inl hb⟩
        · rw [hb]
          exact ⟨List.mem_cons_self _ _, Or.inr hb2S⟩

theorem numbytes_ge {pagesize : Nat} (hps : PageOK pagesize) {bytes : Nat}
    (hsm : bytes + sizeofHeader + pagesize < W) :
    bytes + 16 ≤ numbytes pagesize bytes ∧ numbytes pagesize bytes % 8 = 0 ∧
      numbytes pagesize bytes < W := by
  obtain ⟨_, n2, n3⟩ := numbytes_mod hps bytes
  refine ⟨?_, n2, n3⟩
  rw [numbytes_eq hps]
  obtain ⟨_, hge, _⟩ := PageOK_facts hps
  unfold sizeofHeader at *
  rw [Nat.mod_eq_of_lt (by omega)]
  have := Nat.mod_lt (bytes + 16 + pagesize - 1) (show 0 < pagesize by omega)
  omega

/-- A freshly mapped region with its header installed joins the well-placed blocks. -/
theorem HeapOK_mmap {pagesize : Nat} (hps : PageOK pagesize) {hp hp1 : Heap} {S : List Nat}
    {a len : Nat} (h : HeapOK pagesize hp S) (hm : hp1.mapped = (a, len) :: hp.mapped)
    (ha0 : 0 < a) (hap : a % pagesize = 0) (haW : a + len < W)
    (hdis : ∀ r ∈ hp.mapped, a + len ≤ r.1 ∨ r.1 + r.2 ≤ a)
    (hlen : 16 ≤ len) (hlen8 : len % 8 = 0)
    (hsz : load64raw hp1.mem (a + 8) = len - 16)
    (hout : ∀ x, (x < a ∨ a + len ≤ x) → hp1.mem x = hp.mem x) :
    HeapOK pagesize hp1 (a :: S) ∧ a ∉ S ∧
      (∀ b ∈ S, ∀ x, b ≤ x → x < b + 16 + load64raw hp.mem (b + 8) → hp1.mem x = hp.mem x) := by
  obtain ⟨p8, pge, _⟩ := PageOK_facts hps
  have hage : pagesize ≤ a := Nat.le_of_dvd ha0 (Nat.dvd_of_mod_eq_zero hap)
  have hold : ∀ b ∈ S, ∀ x, b ≤ x → x < b + 16 + load64raw hp.mem (b + 8) →
      hp1.mem x = hp.mem x := by
    intro b hb x hx1 hx2
    apply hout
    obtain ⟨r, hr, r1, r2⟩ := (h.ok b hb).reg
    have := hdis r hr
    omega
  have hszS : ∀ b ∈ S, load64raw hp1.mem (b + 8) = load64raw hp.mem (b + 8) := by
    intro b hb
    apply load64raw_congr
    intro x hx1 hx2
    exact hold b hb x (by omega) (by omega)
  have hnot : a ∉ S := by
    intro hin
    obtain ⟨r, hr, r1, r2⟩ := (h.ok a hin).reg
    have := hdis r hr
    omega
  refine ⟨⟨?_, ?_, ?_⟩, hnot, hold⟩
  · intro r hr
    rw [hm] at hr
    rcases List.mem_cons.mp hr with e | hr
    · rw [e]; exact ⟨hage, haW⟩
    · exact h.regs r hr
  · intro b hb
    rcases List.mem_cons.mp hb with e | hb
    · rw [e]
      refine ⟨by omega, ?_, by rw [hsz]; omega, ?_⟩
      · have := Nat.mod_mod_of_dvd a (Nat.dvd_of_mod_eq_zero p8)
        omega
      · rw [hm, hsz]
        exact ⟨(a, len), List.mem_cons_self _ _, Nat.le_refl _, by simp; omega⟩
    · have := h.ok b hb
      refine ⟨this.pos, this.al, by rw [hszS b hb]; exact this.szal, ?_⟩
      obtain ⟨r, hr, r1, r2⟩ := this.reg
      rw [hm, hszS b hb]
      exact ⟨r, List.mem_cons_of_mem _ hr, r1, r2⟩
  · have key : ∀ b ∈ S, Disj hp1.mem a b := by
      intro b hb
      obtain ⟨r, hr, r1, r2⟩ := (h.ok b hb).reg
      have := hdis r hr
      unfold Disj
      rw [hsz, hszS b hb]
      omega
    intro x hx y hy hne
    rcases List.mem_cons.mp hx with ex | hx1 <;> rcases List.mem_cons.mp hy with ey | hy1
    · exact absurd (ex.trans ey.symm) hne
    · rw [ex]; exact key y hy1
    · rw [ey]; exact Or.symm (key x hx1)
    · have := h.disj x hx1 y hy1 hne
      unfold Disj at this ⊢
      rw [hszS x hx1, hszS y hy1]
      exact this

/-- `find_block`: either no block (the mapping failed), or a block of at least
`bytes` bytes; blocks outside the free list are not touched. -/
theorem find_block_spec {pagesize : Nat} (hps : PageOK pagesize) {hp : Heap} {S lf : List Nat}
    {free bytes fuel : Nat} {hint : Option Nat} {r : Nat × Heap}
    (h : HeapOK pagesize hp S) (hl : IsList hp.mem free lf) (hS : ∀ b ∈ lf, b ∈ S)
    (hsm : bytes + sizeofHeader + pagesize < W)
    (he : find_block pagesize hint fuel bytes free hp = Except.ok r) :
    (r.1 = 0 ∧ r.2 = hp ∧ ∀ b ∈ lf, load64raw hp.mem (b + 8) < bytes) ∨
    (∃ S1, HeapOK pagesize r.2 S1 ∧ (∀ b ∈ S, b ∈ S1) ∧ r.1 ∈ S1 ∧
      bytes ≤ load64raw r.2.mem (r.1 + 8) ∧
      (∀ x ∈ hp.mapped, x ∈ r.2.mapped) ∧
      (∀ b ∈ S, b ∉ lf → ∀ x, b ≤ x → x < b + 16 + load64raw hp.mem (b + 8) →
        r.2.mem x = hp.mem x) ∧
      ((∃ c ∈ lf, bytes ≤ load64raw hp.mem (c + 8)) → r.2.mapped = hp.mapped ∧ r.1 ∈ lf) ∧
      ((∃ A1 B1, IsList r.2.mem free (A1 ++ r.1 :: B1) ∧
          (∀ b ∈ A1 ++ B1, b ∈ S1 ∧ (b ∈ lf ∨ b ∉ S)) ∧ (r.1 ∈ lf ∨ r.1 ∉ S) ∧
          (A1 ++ B1).length ≤ lf.length + 1) ∨
        (lf = [] ∧ r.1 ∉ S))) := by
  unfold find_block at he
  obtain ⟨o, h1, h2⟩ := bind_ok he
  rcases firstfit_cases (fun b => load64raw hp.mem (b + 8)) bytes lf with hnone |
    ⟨l1, c, l2, rfl, hlt, hc⟩
  · -- no block fits: a new region is mapped
    rw [find_block_scan_none lf free fuel hl hnone (fun b hb => h.acc16 (hS b hb))] at h1
    split at h1
    swap
    · simp at h1
    injection h1 with h1; subst h1
    simp only at h2
    obtain ⟨n1, n2, n3⟩ := numbytes_ge hps hsm
    generalize numbytes pagesize bytes = len at *
    rcases mmap_cases pagesize hp len hint with hc | ⟨a, c1, c2, c3, c4, c5, c6, hc⟩
    · rw [hc] at h2
      rw [if_pos rfl] at h2
      injection h2 with h2; subst h2
      exact Or.inl ⟨rfl, rfl, hnone⟩
    · right
      rw [hc] at h2
      rw [if_neg c5] at h2
      obtain ⟨hp1, h3, h4⟩ := bind_ok h2
      obtain ⟨_, rfl⟩ := store64_ok h3
      obtain ⟨hp2, h5, h6⟩ := bind_ok h4
      obtain ⟨_, rfl⟩ := store64_ok h5
      simp only [sizeofHeader] at h6
      have ev : (len + W - 16) % W = len - 16 := by unfold W at *; omega
      rw [ev] at h6
      generalize hm2 : store64raw (store64raw
        (fun x => if a ≤ x ∧ x < a + len then 0 else hp.mem x) a 0) (a + 8) (len - 16) = m2 at h6
      have hout : ∀ x, (x < a ∨ a + len ≤ x) → m2 x = hp.mem x := by
        intro x hx
        rw [← hm2, store64raw_other _ _ _ _ (by omega), store64raw_other _ _ _ _ (by omega)]
        show (if a ≤ x ∧ x < a + len then 0 else hp.mem x) = hp.mem x
        rw [if_neg (by omega)]
      have hsz2 : load64raw m2 (a + 8) = len - 16 := by
        rw [← hm2, load64raw_store64raw_same _ _ _ (by unfold W at *; omega)]
      have hnx2 : load64raw m2 a = 0 := by
        rw [← hm2, load64raw_store64raw_disj _ _ _ _ (by omega),
          load64raw_store64raw_same _ _ _ (by unfold W; omega)]
      obtain ⟨hH2, haS, hold⟩ := @HeapOK_mmap pagesize hps hp ⟨m2, (a, len) :: hp.mapped⟩ S a len
        h rfl c2 c3 c4 c6 (by omega) n2 hsz2 hout
      have hl2 : IsList m2 free lf := by
        refine IsList_congr _ _ hl (fun b hb => ?_)
        apply load64raw_congr
        intro x hx1 hx2
        exact hold b (hS b hb) x (by omega) (by omega)
      obtain ⟨a1, h7, h8⟩ := bind_ok h6
      obtain ⟨x1, x2, x3⟩ := @add_block_spec pagesize ⟨m2, (a, len) :: hp.mapped⟩ (a :: S) lf
        free a fuel a1 hH2 hl2 (fun b hb => List.mem_cons_of_mem _ (hS b hb))
        (List.mem_cons_self _ _) (fun hin => haS (hS a hin)) hnx2 h7
      have hH3 : HeapOK pagesize a1.2 (a :: S) :=
        NextFrame.heapOK hH2 (fun b hb => List.mem_cons_of_mem _ (hS b hb)) x3 x2
      have hsz3 : load64raw a1.2.mem (a + 8) = len - 16 := by
        rw [NextFrame.size hH2 (fun b hb => List.mem_cons_of_mem _ (hS b hb)) x3
          (List.mem_cons_self _ _)]
        exact hsz2
      obtain ⟨s1, s2, S1, A1, B1, s3, s4, s5, s6, s6l, s7, s8⟩ :=
        @split_spec pagesize a1.2 (a :: S) lf [] a1.1 a bytes fuel r hH3 x1
          (fun b hb => by
            rcases mem_app_snoc hb with hb | hb
            · exact List.mem_cons_of_mem _ (hS b hb)
            · rw [hb]; exact List.mem_cons_self _ _)
          (by rw [hsz3]; omega) h8
      have hmap : r.2.mapped = (a, len) :: hp.mapped := by rw [s2, x2]
      refine ⟨S1, s3, fun b hb => s4 b (List.mem_cons_of_mem _ hb), ?_, ?_, ?_, ?_, ?_, ?_⟩
      · rw [s1]; exact s4 a (List.mem_cons_self _ _)
      · rw [s1]; exact s7
      · intro x hx; rw [hmap]; exact List.mem_cons_of_mem _ hx
      · intro b hb hbl x hx1 hx2
        have hszb : load64raw m2 (b + 8) = load64raw hp.mem (b + 8) := by
          apply load64raw_congr
          intro y hy1 hy2
          exact hold b hb y (by omega) (by omega)
        have hszb3 : load64raw a1.2.mem (b + 8) = load64raw hp.mem (b + 8) := by
          rw [NextFrame.size hH2 (fun b hb => List.mem_cons_of_mem _ (hS b hb)) x3
            (List.mem_cons_of_mem _ hb)]
          exact hszb
        rw [s8 b (List.mem_cons_of_mem _ hb)
          (fun hin => by
            rcases mem_app_snoc hin with hin | hin
            · exact hbl hin
            · exact haS (hin ▸ hb)) x hx1 (by rw [hszb3]; exact hx2)]
        have hx3 : a1.2.mem x = m2 x := by
          apply x3
          intro c hc
          have hcb : c ≠ b := fun e => hbl (e ▸ hc)
          have := h.disj c (hS c hc) b hb hcb
          unfold Disj at this
          omega
        rw [hx3]
        exact hold b hb x hx1 hx2
      · rintro ⟨c, hc, hc2⟩
        have := hnone c hc
        simp only at this
        omega
      · rcases lf with _ | ⟨b0, lf0⟩
        · exact Or.inr ⟨rfl, by rw [s1]; exact haS⟩
        · left
          have e : free = a1.1 := IsList_head_eq hl x1
          refine ⟨A1, B1, by rw [s1, e]; exact s5, ?_, Or.inr (by rw [s1]; exact haS),
            by simpa using s6l⟩
          intro b hb
          obtain ⟨t1, t2⟩ := s6 b hb
          refine ⟨t1, ?_⟩
          rcases t2 with t2 | t2
          · left; simpa using t2
          · right; exact fun hin => t2 (List.mem_cons_of_mem _ hin)
  · -- first fit
    rw [find_block_scan_found l1 free fuel hl hlt hc
      (fun b hb => h.acc16 (hS b (by
        rcases mem_app_snoc hb with hb | hb
        · exact List.mem_append_left _ hb
        · rw [hb]; exact List.mem_append_right _ (List.mem_cons_self _ _))))] at h1
    split at h1
    swap
    · simp at h1
    injection h1 with h1; subst h1
    simp only at h2
    obtain ⟨s1, s2, S1, A1, B1, s3, s4, s5, s6, s6l, s7, s8⟩ := split_spec h hl hS hc h2
    have hcl : c ∈ l1 ++ c :: l2 := List.mem_append_right _ (List.mem_cons_self _ _)
    right
    refine ⟨S1, s3, s4, by rw [s1]; exact s4 c (hS c hcl), by rw [s1]; exact s7,
      fun x hx => by rw [s2]; exact hx, s8, fun _ => ⟨s2, by rw [s1]; exact hcl⟩, ?_⟩
    left
    refine ⟨A1, B1, by rw [s1]; exact s5, ?_, Or.inl (by rw [s1]; exact hcl),
      by simp at s6l ⊢; omega⟩
    intro b hb
    obtain ⟨t1, t2⟩ := s6 b hb
    exact ⟨t1, t2.imp mem_app_mid id⟩

/-! ## `malloc` on well-formed states -/

theorem malloc_scan_zero {tid : Int} {slots : List ThreadTable} {num : Nat} (hnum : 0 < num)
    (h : (slots.getD 0 default).id = tid) : malloc_scan tid slots num 0 = (0, slots) := by
  obtain ⟨k, rfl⟩ : ∃ k, num = k + 1 := ⟨num - 1, by omega⟩
  unfold malloc_scan
  rw [if_pos h]

theorem not_accessible_zero {pagesize : Nat} (hps : PageOK pagesize) {hp : Heap} {S : List Nat}
    (h : HeapOK pagesize hp S) {n : Nat} (hn : 0 < n) : ¬ accessible hp 0 n := by
  intro hacc
  have := hacc.2 0 hn
  unfold isMapped at this
  rw [List.any_eq_true] at this
  obtain ⟨r, hr, hr2⟩ := this
  have := h.regs r hr
  obtain ⟨_, hge, _⟩ := PageOK_facts hps
  simp at hr2
  omega

theorem not_accessible_failed (hp : Heap) {n : Nat} (hn : 1 < n) : ¬ accessible hp MAP_FAILED n := by
  intro hacc
  have := hacc.1
  unfold MAP_FAILED W at this
  omega

theorem accessible_of_mapped_subset {hp hp1 : Heap} {a n : Nat}
    (hs : ∀ x ∈ hp.mapped, x ∈ hp1.mapped) (h : accessible hp a n) : accessible hp1 a n := by
  refine ⟨h.1, fun i hi => ?_⟩
  have := h.2 i hi
  unfold isMapped at this ⊢
  rw [List.any_eq_true] at this ⊢
  obtain ⟨r, hr, hr2⟩ := this
  exact ⟨r, hs r hr, hr2⟩

theorem remove_block_null (fuel block : Nat) (hp : Heap) :
    remove_block fuel block 0 hp = Except.ok (1, 0, hp) := by
  unfold remove_block
  rw [if_pos (Or.inl rfl)]
  rfl

theorem nodup_of_parts {l1 l2 : List Nat} (h1 : l1.Nodup) (h2 : l2.Nodup)
    (h : ∀ b ∈ l1, b ∉ l2) : (l1 ++ l2).Nodup :=
  List.nodup_append.mpr ⟨h1, h2, fun _ ha hb => h _ ha hb⟩

/-- `malloc` after the thread table exists: the invariant is kept, used blocks keep
their size field and payload, and a returned block is appended to the used list. -/
theorem malloc_main_spec {pagesize : Nat} (hps : PageOK pagesize)
    (hnum : 0 < pagesize / sizeofThreadTable) {tid : Int} {blkHint : Option Nat}
    {fuel bytes : Nat} {s : State} {r : Nat × State} {lf lu : List Nat}
    (hI : Inv pagesize tid s lf lu) (hsm : bytes + sizeofHeader + pagesize < W)
    (he : malloc_main pagesize tid blkHint fuel bytes s = Except.ok r) :
    ∃ lf1 lu1, Inv pagesize tid r.2 lf1 lu1 ∧
      (∀ x ∈ s.heap.mapped, x ∈ r.2.heap.mapped) ∧
      (∀ b ∈ lu, ∀ x, b + 8 ≤ x → x < b + 16 + load64raw s.heap.mem (b + 8) →
        r.2.heap.mem x = s.heap.mem x) ∧
      ((r.1 = 0 ∧ lu1 = lu) ∨
       (∃ h, r.1 = h + 16 ∧ h + 16 < W ∧ h ∉ lu ∧ lu1 = lu ++ [h] ∧
          bytes ≤ load64raw r.2.heap.mem (h + 8) ∧
          ((∃ c ∈ lf, bytes ≤ load64raw s.heap.mem (c + 8)) →
            r.2.heap.mapped = s.heap.mapped ∧ h ∈ lf))) := by
  have hH := hI.dir.heap
  unfold malloc_main at he
  simp only at he
  split at he
  · simp at he
  rename_i hchk
  have hacc : accessible s.heap s.thread_tbl sizeofThreadTable := by
    by_contra hn
    exact hchk ⟨Nat.ne_of_gt hnum, hn⟩
  have hlive : s.slots ≠ [] ∧ (s.slots.getD 0 default).id = tid := by
    rcases hI.own with ⟨_, h1 | h1⟩ | h2
    · rw [h1] at hacc
      exact absurd hacc (not_accessible_zero hps hH (by unfold sizeofThreadTable; omega))
    · rw [h1] at hacc
      exact absurd hacc (not_accessible_failed _ (by unfold sizeofThreadTable; omega))
    · exact ⟨h2.1, h2.2.2⟩
  obtain ⟨hs0, hid⟩ := hlive
  rw [malloc_scan_zero hnum hid] at he
  simp only at he
  rw [if_neg (Nat.ne_of_lt hnum)] at he
  obtain ⟨f, h1, h2⟩ := bind_ok he
  have hlfS : ∀ b ∈ lf, b ∈ lf ++ lu := fun b hb => List.mem_append_left _ hb
  have hluS : ∀ b ∈ lu, b ∈ lf ++ lu := fun b hb => List.mem_append_right _ hb
  have hdisj : ∀ b ∈ lu, b ∉ lf := fun b hb hbf => (List.nodup_append.mp hI.dir.nodup).2.2 hbf hb
  rcases find_block_spec hps hH hI.dir.isf hlfS hsm h1 with ⟨f0, fe, _⟩ |
    ⟨S1, g1, g2, g3, g4, g5, g6, g7, g8⟩
  · -- no block: the call returns NULL and nothing changed
    rw [if_pos f0] at h2
    injection h2 with h2; subst h2
    refine ⟨lf, lu, ?_, fun x hx => by rw [fe]; exact hx, fun _ _ _ _ _ => by rw [fe],
      Or.inl ⟨rfl, rfl⟩⟩
    exact ⟨Or.inr ⟨hs0, by rw [fe]; exact hacc, hid⟩, by rw [fe]; exact hI.dir⟩
  · have hf0 : f.1 ≠ 0 := (g1.ok _ g3).pos
    rw [if_neg hf0] at h2
    obtain ⟨rb, h3, h4⟩ := bind_ok h2
    obtain ⟨hp1, h5, h6⟩ := bind_ok h4
    obtain ⟨_, rfl⟩ := store64_ok h5
    obtain ⟨a, h7, h8⟩ := bind_ok h6
    injection h8 with h8; subst h8
    -- the used list and the used blocks after find_block
    have hszu : ∀ b ∈ lu, load64raw f.2.mem (b + 8) = load64raw s.heap.mem (b + 8) := by
      intro b hb
      apply load64raw_congr
      intro x hx1 hx2
      exact g6 b (hluS b hb) (hdisj b hb) x (by omega) (by omega)
    have hlu1 : IsList f.2.mem (s.slots.getD 0 default).used lu := by
      refine IsList_congr _ _ hI.dir.isu (fun b hb => ?_)
      apply load64raw_congr
      intro x hx1 hx2
      exact g6 b (hluS b hb) (hdisj b hb) x (by omega) (by omega)
    have hfu : f.1 ∉ lu := by
      rcases g8 with ⟨_, _, _, _, q | q, _⟩ | ⟨_, q⟩
      · exact fun hin => hdisj _ hin q
      · exact fun hin => q (hluS _ hin)
      · exact fun hin => q (hluS _ hin)
    have hbnd := g1.bound g3
    have hfW : f.1 + 16 < W := by omega
    have hret : (f.1 + sizeofHeader) % W = f.1 + 16 := by
      unfold sizeofHeader; exact Nat.mod_eq_of_lt hfW
    -- the remainder of the free list after remove_block
    obtain ⟨lf1, hrem1, hrem2, hrem3, hrem4, hrem5⟩ : ∃ lf1,
        IsList rb.2.2.mem rb.2.1 lf1 ∧ rb.2.2.mapped = f.2.mapped ∧
        (∃ F, (∀ b ∈ F, b ∈ S1) ∧ (∀ b ∈ F, b ∉ lu ∧ b ≠ f.1) ∧ NextFrame F f.2.mem rb.2.2.mem) ∧
        (∀ b ∈ lf1, b ∈ S1 ∧ b ∉ lu ∧ b ≠ f.1) ∧ lf1.Nodup := by
      rcases g8 with ⟨A1, B1, q1, q2, _, _⟩ | ⟨q1, _⟩
      · have hnd := IsList_nodup _ _ q1
        obtain ⟨nA, nB⟩ := nodup_mid1 hnd
        have hAB : ∀ b ∈ A1 ++ B1, b ∈ S1 ∧ b ∉ lu ∧ b ≠ f.1 := by
          intro b hb
          refine ⟨(q2 b hb).1, ?_, ?_⟩
          · rcases (q2 b hb).2 with q | q
            · exact fun hin => hdisj _ hin q
            · exact fun hin => q (hluS _ hin)
          · intro e
            rw [e] at hb
            rcases List.mem_append.mp hb with hb | hb
            · exact nA hb
            · exact nB hb
        obtain ⟨_, t2, t3, t4⟩ := remove_block_spec g1 q1
          (fun b hb => by
            rcases List.mem_append.mp hb with hb | hb
            · exact (hAB b (List.mem_append_left _ hb)).1
            · rcases List.mem_cons.mp hb with hb | hb
              · rw [hb]; exact g3
              · exact (hAB b (List.mem_append_right _ hb)).1) h3
        refine ⟨A1 ++ B1, t2, t3, ⟨A1, fun b hb => (hAB b (List.mem_append_left _ hb)).1,
          fun b hb => (hAB b (List.mem_append_left _ hb)).2, t4⟩, hAB, ?_⟩
        have := List.nodup_append.mp hnd
        exact nodup_of_parts this.1 (List.nodup_cons.mp this.2.1).2
          (fun b hb hb2 => this.2.2 hb (List.mem_cons_of_mem _ hb2))
      · have e0 : (s.slots.getD 0 default).free = 0 := by
          have := hI.dir.isf
          rw [q1] at this
          exact this
        rw [e0, remove_block_null] at h3
        injection h3 with h3; subst h3
        exact ⟨[], rfl, rfl, ⟨[], fun _ hb => by simp at hb, fun _ hb => by simp at hb,
          NextFrame.refl _ _⟩, fun _ hb => by simp at hb, List.nodup_nil⟩
    obtain ⟨F, hF1, hF2, hF3⟩ := hrem3
    generalize rb.2.2 = hp2 at *
    generalize rb.2.1 = free1 at *
    have hH2 : HeapOK pagesize hp2 S1 := NextFrame.heapOK g1 hF1 hF3 hrem2
    have hfr3 : NextFrame [f.1] hp2.mem (store64raw hp2.mem f.1 0) :=
      NextFrame.store 0 (List.mem_singleton.mpr rfl)
    have hH3 : HeapOK pagesize ⟨store64raw hp2.mem f.1 0, hp2.mapped⟩ S1 :=
      NextFrame.heapOK hH2 (fun b hb => by rw [List.mem_singleton.mp hb]; exact g3) hfr3 rfl
    have hluS1 : ∀ b ∈ lu, b ∈ S1 := fun b hb => g2 b (hluS b hb)
    have hlu2 : IsList hp2.mem (s.slots.getD 0 default).used lu :=
      IsList_nextframe g1 hlu1 hluS1 hF1 (fun b hb hbF => (hF2 b hbF).1 hb) hF3
    have hlu3 : IsList (store64raw hp2.mem f.1 0) (s.slots.getD 0 default).used lu :=
      IsList_nextframe hH2 hlu2 hluS1 (fun b hb => by rw [List.mem_singleton.mp hb]; exact g3)
        (fun b hb hbF => hfu (by have e := List.mem_singleton.mp hbF; rw [e] at hb; exact hb)) hfr3
    obtain ⟨a1, a2, a3⟩ := @add_block_spec pagesize ⟨store64raw hp2.mem f.1 0, hp2.mapped⟩ S1 lu
      _ f.1 fuel a hH3 hlu3 hluS1 g3 hfu
      (load64raw_store64raw_same _ _ 0 (by unfold W; norm_num)) h7
    have hH4 : HeapOK pagesize a.2 S1 := NextFrame.heapOK hH3 hluS1 a3 a2
    have hlf3 : IsList (store64raw hp2.mem f.1 0) free1 lf1 :=
      IsList_nextframe hH2 hrem1 (fun b hb => (hrem4 b hb).1)
        (fun b hb => by rw [List.mem_singleton.mp hb]; exact g3)
        (fun b hb hbF => (hrem4 b hb).2.2 (List.mem_singleton.mp hbF)) hfr3
    have hlf4 : IsList a.2.mem free1 lf1 :=
      IsList_nextframe hH3 hlf3 (fun b hb => (hrem4 b hb).1) hluS1
        (fun b hb hbF => (hrem4 b hb).2.1 hbF) a3
    have hmapped : a.2.mapped = f.2.mapped := by rw [a2]; exact hrem2
    -- size fields and payloads along the three steps
    have hbody : ∀ b ∈ S1, ∀ x, b + 8 ≤ x → x < b + 16 + load64raw f.2.mem (b + 8) →
        a.2.mem x = f.2.mem x := by
      intro b hb x hx1 hx2
      have e1 : hp2.mem x = f.2.mem x := hF3.body g1 hF1 hb hx1 hx2
      have hs2 : load64raw hp2.mem (b + 8) = load64raw f.2.mem (b + 8) := hF3.size g1 hF1 hb
      have e2 : store64raw hp2.mem f.1 0 x = hp2.mem x :=
        hfr3.body hH2 (fun c hc => by rw [List.mem_singleton.mp hc]; exact g3) hb hx1
          (by rw [hs2]; exact hx2)
      have hs3 : load64raw (store64raw hp2.mem f.1 0) (b + 8) = load64raw hp2.mem (b + 8) :=
        hfr3.size hH2 (fun c hc => by rw [List.mem_singleton.mp hc]; exact g3) hb
      have e3 : a.2.mem x = store64raw hp2.mem f.1 0 x :=
        a3.body hH3 hluS1 hb hx1 (by
          show x < b + 16 + load64raw (store64raw hp2.mem f.1 0) (b + 8)
          rw [hs3, hs2]; exact hx2)
      rw [e3, e2, e1]
    refine ⟨lf1, lu ++ [f.1], ⟨Or.inr ⟨set_ne_nil hs0 _, ?_, ?_⟩, ?_⟩, ?_, ?_, Or.inr ⟨f.1, hret,
      hfW, hfu, rfl, ?_, ?_⟩⟩
    · refine accessible_of_mapped_subset ?_ hacc
      intro x hx
      show x ∈ a.2.mapped
      rw [hmapped]; exact g5 x hx
    · rw [getD_set_zero hs0]; exact hid
    · rw [getD_set_zero hs0]
      refine ⟨hlf4, a1, ?_, hH4.subset ?_⟩
      · refine nodup_of_parts hrem5 (IsList_nodup _ _ a1) ?_
        intro b hb hb2
        rcases mem_app_snoc hb2 with hb2 | hb2
        · exact (hrem4 b hb).2.1 hb2
        · exact (hrem4 b hb).2.2 hb2
      · intro b hb
        rcases List.mem_append.mp hb with hb | hb
        · exact (hrem4 b hb).1
        · rcases mem_app_snoc hb with hb | hb
          · exact hluS1 b hb
          · rw [hb]; exact g3
    · intro x hx
      show x ∈ a.2.mapped
      rw [hmapped]; exact g5 x hx
    · intro b hb x hx1 hx2
      show a.2.mem x = s.heap.mem x
      rw [hbody b (hluS1 b hb) x hx1 (by rw [hszu b hb]; exact hx2)]
      exact g6 b (hluS b hb) (hdisj b hb) x (by omega) hx2
    · show bytes ≤ load64raw a.2.mem (f.1 + 8)
      have : load64raw a.2.mem (f.1 + 8) = load64raw f.2.mem (f.1 + 8) := by
        apply load64raw_congr
        intro x hx1 hx2
        exact hbody f.1 g3 x (by omega) (by omega)
      rw [this]; exact g4
    · intro hfit
      obtain ⟨m1, m2⟩ := g7 hfit
      exact ⟨by show a.2.mapped = s.heap.mapped; rw [hmapped]; exact m1, m2⟩

theorem Inv_dead_lists {pagesize : Nat} {tid : Int} {s : State} {lf lu : List Nat}
    (h : Inv pagesize tid s lf lu) (hs : s.slots = []) : lf = [] ∧ lu = [] := by
  have hf := h.dir.isf
  have hu := h.dir.isu
  rw [hs] at hf hu
  exact ⟨IsList_zero (show IsList s.heap.mem 0 lf from hf),
    IsList_zero (show IsList s.heap.mem 0 lu from hu)⟩

/-- `malloc` with non-wrapping request size keeps the invariant; used blocks keep
their size field and payload, and a returned block is appended to the used list. -/
theorem malloc_spec {pagesize : Nat} (hps : PageOK pagesize)
    (hnum : 0 < pagesize / sizeofThreadTable) {tid : Int} {tblHint blkHint : Option Nat}
    {fuel bytes : Nat} {s : State} {r : Nat × State} {lf lu : List Nat}
    (hI : Inv pagesize tid s lf lu) (hsm : bytes + sizeofHeader + pagesize < W)
    (he : malloc pagesize tid tblHint blkHint fuel bytes s = Except.ok r) :
    ∃ lf1 lu1, Inv pagesize tid r.2 lf1 lu1 ∧
      (∀ x ∈ s.heap.mapped, x ∈ r.2.heap.mapped) ∧
      (∀ b ∈ lu, ∀ x, b + 8 ≤ x → x < b + 16 + load64raw s.heap.mem (b + 8) →
        r.2.heap.mem x = s.heap.mem x) ∧
      ((r.1 = 0 ∧ lu1 = lu) ∨
       (∃ h, r.1 = h + 16 ∧ h + 16 < W ∧ h ∉ lu ∧ lu1 = lu ++ [h] ∧
          bytes ≤ load64raw r.2.heap.mem (h + 8) ∧
          ((∃ c ∈ lf, bytes ≤ load64raw s.heap.mem (c + 8)) →
            r.2.heap.mapped = s.heap.mapped ∧ h ∈ lf))) := by
  have hH := hI.dir.heap
  unfold malloc at he
  rcases malloc_init_cases pagesize tid tblHint s with ⟨_, hc⟩ | ⟨h0, hc⟩ |
    ⟨h0, a, c1, c2, c3, c4, hc⟩
  · rw [hc] at he
    exact malloc_main_spec hps hnum hI hsm he
  · rw [hc] at he
    simp only [pure, Except.pure] at he
    injection he with he; subst he
    have hs : s.slots = [] := by
      rcases hI.own with ⟨h1, _⟩ | ⟨_, h2, _⟩
      · exact h1
      · rw [h0] at h2
        exact absurd h2 (not_accessible_zero hps hH (by unfold sizeofThreadTable; omega))
    exact ⟨lf, lu, ⟨Or.inl ⟨hs, Or.inr rfl⟩, hI.dir⟩, fun _ hx => hx, fun _ _ _ _ _ => rfl,
      Or.inl ⟨rfl, rfl⟩⟩
  · rw [hc] at he
    simp only at he
    have hs : s.slots = [] := by
      rcases hI.own with ⟨h1, _⟩ | ⟨_, h2, _⟩
      · exact h1
      · rw [h0] at h2
        exact absurd h2 (not_accessible_zero hps hH (by unfold sizeofThreadTable; omega))
    obtain ⟨e1, e2⟩ := Inv_dead_lists hI hs
    subst e1; subst e2
    have hage : pagesize ≤ a := Nat.le_of_dvd c1 (Nat.dvd_of_mod_eq_zero c2)
    have hI1 : Inv pagesize tid
        ⟨⟨fun x => if a ≤ x ∧ x < a + pagesize then 0 else s.heap.mem x,
          (a, pagesize) :: s.heap.mapped⟩, a, init_slots tid (pagesize / sizeofThreadTable)⟩
        [] [] := by
      refine ⟨Or.inr ⟨by simp [init_slots], ?_, rfl⟩, ⟨rfl, rfl, List.nodup_nil, ?_, ?_, ?_⟩⟩
      · refine accessible_of_reg (List.mem_cons_self _ _) (Nat.le_refl _) ?_ (by
          show a + pagesize ≤ W
          omega)
        show a + sizeofThreadTable ≤ a + pagesize
        have := Nat.div_mul_le_self pagesize sizeofThreadTable
        have : sizeofThreadTable ≤ pagesize := by
          have h3 : 1 * sizeofThreadTable ≤ pagesize / sizeofThreadTable * sizeofThreadTable :=
            Nat.mul_le_mul_right _ hnum
          omega
        omega
      · intro r hr
        rcases List.mem_cons.mp hr with e | hr
        · rw [e]; exact ⟨hage, c3⟩
        · exact hH.regs r hr
      · intro b hb; simp at hb
      · intro b hb; simp at hb
    obtain ⟨lf1, lu1, k1, k2, _, k4⟩ := malloc_main_spec hps hnum hI1 hsm he
    refine ⟨lf1, lu1, k1, fun x hx => k2 x (List.mem_cons_of_mem _ hx),
      fun b hb => by simp at hb, ?_⟩
    rcases k4 with k4 | ⟨h, t1, t2, t3, t4, t5, _⟩
    · exact Or.inl k4
    · exact Or.inr ⟨h, t1, t2, t3, t4, t5, fun ⟨c, hc, _⟩ => by simp at hc⟩

/-- The heap in the middle of `split`, after the block was unlinked and the two
headers were written. -/
theorem split_mid {pagesize : Nat} {hp : Heap} {S A B : List Nat} {block n8 size free1 : Nat}
    {m1 m5 : Nat → Nat} (h : HeapOK pagesize hp S) (hS : ∀ b ∈ A ++ block :: B, b ∈ S)
    (hA : block ∉ A) (hB : block ∉ B) (hsz : load64raw hp.mem (block + 8) = size)
    (hn8a : n8 % 8 = 0) (hbig : n8 + 16 < size)
    (rr2 : IsList m1 free1 (A ++ B)) (rr4 : NextFrame A hp.mem m1)
    (hm5 : store64raw (store64raw (store64raw (store64raw m1 block 0)
      (block + 8) n8) (block + 16 + n8) 0) (block + 16 + n8 + 8) (size - n8 - 16) = m5) :
    HeapOK pagesize ⟨m5, hp.mapped⟩ ((block + 16 + n8) :: S) ∧ block + 16 + n8 ∉ S ∧
      IsList m5 free1 (A ++ B) ∧ load64raw m5 block = 0 ∧ load64raw m5 (block + 16 + n8) = 0 ∧
      load64raw m5 (block + 8) = n8 ∧
      (∀ b ∈ S, b ≠ block → ∀ x, b ≤ x → x < b + 16 + load64raw hp.mem (b + 8) →
        (∀ c ∈ A, x < c ∨ c + 8 ≤ x) → m5 x = hp.mem x) := by
  have hbS : block ∈ S := hS block (List.mem_append_right _ (List.mem_cons_self _ _))
  have hbnd := h.bound hbS
  have hABS : ∀ b ∈ A ++ B, b ∈ S := fun b hb => hS b (mem_app_mid hb)
  have hABb : ∀ b ∈ A ++ B, b ≠ block := by
    intro b hb e
    rw [e] at hb
    rcases List.mem_append.mp hb with hb | hb
    · exact hA hb
    · exact hB hb
  have hAS : ∀ b ∈ A, b ∈ S := fun b hb => hS b (List.mem_append_left _ hb)
  have hout : ∀ x, (∀ b ∈ A, x < b ∨ b + 8 ≤ x) → (x < block ∨ block + 16 + size ≤ x) →
      m5 x = hp.mem x := by
    intro x hxA hx
    rw [← hm5, store64raw_other _ _ _ _ (by omega), store64raw_other _ _ _ _ (by omega),
      store64raw_other _ _ _ _ (by omega), store64raw_other _ _ _ _ (by omega), rr4 x hxA]
  have hothers : ∀ b ∈ S, b ≠ block → ∀ x, b ≤ x →
      x < b + 16 + load64raw hp.mem (b + 8) → (∀ c ∈ A, x < c ∨ c + 8 ≤ x) → m5 x = hp.mem x := by
    intro b hb e x hx1 hx2 hx3
    apply hout x hx3
    have := h.disj b hb block hbS e
    unfold Disj at this
    omega
  have hsz5 : ∀ b ∈ S, b ≠ block → load64raw m5 (b + 8) = load64raw hp.mem (b + 8) := by
    intro b hb e
    apply load64raw_congr
    intro x hx1 hx2
    apply hothers b hb e x (by omega) (by omega)
    intro c hc
    by_cases ec : c = b
    · omega
    · have := h.sep (hAS c hc) hb ec
      omega
  have hs1 : load64raw m5 (block + 8) = n8 := by
    rw [← hm5, load64raw_store64raw_disj _ _ _ _ (by omega),
      load64raw_store64raw_disj _ _ _ _ (by omega),
      load64raw_store64raw_same _ _ _ (by unfold W at *; omega)]
  have hs2 : load64raw m5 (block + 16 + n8 + 8) = size - n8 - 16 := by
    rw [← hm5, load64raw_store64raw_same _ _ _ (by unfold W at *; omega)]
  have hn1 : load64raw m5 block = 0 := by
    rw [← hm5, load64raw_store64raw_disj _ _ _ _ (by omega),
      load64raw_store64raw_disj _ _ _ _ (by omega),
      load64raw_store64raw_disj _ _ _ _ (by omega),
      load64raw_store64raw_same _ _ _ (by unfold W at *; omega)]
  have hn2 : load64raw m5 (block + 16 + n8) = 0 := by
    rw [← hm5, load64raw_store64raw_disj _ _ _ _ (by omega),
      load64raw_store64raw_same _ _ _ (by unfold W at *; omega)]
  obtain ⟨hH5, hb2S⟩ := @HeapOK_split pagesize hp ⟨m5, hp.mapped⟩ S block n8 h hbS rfl hsz5
    hs1 hn8a (by omega) (by rw [hs2, hsz])
  refine ⟨hH5, hb2S, ?_, hn1, hn2, hs1, hothers⟩
  refine IsList_congr _ _ rr2 ?_
  intro a ha
  have haS : a ∈ S := hABS a ha
  have hab : a ≠ block := hABb a ha
  have hd := h.disj a haS block hbS hab
  unfold Disj at hd
  apply load64raw_congr
  intro x hx1 hx2
  rw [← hm5, store64raw_other _ _ _ _ (by omega), store64raw_other _ _ _ _ (by omega),
    store64raw_other _ _ _ _ (by omega), store64raw_other _ _ _ _ (by omega)]

theorem add_block_progress {hp : Heap} {l : List Nat} {list : Nat} (fuel block : Nat)
    (hl : IsList hp.mem list l) (hacc : ∀ b ∈ l, accessible hp b 8) (hf : l.length ≤ fuel) :
    ∃ r, add_block fuel block list hp = Except.ok r := by
  rcases list_nil_or_snoc l with rfl | ⟨L, t, rfl⟩
  · have : list = 0 := hl
    subst this
    exact ⟨_, add_block_nil fuel block hp⟩
  · rw [add_block_eq fuel block hl hacc, if_pos hf]
    exact ⟨_, rfl⟩

theorem remove_block_progress {hp : Heap} {A B : List Nat} {list block : Nat} (fuel : Nat)
    (hl : IsList hp.mem list (A ++ block :: B))
    (hacc : ∀ b ∈ A ++ block :: B, accessible hp b 8) (hf : A.length + 1 ≤ fuel) :
    ∃ r, remove_block fuel block list hp = Except.ok r := by
  have hnd := IsList_nodup _ _ hl
  rcases list_nil_or_snoc A with rfl | ⟨L, p, rfl⟩
  · exact ⟨_, remove_block_head fuel hl (hacc block (List.mem_cons_self _ _))⟩
  · rw [List.append_assoc] at hl hnd
    simp only [List.singleton_append] at hl hnd
    obtain ⟨n1, n2, _, _, _⟩ := nodup_mid2 hnd
    rw [remove_block_inner fuel hl n1 n2 (fun b hb => hacc b (by
      rcases List.mem_append.mp hb with hb | hb
      · exact List.mem_append_left _ (List.mem_append_left _ hb)
      · rcases List.mem_cons.mp hb with hb | hb
        · rw [hb]; exact List.mem_append_left _ (List.mem_append_right _ (List.mem_singleton.mpr rfl))
        · rw [List.mem_singleton.mp hb]
          exact List.mem_append_right _ (List.mem_cons_self _ _))),
      if_pos (by simp at hf; omega)]
    exact ⟨_, rfl⟩

theorem store64_eq_on {hp : Heap} {a : Nat} (m : Nat → Nat) (v : Nat) (h : accessible hp a 8) :
    store64 ⟨m, hp.mapped⟩ a v = Except.ok ⟨store64raw m a v, hp.mapped⟩ := if_pos h

/-- With enough fuel `split` returns on a block of a well-formed free list. -/
theorem split_progress {pagesize : Nat} {hp : Heap} {S A B : List Nat}
    {free block bytes fuel : Nat} (h : HeapOK pagesize hp S)
    (hl : IsList hp.mem free (A ++ block :: B)) (hS : ∀ b ∈ A ++ block :: B, b ∈ S)
    (hfit : bytes ≤ load64raw hp.mem (block + 8)) (hf : (A ++ B).length + 1 ≤ fuel) :
    ∃ r, split fuel block bytes free hp = Except.ok r := by
  have hbS : block ∈ S := hS block (List.mem_append_right _ (List.mem_cons_self _ _))
  have hbnd := h.bound hbS
  have hbk := h.ok block hbS
  have hnd := IsList_nodup _ _ hl
  obtain ⟨hA, hB⟩ := nodup_mid1 hnd
  have hal := hbk.al
  have hszal := hbk.szal
  have haccb := h.acc hbS
  have e2 : split_block2 block bytes = block + 16 + (bytes + 7) / 8 * 8 :=
    split_block2_eq hal (by unfold W at *; omega)
  have hABS : ∀ b ∈ A ++ B, b ∈ S := fun b hb => hS b (mem_app_mid hb)
  have hAB1S : ∀ b ∈ A ++ B ++ [block], b ∈ S := by
    intro b hb
    rcases mem_app_snoc hb with hb | hb
    · exact hABS b hb
    · rw [hb]; exact hbS
  unfold split
  rw [load64_eq (accessible_hdr (h.acc16 hbS)).2, ok_bind]
  generalize hsz : load64raw hp.mem (block + 8) = size at *
  generalize hn8 : (bytes + 7) / 8 * 8 = n8 at *
  have hn8a : n8 % 8 = 0 := by omega
  have hn8b : bytes ≤ n8 ∧ n8 ≤ size := by omega
  simp only [sizeofHeader, e2]
  have e1 : (block + 16 + size) % W = block + 16 + size := Nat.mod_eq_of_lt hbnd.2
  have e3 : (block + 16 + size + W - (block + 16 + n8)) % W = size - n8 := by
    unfold W at *; omega
  have e4 : ((block + 16 + size + W - block) % W + W - (size - n8) + W - 16) % W = n8 := by
    unfold W at *; omega
  rw [e1, e3, e4]
  by_cases hbig : size - n8 ≤ 16
  · rw [if_pos hbig]; exact ⟨_, rfl⟩
  · rw [if_neg hbig]
    obtain ⟨rr, h3⟩ := remove_block_progress fuel hl (fun b hb => h.acc8 (hS b hb))
      (by simp at hf; omega)
    obtain ⟨_, rr2, rr3, rr4⟩ := remove_block_spec h hl hS h3
    rw [h3, ok_bind]
    have ac1 : accessible rr.2.2 block 8 :=
      accessible_mapped rr3 (by simpa using accessible_sub haccb 0 8 (by omega))
    have ac2 : accessible rr.2.2 (block + 8) 8 :=
      accessible_mapped rr3 (accessible_sub haccb 8 8 (by omega))
    have ac3 : accessible rr.2.2 (block + 16 + n8) 8 := by
      have := accessible_mapped rr3 (accessible_sub haccb (16 + n8) 8 (by omega))
      rwa [← Nat.add_assoc] at this
    have ac4 : accessible rr.2.2 (block + 16 + n8 + 8) 8 := by
      have := accessible_mapped rr3 (accessible_sub haccb (16 + n8 + 8) 8 (by omega))
      rwa [← Nat.add_assoc, ← Nat.add_assoc] at this
    rw [store64_eq 0 ac1, ok_bind, store64_eq_on _ n8 ac2, ok_bind, store64_eq_on _ 0 ac3,
      ok_bind, store64_eq_on _ (size - n8 - 16) ac4, ok_bind]
    generalize hm5 : store64raw (store64raw (store64raw (store64raw rr.2.2.mem block 0)
      (block + 8) n8) (block + 16 + n8) 0) (block + 16 + n8 + 8) (size - n8 - 16) = m5
    obtain ⟨hH5, hb2S, hl5, hn1, hn2, _, _⟩ :=
      split_mid h hS hA hB hsz hn8a (by omega) rr2 rr4 hm5
    have hH5' : HeapOK pagesize ⟨m5, rr.2.2.mapped⟩ ((block + 16 + n8) :: S) := by
      rw [rr3]; exact hH5
    obtain ⟨a1, h13⟩ := @add_block_progress ⟨m5, rr.2.2.mapped⟩ (A ++ B) rr.2.1 fuel block hl5
      (fun b hb => hH5'.acc8 (List.mem_cons_of_mem _ (hABS b hb))) (by omega)
    obtain ⟨x1, x2, x3⟩ := add_block_spec hH5' hl5
      (fun b hb => List.mem_cons_of_mem _ (hABS b hb)) (List.mem_cons_of_mem _ hbS)
      (fun hb => by
        rcases List.mem_append.mp hb with hb | hb
        · exact hA hb
        · exact hB hb) hn1 h13
    rw [h13, ok_bind]
    have hH6 : HeapOK pagesize a1.2 ((block + 16 + n8) :: S) :=
      NextFrame.heapOK hH5' (fun b hb => List.mem_cons_of_mem _ (hABS b hb)) x3 x2
    obtain ⟨a2, h15⟩ := add_block_progress fuel (block + 16 + n8) x1
      (fun b hb => hH6.acc8 (List.mem_cons_of_mem _ (hAB1S b hb))) (by simp at hf ⊢; omega)
    rw [h15, ok_bind]
    exact ⟨_, rfl⟩

/-- With enough fuel `find_block` returns when some free block fits. -/
theorem find_block_progress {pagesize : Nat} {hp : Heap} {S lf : List Nat}
    {free bytes fuel : Nat} (hint : Option Nat)
    (h : HeapOK pagesize hp S) (hl : IsList hp.mem free lf) (hS : ∀ b ∈ lf, b ∈ S)
    (hfit : ∃ c ∈ lf, bytes ≤ load64raw hp.mem (c + 8)) (hf : lf.length + 1 ≤ fuel) :
    ∃ r, find_block pagesize hint fuel bytes free hp = Except.ok r := by
  rcases firstfit_cases (fun b => load64raw hp.mem (b + 8)) bytes lf with hnone |
    ⟨l1, c, l2, rfl, hlt, hc⟩
  · obtain ⟨c, hc, hc2⟩ := hfit
    have := hnone c hc
    simp only at this
    omega
  · unfold find_block
    rw [find_block_scan_found l1 free fuel hl hlt hc
      (fun b hb => h.acc16 (hS b (by
        rcases mem_app_snoc hb with hb | hb
        · exact List.mem_append_left _ hb
        · rw [hb]; exact List.mem_append_right _ (List.mem_cons_self _ _)))),
      if_pos (by simp at hf; omega), ok_bind]
    exact split_progress h hl hS hc (by simp at hf ⊢; omega)

/-- With enough fuel `malloc` returns when the thread table exists and some free block fits. -/
theorem malloc_main_progress {pagesize : Nat} (hps : PageOK pagesize)
    (hnum : 0 < pagesize / sizeofThreadTable) {tid : Int} (blkHint : Option Nat)
    {fuel bytes : Nat} {s : State} {lf lu : List Nat}
    (hI : Inv pagesize tid s lf lu) (hsm : bytes + sizeofHeader + pagesize < W)
    (hfit : ∃ c ∈ lf, bytes ≤ load64raw s.heap.mem (c + 8))
    (hf : lf.length + lu.length + 2 ≤ fuel) :
    ∃ r, malloc_main pagesize tid blkHint fuel bytes s = Except.ok r ∧ r.1 ≠ 0 := by
  have hH := hI.dir.heap
  obtain ⟨hs0, hacc, hid⟩ := hI.live (by
    obtain ⟨c, hc, _⟩ := hfit
    intro e
    have := List.append_eq_nil.mp e
    rw [this.1] at hc
    exact absurd hc (List.not_mem_nil c))
  have hlfS : ∀ b ∈ lf, b ∈ lf ++ lu := fun b hb => List.mem_append_left _ hb
  have hluS : ∀ b ∈ lu, b ∈ lf ++ lu := fun b hb => List.mem_append_right _ hb
  have hdisj : ∀ b ∈ lu, b ∉ lf := fun b hb hbf => (List.nodup_append.mp hI.dir.nodup).2.2 hbf hb
  unfold malloc_main
  simp only
  rw [if_neg (fun hc => hc.2 hacc), malloc_scan_zero hnum hid]
  simp only
  rw [if_neg (Nat.ne_of_lt hnum)]
  obtain ⟨f, h1⟩ := find_block_progress blkHint hH hI.dir.isf hlfS hfit (show lf.length + 1 ≤ fuel by omega)
  rw [h1, ok_bind]
  rcases find_block_spec hps hH hI.dir.isf hlfS hsm h1 with ⟨_, _, hno⟩ |
    ⟨S1, g1, g2, g3, g4, g5, g6, g7, g8⟩
  · obtain ⟨c, hc, hc2⟩ := hfit
    have := hno c hc
    omega
  have hf0 : f.1 ≠ 0 := (g1.ok _ g3).pos
  rw [if_neg hf0]
  obtain ⟨gm, gin⟩ := g7 hfit
  have hfu : f.1 ∉ lu := fun hin => hdisj _ hin gin
  rcases g8 with ⟨A1, B1, q1, q2, _, qlen⟩ | ⟨q1, _⟩
  swap
  · rw [q1] at gin
    exact absurd gin (List.not_mem_nil _)
  have hnd := IsList_nodup _ _ q1
  obtain ⟨nA, nB⟩ := nodup_mid1 hnd
  have hAB : ∀ b ∈ A1 ++ B1, b ∈ S1 ∧ b ∉ lu ∧ b ≠ f.1 := by
    intro b hb
    refine ⟨(q2 b hb).1, ?_, ?_⟩
    · rcases (q2 b hb).2 with q | q
      · exact fun hin => hdisj _ hin q
      · exact fun hin => q (hluS _ hin)
    · intro e
      rw [e] at hb
      rcases List.mem_append.mp hb with hb | hb
      · exact nA hb
      · exact nB hb
  have hAllS : ∀ b ∈ A1 ++ f.1 :: B1, b ∈ S1 := by
    intro b hb
    rcases List.mem_append.mp hb with hb | hb
    · exact (hAB b (List.mem_append_left _ hb)).1
    · rcases List.mem_cons.mp hb with hb | hb
      · rw [hb]; exact g3
      · exact (hAB b (List.mem_append_right _ hb)).1
  obtain ⟨rb, h3⟩ := remove_block_progress fuel q1 (fun b hb => g1.acc8 (hAllS b hb))
    (by simp at qlen; omega)
  obtain ⟨_, t2, t3, t4⟩ := remove_block_spec g1 q1 hAllS h3
  rw [h3, ok_bind]
  have hF1 : ∀ b ∈ A1, b ∈ S1 := fun b hb => (hAB b (List.mem_append_left _ hb)).1
  have hH2 : HeapOK pagesize rb.2.2 S1 := NextFrame.heapOK g1 hF1 t4 t3
  rw [store64_eq 0 (hH2.acc8 g3), ok_bind]
  have hlu1 : IsList f.2.mem (s.slots.getD 0 default).used lu := by
    refine IsList_congr _ _ hI.dir.isu (fun b hb => ?_)
    apply load64raw_congr
    intro x hx1 hx2
    exact g6 b (hluS b hb) (hdisj b hb) x (by omega) (by omega)
  have hluS1 : ∀ b ∈ lu, b ∈ S1 := fun b hb => g2 b (hluS b hb)
  have hlu2 : IsList rb.2.2.mem (s.slots.getD 0 default).used lu :=
    IsList_nextframe g1 hlu1 hluS1 hF1
      (fun b hb hbF => (hAB b (List.mem_append_left _ hbF)).2.1 hb) t4
  have hfr3 : NextFrame [f.1] rb.2.2.mem (store64raw rb.2.2.mem f.1 0) :=
    NextFrame.store 0 (List.mem_singleton.mpr rfl)
  have hlu3 : IsList (store64raw rb.2.2.mem f.1 0) (s.slots.getD 0 default).used lu :=
    IsList_nextframe hH2 hlu2 hluS1 (fun b hb => by rw [List.mem_singleton.mp hb]; exact g3)
      (fun b hb hbF => hfu (by have e := List.mem_singleton.mp hbF; rw [e] at hb; exact hb)) hfr3
  obtain ⟨a, h7⟩ := @add_block_progress ⟨store64raw rb.2.2.mem f.1 0, rb.2.2.mapped⟩ lu
    (s.slots.getD 0 default).used fuel f.1 hlu3 (fun b hb => hH2.acc8 (hluS1 b hb)) (by omega)
  rw [h7, ok_bind]
  refine ⟨_, rfl, ?_⟩
  have hb := g1.bound g3
  show (f.1 + sizeofHeader) % W ≠ 0
  rw [Nat.mod_eq_of_lt (by unfold sizeofHeader; omega)]
  exact Nat.succ_ne_zero _

theorem malloc_progress {pagesize : Nat} (hps : PageOK pagesize)
    (hnum : 0 < pagesize / sizeofThreadTable) {tid : Int} (tblHint blkHint : Option Nat)
    {fuel bytes : Nat} {s : State} {lf lu : List Nat}
    (hI : Inv pagesize tid s lf lu) (hsm : bytes + sizeofHeader + pagesize < W)
    (hfit : ∃ c ∈ lf, bytes ≤ load64raw s.heap.mem (c + 8))
    (hf : lf.length + lu.length + 2 ≤ fuel) :
    ∃ r, malloc pagesize tid tblHint blkHint fuel bytes s = Except.ok r ∧ r.1 ≠ 0 := by
  obtain ⟨hs0, hacc, hid⟩ := hI.live (by
    obtain ⟨c, hc, _⟩ := hfit
    intro e
    have := List.append_eq_nil.mp e
    rw [this.1] at hc
    exact absurd hc (List.not_mem_nil c))
  have h0 : s.thread_tbl ≠ 0 := by
    intro e
    rw [e] at hacc
    exact not_accessible_zero hps hI.dir.heap (by unfold sizeofThreadTable; omega) hacc
  unfold malloc
  rcases malloc_init_cases pagesize tid tblHint s with ⟨_, hc⟩ | ⟨h1, _⟩ | ⟨h1, _⟩
  · rw [hc]
    exact malloc_main_progress hps hnum blkHint hI hsm hfit hf
  · exact absurd h1 h0
  · exact absurd h1 h0

/-! ## `calloc`, `realloc` and the invariant of reachable states -/

theorem memcpy_raw_other (m : Nat → Nat) (dst src : Nat) : ∀ (n x : Nat),
    (x < dst ∨ dst + n ≤ x) → memcpy_raw m dst src n x = m x := by
  intro n
  induction n with
  | zero => intro x _; rfl
  | succ k ih =>
    intro x hx
    unfold memcpy_raw
    rw [if_neg (by omega)]
    exact ih x (by omega)

theorem memcpy_raw_at (m : Nat → Nat) (dst src : Nat) : ∀ (n i : Nat), i < n →
    (src + i < dst ∨ dst + n ≤ src + i) → memcpy_raw m dst src n (dst + i) = m (src + i) := by
  intro n
  induction n with
  | zero => intro i hi; omega
  | succ k ih =>
    intro i hi hx
    unfold memcpy_raw
    by_cases hik : i = k
    · rw [hik, if_pos rfl]
      exact memcpy_raw_other m dst src k (src + k) (by omega)
    · rw [if_neg (by omega)]
      exact ih i (by omega) (by omega)

/-- A write inside the payload of one block keeps the invariant. -/
theorem Inv_payload {pagesize : Nat} {tid : Int} {s : State} {lf lu : List Nat}
    (hI : Inv pagesize tid s lf lu) {h : Nat} (hh : h ∈ lf ++ lu) {m1 : Nat → Nat}
    (hfr : ∀ x, x < h + 16 ∨ h + 16 + load64raw s.heap.mem (h + 8) ≤ x → m1 x = s.heap.mem x) :
    Inv pagesize tid ⟨⟨m1, s.heap.mapped⟩, s.thread_tbl, s.slots⟩ lf lu := by
  have hH := hI.dir.heap
  have key : ∀ b ∈ lf ++ lu, ∀ x, b ≤ x → x < b + 16 → m1 x = s.heap.mem x := by
    intro b hb x h1 h2
    apply hfr
    by_cases e : b = h
    · left; omega
    · have := hH.disj b hb h hh e
      unfold Disj at this
      omega
  have k0 : ∀ b ∈ lf ++ lu, load64raw m1 b = load64raw s.heap.mem b := fun b hb =>
    load64raw_congr _ _ _ (fun x h1 h2 => key b hb x h1 (by omega))
  have k8 : ∀ b ∈ lf ++ lu, load64raw m1 (b + 8) = load64raw s.heap.mem (b + 8) := fun b hb =>
    load64raw_congr _ _ _ (fun x h1 h2 => key b hb x (by omega) (by omega))
  refine ⟨?_, ?_, ?_, hI.dir.nodup, ?_⟩
  · rcases hI.own with h1 | ⟨h1, h2, h3⟩
    · exact Or.inl h1
    · exact Or.inr ⟨h1, h2, h3⟩
  · exact IsList_congr _ _ hI.dir.isf (fun a ha => k0 a (List.mem_append_left _ ha))
  · exact IsList_congr _ _ hI.dir.isu (fun a ha => k0 a (List.mem_append_right _ ha))
  · exact @HeapOK.congr pagesize s.heap ⟨m1, s.heap.mapped⟩ _ hH rfl k8

theorem hdr_add {h : Nat} (hh : h + 16 < W) : hdr (h + 16) = h := by
  unfold hdr sizeofHeader
  have : h + 16 + W - 16 = h + W := by omega
  rw [this, Nat.add_mod_right]
  exact Nat.mod_eq_of_lt (by omega)

theorem hdr_inv {p : Nat} (hp : p < W) (hh : hdr p + 16 < W) : p = hdr p + 16 := by
  have hW : W = 2 ^ 64 := rfl
  by_cases h16 : 16 ≤ p
  · have e : hdr p = p - 16 := by
      unfold hdr sizeofHeader
      have e1 : p + W - 16 = (p - 16) + W := by omega
      rw [e1, Nat.add_mod_right]
      exact Nat.mod_eq_of_lt (by omega)
    omega
  · have e : hdr p = p + W - 16 := by
      unfold hdr sizeofHeader
      exact Nat.mod_eq_of_lt (by omega)
    omega

/-- A valid pointer of the thread is the payload address of a block on its used list. -/
theorem ValidPtr_mem {pagesize : Nat} (hnum : 0 < pagesize / sizeofThreadTable) {tid : Int}
    {s : State} {lf lu : List Nat} (hI : Inv pagesize tid s lf lu) {p : Nat}
    (hv : ValidPtr pagesize tid s p) : hdr p ∈ lu ∧ p = hdr p + 16 := by
  obtain ⟨_, hpW, _, hon⟩ := hv
  have hin : hdr p ∈ lu := by
    rcases hI.own with ⟨h1, _⟩ | ⟨h1, _, h3⟩
    · exfalso
      unfold slotOf at hon
      rw [h1] at hon
      have : IsList s.heap.mem (([] : List ThreadTable).getD
          (free_scan tid [] (pagesize / sizeofThreadTable) 0) default).used [] := rfl
      exact absurd ((IsList_onList this _).mp hon) (List.not_mem_nil _)
    · unfold slotOf at hon
      rw [free_scan_zero hnum h3] at hon
      exact (IsList_onList hI.dir.isu _).mp hon
  have := hI.dir.heap.bound (List.mem_append_right lf hin)
  exact ⟨hin, hdr_inv hpW (by omega)⟩

/-- `calloc` with non-wrapping request size keeps the invariant. -/
theorem calloc_spec {pagesize : Nat} (hps : PageOK pagesize)
    (hnum : 0 < pagesize / sizeofThreadTable) {tid : Int} {tblHint blkHint : Option Nat}
    {fuel bytes value : Nat} {s : State} {r : Nat × State} {lf lu : List Nat}
    (hI : Inv pagesize tid s lf lu) (hsm : bytes + sizeofHeader + pagesize < W)
    (he : calloc pagesize tid tblHint blkHint fuel bytes value s = Except.ok r) :
    ∃ lf1 lu1, Inv pagesize tid r.2 lf1 lu1 := by
  unfold calloc at he
  cases hm : malloc pagesize tid tblHint blkHint fuel bytes s with
  | error e => rw [hm] at he; cases he
  | ok r1 =>
    rw [hm, ok_bind] at he
    obtain ⟨lf1, lu1, hI1, _, _, hc⟩ := malloc_spec hps hnum hI hsm hm
    split at he
    · injection he with he
      rw [← he]
      exact ⟨lf1, lu1, hI1⟩
    · rcases hc with ⟨h0, _⟩ | ⟨h, hr, hW, hnin, hlu, hsz, _⟩
      · contradiction
      · unfold memset at he
        split at he
        · injection he with he
          rw [← he]
          refine ⟨lf1, lu1, ?_⟩
          have hin : h ∈ lf1 ++ lu1 := by
            rw [hlu]
            exact List.mem_append_right _ (List.mem_append_right _ (List.mem_singleton.mpr rfl))
          apply @Inv_payload pagesize tid r1.2 lf1 lu1 hI1 h hin
          intro x hx
          show (if r1.1 ≤ x ∧ x < r1.1 + bytes then 0 % 256 else r1.2.heap.mem x) = _
          rw [if_neg (by rw [hr]; omega)]
        · cases he

/-- `realloc` of a used block with non-wrapping request size keeps the invariant;
when it returns a non-NULL pointer, that pointer is new, its payload starts
with the old payload, and the old block has moved to the free list. -/
theorem realloc_spec {pagesize : Nat} (hps : PageOK pagesize)
    (hnum : 0 < pagesize / sizeofThreadTable) {tid : Int} {tblHint blkHint : Option Nat}
    {fuel p bytes : Nat} {s : State} {r : Nat × State} {lf lu : List Nat}
    (hI : Inv pagesize tid s lf lu) (hsm : bytes + sizeofHeader + pagesize < W)
    (hv : hdr p ∈ lu) (hp : p = hdr p + 16)
    (he : realloc pagesize tid tblHint blkHint fuel p bytes s = Except.ok r) :
    ∃ lf1 lu1, Inv pagesize tid r.2 lf1 lu1 ∧
      (r.1 = 0 ∨ (r.1 ≠ p ∧ hdr p ∈ lf1 ∧ hdr p ∉ lu1 ∧
        ∀ i, i < bytes → i < load64raw s.heap.mem (hdr p + 8) →
          r.2.heap.mem (r.1 + i) = s.heap.mem (p + i))) := by
  unfold realloc at he
  cases hm : malloc pagesize tid tblHint blkHint fuel bytes s with
  | error e => rw [hm] at he; cases he
  | ok r1 =>
    rw [hm, ok_bind] at he
    obtain ⟨lf1, lu1, hI1, _, hF1, hc⟩ := malloc_spec hps hnum hI hsm hm
    split at he
    · rename_i h0
      injection he with he
      rw [← he]
      exact ⟨lf1, lu1, hI1, Or.inl rfl⟩
    · rcases hc with ⟨h0, _⟩ | ⟨h, hr, hW, hnin, hlu, hsz, _⟩
      · contradiction
      · unfold memcpy at he
        split at he
        swap
        · cases he
        rw [ok_bind] at he
        generalize hq : hdr p = q at *
        have hne : h ≠ q := fun e => hnin (e ▸ hv)
        have hqin1 : q ∈ lu1 := by rw [hlu]; exact List.mem_append_left _ hv
        have hin : h ∈ lf1 ++ lu1 := by
          rw [hlu]
          exact List.mem_append_right _ (List.mem_append_right _ (List.mem_singleton.mpr rfl))
        have hqin : q ∈ lf1 ++ lu1 := List.mem_append_right _ hqin1
        have hIM := @Inv_payload pagesize tid r1.2 lf1 lu1 hI1 h hin
          (memcpy_raw r1.2.heap.mem r1.1 p bytes) (fun x hx =>
            memcpy_raw_other _ _ _ _ _ (by rw [hr]; omega))
        cases hfr : free pagesize tid fuel p
            ⟨⟨memcpy_raw r1.2.heap.mem r1.1 p bytes, r1.2.heap.mapped⟩, r1.2.thread_tbl,
              r1.2.slots⟩ with
        | error e => rw [hfr] at he; cases he
        | ok s2 =>
          rw [hfr, ok_bind] at he
          injection he with he
          have hp0 : p ≠ 0 := by omega
          obtain ⟨hI2, _, _, hNF⟩ := free_spec hnum hIM hp0 (by rw [hq]; exact hqin1) hfr
          rw [hq] at hI2
          rw [← he]
          refine ⟨_, _, hI2, Or.inr ⟨?_, ?_, ?_, ?_⟩⟩
          · show r1.1 ≠ p
            omega
          · exact List.mem_append_right _ (List.mem_singleton.mpr rfl)
          · have nd := (List.nodup_append.mp hI1.dir.nodup).2.1
            intro hmem
            exact ((List.Nodup.mem_erase_iff nd).mp hmem).1 rfl
          · intro i hi1 hi2
            show s2.heap.mem (r1.1 + i) = s.heap.mem (p + i)
            have hHM := hIM.dir.heap
            have hszM : load64raw (memcpy_raw r1.2.heap.mem r1.1 p bytes) (h + 8) =
                load64raw r1.2.heap.mem (h + 8) :=
              load64raw_congr _ _ _ (fun x h1 h2 =>
                memcpy_raw_other _ _ _ _ _ (by rw [hr]; omega))
            have e1 : s2.heap.mem (r1.1 + i) = memcpy_raw r1.2.heap.mem r1.1 p bytes (r1.1 + i) :=
              NextFrame.body hHM (fun _ hb => hb) hNF hin (by rw [hr]; omega)
                (by
                  show r1.1 + i < h + 16 + load64raw (memcpy_raw r1.2.heap.mem r1.1 p bytes) (h + 8)
                  rw [hszM, hr]; omega)
            have hsq : load64raw r1.2.heap.mem (q + 8) = load64raw s.heap.mem (q + 8) :=
              load64raw_congr _ _ _ (fun x h1 h2 => hF1 q hv x (by omega) (by omega))
            have hd := hI1.dir.heap.disj h hin q hqin hne
            unfold Disj at hd
            have e2 : memcpy_raw r1.2.heap.mem r1.1 p bytes (r1.1 + i) = r1.2.heap.mem (p + i) :=
              memcpy_raw_at _ _ _ _ _ hi1 (by rw [hr]; omega)
            have e3 : r1.2.heap.mem (p + i) = s.heap.mem (p + i) :=
              hF1 q hv _ (by omega) (by omega)
            rw [e1, e2, e3]

theorem Inv_init (pagesize : Nat) (tid : Int) : Inv pagesize tid init [] [] := by
  refine ⟨Or.inl ⟨rfl, Or.inl rfl⟩, rfl, rfl, List.nodup_nil, ?_, ?_, ?_⟩
  · intro r hr; exact absurd hr (List.not_mem_nil _)
  · intro b hb; exact absurd hb (List.not_mem_nil _)
  · intro a ha; exact absurd ha (List.not_mem_nil _)

/-- Every state a single thread reaches through calls with non-wrapping request
sizes has a well-formed directory. -/
theorem Trace_inv {pagesize : Nat} (hps : PageOK pagesize)
    (hnum : 0 < pagesize / sizeofThreadTable) {tid : Int} {s : State}
    (h : Trace pagesize tid (Call.small pagesize) s) : ∃ lf lu, Inv pagesize tid s lf lu := by
  induction h with
  | init => exact ⟨[], [], Inv_init pagesize tid⟩
  | @step s0 s1 c fuel p _ hP hwf hrun ih =>
    obtain ⟨lf, lu, hI⟩ := ih
    cases c with
    | alloc bytes t b =>
      obtain ⟨lf1, lu1, hI1, _⟩ := malloc_spec hps hnum hI hP hrun
      exact ⟨lf1, lu1, hI1⟩
    | zero_alloc count unit t b =>
      exact @calloc_spec pagesize hps hnum tid t b fuel count unit s0 _ lf lu hI hP hrun
    | resize ptr bytes t b =>
      obtain ⟨hv, hp⟩ := ValidPtr_mem hnum hI hwf.1
      obtain ⟨lf1, lu1, hI1, _⟩ := realloc_spec hps hnum hI hP hv hp hrun
      exact ⟨lf1, lu1, hI1⟩
    | release ptr =>
      obtain ⟨hv, hp⟩ := ValidPtr_mem hnum hI hwf
      have hrun2 : (free pagesize tid fuel ptr s0).map (fun s1 => (0, s1)) = Except.ok (p, s1) := hrun
      cases hf : free pagesize tid fuel ptr s0 with
      | error e => rw [hf] at hrun2; cases hrun2
      | ok s2 =>
        rw [hf] at hrun2
        injection hrun2 with e
        injection e with e1 e2
        obtain ⟨hI2, _⟩ := free_spec hnum hI hwf.1 hv hf
        rw [← e2]
        exact ⟨_, _, hI2⟩

/-- Reuse after release without wrap-around.  In every state a single thread reaches through
alloc, zero-alloc, resize and release calls with non-wrapping request sizes
(pages a power of two large enough to hold one table row), if `alloc(n)` with
`n + sizeof(Header) + pagesize < 2 ^ 64` returns a non-NULL pointer `p` and
`release(p)` then returns, the next `alloc(n)` returns for every sufficient
fuel, whatever the kernel would answer to an `mmap` request (also when it
would refuse); the pointer `q` it returns is non-NULL, the set of mapped
regions is unchanged, and the block of `q` was on the free list of the thread
before the call. -/
theorem reuse_after_release_nonwrapping {pagesize : Nat} (hps : PageOK pagesize)
    (hnum : 0 < pagesize / sizeofThreadTable) {tid : Int} {s s1 s2 : State}
    {n p fuel1 fuel2 : Nat} {t1 b1 : Option Nat}
    (hs : Trace pagesize tid (Call.small pagesize) s) (hn : n + sizeofHeader + pagesize < W)
    (h1 : malloc pagesize tid t1 b1 fuel1 n s = Except.ok (p, s1)) (hp : p ≠ 0)
    (h2 : free pagesize tid fuel2 p s1 = Except.ok s2) :
    ∃ N, ∀ fuel, N ≤ fuel → ∀ t3 b3 : Option Nat, ∃ q s3,
      malloc pagesize tid t3 b3 fuel n s2 = Except.ok (q, s3) ∧ q ≠ 0 ∧
        s3.heap.mapped = s2.heap.mapped ∧
        OnList s2.heap.mem (slotOf pagesize tid s2).free (hdr q) := by
  obtain ⟨lf, lu, hI⟩ := Trace_inv hps hnum hs
  obtain ⟨lf1, lu1, hI1, _, _, hc⟩ := malloc_spec hps hnum hI hn h1
  rcases hc with ⟨h0, _⟩ | ⟨h, hr, hW, hnin, hlu, hsz, _⟩
  · exact absurd h0 hp
  have hr1 : p = h + 16 := hr
  have hsz1 : n ≤ load64raw s1.heap.mem (h + 8) := hsz
  have hI1b : Inv pagesize tid s1 lf1 lu1 := hI1
  have hq : hdr p = h := by rw [hr1]; exact hdr_add hW
  have hin1 : h ∈ lu1 := by rw [hlu]; exact List.mem_append_right _ (List.mem_singleton.mpr rfl)
  obtain ⟨hI2, _, _, hNF⟩ := free_spec hnum hI1b hp (by rw [hq]; exact hin1) h2
  rw [hq] at hI2
  have hsz2 : load64raw s2.heap.mem (h + 8) = load64raw s1.heap.mem (h + 8) :=
    NextFrame.size hI1b.dir.heap (fun _ hb => hb) hNF (List.mem_append_right _ hin1)
  have hfit : ∃ c ∈ lf1 ++ [h], n ≤ load64raw s2.heap.mem (c + 8) :=
    ⟨h, List.mem_append_right _ (List.mem_singleton.mpr rfl), by rw [hsz2]; exact hsz1⟩
  refine ⟨(lf1 ++ [h]).length + (lu1.erase h).length + 2, fun fuel hfuel t3 b3 => ?_⟩
  obtain ⟨r, hr3, hr0⟩ := malloc_progress hps hnum t3 b3 hI2 hn hfit hfuel
  obtain ⟨lf3, lu3, _, _, _, hc3⟩ := malloc_spec hps hnum hI2 hn hr3
  rcases hc3 with ⟨h0, _⟩ | ⟨h3, hr3a, hW3, _, _, _, hold⟩
  · exact absurd h0 hr0
  obtain ⟨hmap, hin3⟩ := hold hfit
  obtain ⟨_, _, hid⟩ := hI2.live (by
    intro e
    have := (List.append_eq_nil.mp e).1
    exact absurd (List.append_eq_nil.mp this).2 (List.cons_ne_nil _ _))
  refine ⟨r.1, r.2, hr3, hr0, hmap, ?_⟩
  unfold slotOf
  rw [free_scan_zero hnum hid, hr3a, hdr_add hW3]
  exact (IsList_onList hI2.dir.isf _).mpr hin3

/-- In a fresh process `alloc(8)` returns `0x10010`; after `release(0x10010)`
the next `alloc(8)` returns a block of the free list. -/
theorem reuse_after_release_example :
    ∃ N, ∀ fuel, N ≤ fuel → ∀ t3 b3 : Option Nat, ∃ q s3,
      malloc 4096 7 t3 b3 fuel 8 state_C3 = Except.ok (q, s3) ∧ q ≠ 0 ∧
        s3.heap.mapped = state_C3.heap.mapped ∧
        OnList state_C3.heap.mem (slotOf 4096 7 state_C3).free (hdr q) :=
  @reuse_after_release_nonwrapping 4096 ⟨12, by decide, by decide, by decide⟩ (by decide) 7 init
    (after 4096 7 10 (fun _ => true) [Call.alloc 8 (some 0x100000) (some 0x10000)])
    state_C3 8 0x10010 10 10 (some 0x100000) (some 0x10000)
    Trace.init (by decide) rfl (by decide) rfl

/-! ## Mapped regions stay below the top of the address space -/

theorem store64_mapped {hp hp1 : Heap} {a v : Nat} (h : store64 hp a v = Except.ok hp1) :
    hp1.mapped = hp.mapped := by
  obtain ⟨_, rfl⟩ := store64_ok h
  rfl

theorem add_block_mapped {hp : Heap} {fuel block list : Nat} {r : Nat × Heap}
    (he : add_block fuel block list hp = Except.ok r) : r.2.mapped = hp.mapped := by
  unfold add_block at he
  split at he
  · injection he with he; subst he; rfl
  · obtain ⟨t, h1, h2⟩ := bind_ok he
    obtain ⟨hp1, h3, h4⟩ := bind_ok h2
    injection h4 with h4; subst h4
    exact store64_mapped h3

theorem remove_block_mapped {hp : Heap} {fuel block list : Nat} {r : Nat × Nat × Heap}
    (he : remove_block fuel block list hp = Except.ok r) : r.2.2.mapped = hp.mapped := by
  unfold remove_block at he
  split at he
  · injection he with he; subst he; rfl
  · split at he
    · obtain ⟨nx, h1, h2⟩ := bind_ok he
      split at h2
      · injection h2 with h2; subst h2; rfl
      · injection h2 with h2; subst h2; rfl
    · obtain ⟨o, h1, h2⟩ := bind_ok he
      cases o with
      | none => injection h2 with h2; subst h2; rfl
      | some t =>
        obtain ⟨n1, h3, h4⟩ := bind_ok h2
        obtain ⟨n2, h5, h6⟩ := bind_ok h4
        obtain ⟨hp1, h7, h8⟩ := bind_ok h6
        injection h8 with h8; subst h8
        exact store64_mapped h7

theorem split_mapped {hp : Heap} {fuel block bytes free : Nat} {r : Nat × Heap}
    (he : split fuel block bytes free hp = Except.ok r) : r.2.mapped = hp.mapped := by
  unfold split at he
  obtain ⟨size, h1, h2⟩ := bind_ok he
  generalize split_block2 block bytes = block2 at h2
  simp only [sizeofHeader, W] at h2
  split at h2
  · injection h2 with h2; subst h2; rfl
  · obtain ⟨rb, h3, h4⟩ := bind_ok h2
    obtain ⟨hp1, h5, h6⟩ := bind_ok h4
    obtain ⟨hp2, h7, h8⟩ := bind_ok h6
    obtain ⟨hp3, h9, h10⟩ := bind_ok h8
    obtain ⟨hp4, h11, h12⟩ := bind_ok h10
    obtain ⟨a1, h13, h14⟩ := bind_ok h12
    obtain ⟨a2, h15, h16⟩ := bind_ok h14
    injection h16 with h16; subst h16
    rw [add_block_mapped h15, add_block_mapped h13, store64_mapped h11, store64_mapped h9,
      store64_mapped h7, store64_mapped h5, remove_block_mapped h3]

theorem find_block_top {pagesize : Nat} {hp : Heap} (hm : RegsTop hp.mapped)
    {hint : Option Nat} {fuel bytes free : Nat} {r : Nat × Heap}
    (he : find_block pagesize hint fuel bytes free hp = Except.ok r) :
    RegsTop r.2.mapped ∧ ∀ x ∈ hp.mapped, x ∈ r.2.mapped := by
  unfold find_block at he
  obtain ⟨o, h1, h2⟩ := bind_ok he
  cases o with
  | some h =>
    have := split_mapped h2
    rw [this]
    exact ⟨hm, fun _ hx => hx⟩
  | none =>
    simp only at h2
    rcases mmap_cases pagesize hp (numbytes pagesize bytes) hint with hc | ⟨a, c1, c2, c3, c4, c5, c6, hc⟩
    · rw [hc] at h2
      simp only [if_true] at h2
      injection h2 with h2; subst h2
      exact ⟨hm, fun _ hx => hx⟩
    · rw [hc] at h2
      simp only [if_neg c5] at h2
      obtain ⟨hp1, h3, h4⟩ := bind_ok h2
      obtain ⟨hp2, h5, h6⟩ := bind_ok h4
      obtain ⟨a1, h7, h8⟩ := bind_ok h6
      have e : r.2.mapped = (a, numbytes pagesize bytes) :: hp.mapped := by
        rw [split_mapped h8, add_block_mapped h7, store64_mapped h5, store64_mapped h3]
      rw [e]
      refine ⟨fun x hx => ?_, fun x hx => List.mem_cons_of_mem _ hx⟩
      rcases List.mem_cons.mp hx with hx | hx
      · rw [hx]; exact c4
      · exact hm x hx

theorem malloc_main_top {pagesize : Nat} {tid : Int} {blkHint : Option Nat}
    {fuel bytes : Nat} {s1 : State} {r : Nat × State} (hm : RegsTop s1.heap.mapped)
    (he : malloc_main pagesize tid blkHint fuel bytes s1 = Except.ok r) :
    RegsTop r.2.heap.mapped ∧ ∀ x ∈ s1.heap.mapped, x ∈ r.2.heap.mapped := by
  unfold malloc_main at he
  simp only at he
  split at he
  · simp at he
  · generalize malloc_scan tid s1.slots (pagesize / sizeofThreadTable) 0 = sc at he
    split at he
    · injection he with he; subst he
      exact ⟨hm, fun _ hx => hx⟩
    · obtain ⟨f, h1, h2⟩ := bind_ok he
      obtain ⟨f1, f2⟩ := find_block_top hm h1
      split at h2
      · injection h2 with h2; subst h2
        exact ⟨f1, f2⟩
      · obtain ⟨rb, h3, h4⟩ := bind_ok h2
        obtain ⟨hp1, h5, h6⟩ := bind_ok h4
        obtain ⟨a, h7, h8⟩ := bind_ok h6
        injection h8 with h8; subst h8
        have e : a.2.mapped = f.2.mapped := by
          rw [add_block_mapped h7, store64_mapped h5, remove_block_mapped h3]
        show RegsTop a.2.mapped ∧ ∀ x ∈ s1.heap.mapped, x ∈ a.2.mapped
        rw [e]
        exact ⟨f1, f2⟩

theorem malloc_top {pagesize : Nat} {tid : Int} {tblHint blkHint : Option Nat}
    {fuel bytes : Nat} {s : State} {r : Nat × State} (hm : RegsTop s.heap.mapped)
    (he : malloc pagesize tid tblHint blkHint fuel bytes s = Except.ok r) :
    RegsTop r.2.heap.mapped ∧ ∀ x ∈ s.heap.mapped, x ∈ r.2.heap.mapped := by
  unfold malloc at he
  rcases malloc_init_cases pagesize tid tblHint s with ⟨_, hc⟩ | ⟨_, hc⟩ | ⟨_, a, c1, c2, c3, c4, hc⟩
  · rw [hc] at he
    exact malloc_main_top hm he
  · rw [hc] at he
    simp only [pure, Except.pure] at he
    injection he with he; subst he
    exact ⟨hm, fun _ hx => hx⟩
  · rw [hc] at he
    have hm1 : RegsTop ((a, pagesize) :: s.heap.mapped) := by
      intro x hx
      rcases List.mem_cons.mp hx with hx | hx
      · rw [hx]; exact c3
      · exact hm x hx
    obtain ⟨t1, t2⟩ := @malloc_main_top pagesize tid blkHint fuel bytes
      ⟨⟨fun x => if a ≤ x ∧ x < a + pagesize then 0 else s.heap.mem x,
          (a, pagesize) :: s.heap.mapped⟩, a, init_slots tid (pagesize / sizeofThreadTable)⟩ r hm1 he
    exact ⟨t1, fun x hx => t2 x (List.mem_cons_of_mem _ hx)⟩

/-- A read that reaches the last byte of the address space is not accessible. -/
theorem not_accessible_top {hp : Heap} (hm : RegsTop hp.mapped) {a n : Nat} (ha : a < W)
    (hn : W ≤ a + n) : ¬ accessible hp a n := by
  intro hacc
  obtain ⟨h1, h2⟩ := hacc
  have := h2 (W - 1 - a) (by omega)
  unfold isMapped at this
  rw [List.any_eq_true] at this
  obtain ⟨r, hr, hr2⟩ := this
  have := hm r hr
  simp at hr2
  omega

/-- Resize without wrap-around.  In every state a single thread reaches through
alloc, zero-alloc, resize and release calls with non-wrapping request sizes
(pages a power of two large enough to hold one table row), for every valid
pointer `p` and every `bytes`, if `resize(p, bytes)` returns a
non-NULL pointer `q`, then `q ≠ p`, the first `min(s, bytes)` bytes at `q`
equal the bytes that were at `p` before the call (`s` being the size field of
the block of `p`), and the block of `p` is on the free list and no longer on
the used list of the thread. -/
theorem resize_moves_block_nonwrapping {pagesize : Nat} (hps : PageOK pagesize)
    (hnum : 0 < pagesize / sizeofThreadTable) {tid : Int} {s s1 : State}
    {p bytes fuel q : Nat} {t b : Option Nat}
    (hs : Trace pagesize tid (Call.small pagesize) s) (hv : ValidPtr pagesize tid s p)
    (hr : realloc pagesize tid t b fuel p bytes s = Except.ok (q, s1)) (hq : q ≠ 0) :
    q ≠ p ∧
      (∀ i, i < min (load64raw s.heap.mem (hdr p + 8)) bytes →
        s1.heap.mem (q + i) = s.heap.mem (p + i)) ∧
      OnList s1.heap.mem (slotOf pagesize tid s1).free (hdr p) ∧
      ¬ OnList s1.heap.mem (slotOf pagesize tid s1).used (hdr p) := by
  obtain ⟨lf, lu, hI⟩ := Trace_inv hps hnum hs
  obtain ⟨hin, hp⟩ := ValidPtr_mem hnum hI hv
  by_cases hsm : bytes + sizeofHeader + pagesize < W
  · obtain ⟨lf1, lu1, hI1, hc⟩ := realloc_spec hps hnum hI hsm hin hp hr
    rcases hc with h0 | ⟨c1, c2, c3, c4⟩
    · exact absurd h0 hq
    obtain ⟨_, _, hid⟩ := hI1.live (by
      intro e
      rw [(List.append_eq_nil.mp e).1] at c2
      exact absurd c2 (List.not_mem_nil _))
    have hslot : slotOf pagesize tid s1 = s1.slots.getD 0 default := by
      unfold slotOf
      rw [free_scan_zero hnum hid]
    rw [hslot]
    refine ⟨c1, fun i hi => c4 i (by omega) (by omega), (IsList_onList hI1.dir.isf _).mpr c2, ?_⟩
    exact fun hon => c3 ((IsList_onList hI1.dir.isu _).mp hon)
  · exfalso
    have hbnd := hI.dir.heap.bound (List.mem_append_right lf hin)
    have htop : RegsTop s.heap.mapped := fun r hr => (hI.dir.heap.regs r hr).2
    unfold realloc at hr
    obtain ⟨r1, h1, h2⟩ := bind_ok hr
    obtain ⟨top1, _⟩ := malloc_top htop h1
    split at h2
    · injection h2 with h2
      injection h2 with h3 h4
      exact hq h3.symm
    · obtain ⟨hp1, h3, h4⟩ := bind_ok h2
      unfold memcpy at h3
      split at h3
      · rename_i hacc
        unfold sizeofHeader at hsm
        exact not_accessible_top top1 (by omega) (by omega) hacc.2
      · cases h3

theorem ok_getOk {α : Type} (d : α) (x : M α) (h : okB x = true) : x = Except.ok (getOk d x) := by
  cases x with
  | ok r => rfl
  | error e => cases h

theorem realloc_steps {pagesize : Nat} {tid : Int} {t b : Option Nat} {fuel p bytes q : Nat}
    {s sa sc : State} {hb : Heap} (hq : q ≠ 0)
    (h1 : malloc pagesize tid t b fuel bytes s = Except.ok (q, sa))
    (h2 : memcpy sa.heap q p bytes = Except.ok hb)
    (h3 : free pagesize tid fuel p ⟨hb, sa.thread_tbl, sa.slots⟩ = Except.ok sc) :
    realloc pagesize tid t b fuel p bytes s = Except.ok (q, sc) := by
  unfold realloc
  rw [h1, ok_bind]
  simp only
  rw [if_neg hq, h2, ok_bind, h3, ok_bind]
  rfl

/-- After `alloc(8)` returned `0x10010`, `resize(0x10010, 16)` returns
`0x20010` when the kernel maps a new region at `0x20000`. -/
theorem resize_moves_block_example :
    (0x20010 : Nat) ≠ 0x10010 ∧
      (∀ i, i < min (load64raw state_C10.heap.mem (hdr 0x10010 + 8)) 16 →
        state_C10_resized.heap.mem (0x20010 + i) = state_C10.heap.mem (0x10010 + i)) ∧
      OnList state_C10_resized.heap.mem (slotOf 4096 7 state_C10_resized).free (hdr 0x10010) ∧
      ¬ OnList state_C10_resized.heap.mem (slotOf 4096 7 state_C10_resized).used (hdr 0x10010) :=
  @resize_moves_block_nonwrapping 4096 ⟨12, by decide, by decide, by decide⟩ (by decide) 7 state_C10
    state_C10_resized 0x10010 16 10 0x20010 none (some 0x20000)
    (after_trace (smallB_sound 4096) _ (by decide))
    ⟨by decide, by decide, by decide, onListB_sound _ 5 _ _ (by decide)⟩
    (realloc_steps (by decide)
      (show malloc 4096 7 none (some 0x20000) 10 16 state_C10 = Except.ok (0x20010, state_C10_malloc)
        from (ok_getOk (0, init) _ (by decide)).trans (by
          show Except.ok (getOk (0, init) (malloc 4096 7 none (some 0x20000) 10 16 state_C10)) =
            Except.ok ((0x20010 : Nat), (getOk (0, init) (malloc 4096 7 none (some 0x20000) 10 16 state_C10)).2)
          have e : (getOk (0, init) (malloc 4096 7 none (some 0x20000) 10 16 state_C10)).1 = 0x20010 := by
            decide
          rw [← e]))
      (ok_getOk init.heap _ (by decide))
      (ok_getOk init _ (by decide)))
    (by decide)

/-- When the thread owns a slot, the table is mapped, the used list of the
thread is a NULL-terminated chain `lu` of mapped blocks and the block `hdr p`
of a non-NULL pointer `p` is not in `lu`, the unlink in `free` fails without
changing anything and its result is ignored, so the call is the rest of the
function: write NULL to the `next` field of the block `hdr p`, append that
block to the free list of the thread, and store the new free head; the used
head is written back unchanged. -/
theorem free_unknown_eq {pagesize : Nat} {tid : Int} {fuel p : Nat} {s : State}
    {lu : List Nat} (hslot : HasSlot pagesize tid s)
    (hacc : accessible s.heap s.thread_tbl sizeofThreadTable) (hp0 : p ≠ 0)
    (hu : IsList s.heap.mem (slotOf pagesize tid s).used lu)
    (haccu : ∀ b ∈ lu, accessible s.heap b 8) (hnot : hdr p ∉ lu) (hfuel : lu.length ≤ fuel) :
    free pagesize tid fuel p s =
      (store64 s.heap (hdr p) 0 >>= fun hp1 =>
        add_block fuel (hdr p) (slotOf pagesize tid s).free hp1 >>= fun a =>
          pure ⟨a.2, s.thread_tbl,
            s.slots.set (free_scan tid s.slots (pagesize / sizeofThreadTable) 0)
              ⟨(slotOf pagesize tid s).id, (slotOf pagesize tid s).used, a.1⟩⟩) := by
  unfold free
  simp only
  rw [if_neg hp0, if_neg (fun hc => hc.2 hacc), if_neg hslot]
  have hrm : remove_block fuel (hdr p) (slotOf pagesize tid s).used s.heap =
      Except.ok (1, (slotOf pagesize tid s).used, s.heap) := by
    rw [remove_block_absent fuel hu hnot haccu]
    exact if_pos (Or.inr (Or.inr hfuel))
  unfold slotOf at hrm ⊢
  rw [hrm, ok_bind]

/-! ## Runs of `alloc` calls -/

theorem Trace_imp {pagesize : Nat} {tid : Int} {P Q : Call → Prop} (hPQ : ∀ c, P c → Q c)
    {s : State} (h : Trace pagesize tid P s) : Trace pagesize tid Q s := by
  induction h with
  | init => exact Trace.init
  | step _ hP hwf hrun ih => exact Trace.step ih (hPQ _ hP) hwf hrun

theorem Inv_slot {pagesize : Nat} (hnum : 0 < pagesize / sizeofThreadTable) {tid : Int}
    {s : State} {lf lu : List Nat} (hI : Inv pagesize tid s lf lu) :
    IsList s.heap.mem (slotOf pagesize tid s).free lf ∧
      IsList s.heap.mem (slotOf pagesize tid s).used lu := by
  rcases hI.own with ⟨h1, _⟩ | ⟨h1, _, h3⟩
  · obtain ⟨e1, e2⟩ := Inv_dead_lists hI h1
    unfold slotOf
    rw [h1, e1, e2]
    exact ⟨rfl, rfl⟩
  · unfold slotOf
    rw [free_scan_zero hnum h3]
    exact ⟨hI.dir.isf, hI.dir.isu⟩

/-- A run of `alloc` calls keeps every used block on the used list, with its size. -/
theorem Allocs_used {pagesize : Nat} (hps : PageOK pagesize)
    (hnum : 0 < pagesize / sizeofThreadTable) {tid : Int} {s s1 : State}
    (h : Allocs pagesize tid s s1) {lf lu : List Nat} (hI : Inv pagesize tid s lf lu) :
    ∃ lf1 lu1, Inv pagesize tid s1 lf1 lu1 ∧
      ∀ b ∈ lu, b ∈ lu1 ∧ load64raw s1.heap.mem (b + 8) = load64raw s.heap.mem (b + 8) := by
  induction h with
  | refl => exact ⟨lf, lu, hI, fun b hb => ⟨hb, rfl⟩⟩
  | step _ hsm hrun ih =>
    obtain ⟨lf1, lu1, hI1, hk⟩ := ih
    obtain ⟨lf2, lu2, hI2, _, hF, hc⟩ := malloc_spec hps hnum hI1 hsm hrun
    refine ⟨lf2, lu2, hI2, fun b hb => ?_⟩
    obtain ⟨hb1, hs1⟩ := hk b hb
    constructor
    · rcases hc with ⟨_, e⟩ | ⟨h, _, _, _, e, _⟩
      · rw [e]; exact hb1
      · rw [e]; exact List.mem_append_left _ hb1
    · rw [← hs1]
      exact load64raw_congr _ _ _ (fun x h1 h2 => hF b hb1 x (by omega) (by omega))

theorem ok_getOk_pair {α : Type} (d : Nat × α) (x : M (Nat × α)) (q : Nat) (h : okB x = true)
    (hq : (getOk d x).1 = q) : x = Except.ok (q, (getOk d x).2) := by
  cases x with
  | ok r =>
    have e : r.1 = q := hq
    rw [← e]
    rfl
  | error e => cases h

/-- C6 (amended): blocks never overlap.  In every state a single thread reaches
through alloc and release calls with non-wrapping request sizes (release only
on valid pointers; the kernel hands out pairwise disjoint regions; pages a
power of two large enough to hold one table row), any two distinct blocks on
the free or the used list of the thread occupy disjoint ranges
`[header, header + sizeof(Header) + size)`.  Moreover, when `alloc(n1)`
returns a non-NULL `p1` and, after any run of further alloc calls and no
release, `alloc(n2)` returns a non-NULL `p2`, then `p1 ≠ p2`, the higher of
the two pointers is at least `sizeof(Header)` plus the request that returned
the lower one above the lower one, and the two payloads share no byte. -/
theorem C6_blocks_disjoint {pagesize : Nat} (hps : PageOK pagesize)
    (hnum : 0 < pagesize / sizeofThreadTable) {tid : Int} {s : State}
    (hs : Trace pagesize tid (Call.plain pagesize) s) :
    (∀ a b, a ≠ b →
      (OnList s.heap.mem (slotOf pagesize tid s).free a ∨
        OnList s.heap.mem (slotOf pagesize tid s).used a) →
      (OnList s.heap.mem (slotOf pagesize tid s).free b ∨
        OnList s.heap.mem (slotOf pagesize tid s).used b) →
      Disj s.heap.mem a b) ∧
    (∀ (s1 s2 s3 : State) (n1 n2 p1 p2 fuel1 fuel2 : Nat) (t1 b1 t2 b2 : Option Nat),
      n1 + sizeofHeader + pagesize < W → n2 + sizeofHeader + pagesize < W →
      malloc pagesize tid t1 b1 fuel1 n1 s = Except.ok (p1, s1) → p1 ≠ 0 →
      Allocs pagesize tid s1 s2 →
      malloc pagesize tid t2 b2 fuel2 n2 s2 = Except.ok (p2, s3) → p2 ≠ 0 →
      p1 ≠ p2 ∧ (p1 < p2 → p1 + sizeofHeader + n1 ≤ p2) ∧
        (p2 < p1 → p2 + sizeofHeader + n2 ≤ p1) ∧
        ∀ x, ¬ (p1 ≤ x ∧ x < p1 + n1 ∧ p2 ≤ x ∧ x < p2 + n2)) := by
  obtain ⟨lf, lu, hI⟩ := Trace_inv hps hnum (Trace_imp (fun c hc => hc.2) hs)
  constructor
  · intro a b hab ha hb
    obtain ⟨hf, hu⟩ := Inv_slot hnum hI
    have ha1 : a ∈ lf ++ lu := by
      rcases ha with ha | ha
      · exact List.mem_append_left _ ((IsList_onList hf a).mp ha)
      · exact List.mem_append_right _ ((IsList_onList hu a).mp ha)
    have hb1 : b ∈ lf ++ lu := by
      rcases hb with hb | hb
      · exact List.mem_append_left _ ((IsList_onList hf b).mp hb)
      · exact List.mem_append_right _ ((IsList_onList hu b).mp hb)
    exact hI.dir.heap.disj a ha1 b hb1 hab
  · intro s1 s2 s3 n1 n2 p1 p2 fuel1 fuel2 t1 b1 t2 b2 hn1 hn2 hm1 hp1 hal hm2 hp2
    obtain ⟨lf1, lu1, hI1, _, _, hc1⟩ := malloc_spec hps hnum hI hn1 hm1
    rcases hc1 with ⟨h0, _⟩ | ⟨h1, hr1, hW1, _, hlu1, hsz1, _⟩
    · exact absurd h0 hp1
    have hI1b : Inv pagesize tid s1 lf1 lu1 := hI1
    obtain ⟨lf2, lu2, hI2, hk⟩ := Allocs_used hps hnum hal hI1b
    have hin1 : h1 ∈ lu1 := by
      rw [hlu1]; exact List.mem_append_right _ (List.mem_singleton.mpr rfl)
    obtain ⟨hin2, hs2⟩ := hk h1 hin1
    obtain ⟨lf3, lu3, hI3, _, hF3, hc3⟩ := malloc_spec hps hnum hI2 hn2 hm2
    rcases hc3 with ⟨h0, _⟩ | ⟨h2, hr2, hW2, hnin, hlu3, hsz2, _⟩
    · exact absurd h0 hp2
    have hI3b : Inv pagesize tid s3 lf3 lu3 := hI3
    have hne : h1 ≠ h2 := fun e => hnin (e ▸ hin2)
    have hs3 : load64raw s3.heap.mem (h1 + 8) = load64raw s2.heap.mem (h1 + 8) :=
      load64raw_congr _ _ _ (fun x e1 e2 => hF3 h1 hin2 x (by omega) (by omega))
    have m1 : h1 ∈ lf3 ++ lu3 := by
      rw [hlu3]; exact List.mem_append_right _ (List.mem_append_left _ hin2)
    have m2 : h2 ∈ lf3 ++ lu3 := by
      rw [hlu3]
      exact List.mem_append_right _ (List.mem_append_right _ (List.mem_singleton.mpr rfl))
    have hd := hI3b.dir.heap.disj h1 m1 h2 m2 hne
    unfold Disj at hd
    have e1 : p1 = h1 + 16 := hr1
    have e2 : p2 = h2 + 16 := hr2
    have z1 : n1 ≤ load64raw s1.heap.mem (h1 + 8) := hsz1
    have z2 : n2 ≤ load64raw s3.heap.mem (h2 + 8) := hsz2
    rw [hs3, hs2] at hd
    unfold sizeofHeader
    refine ⟨by omega, by omega, by omega, fun x => by omega⟩

/-- Witness for C6: in `state_C6` the free blocks `0x20000` and `0x20020` are
disjoint, and the pointers `0x20030` and `0x20010` returned by `alloc(100)` and
the following `alloc(16)` are `sizeof(Header) + 16` apart. -/
theorem C6_witness :
    Disj state_C6.heap.mem 0x20000 0x20020 ∧
      ((0x20030 : Nat) ≠ 0x20010 ∧ (0x20030 < 0x20010 → 0x20030 + sizeofHeader + 100 ≤ 0x20010) ∧
        (0x20010 < 0x20030 → 0x20010 + sizeofHeader + 16 ≤ 0x20030) ∧
        ∀ x, ¬ (0x20030 ≤ x ∧ x < 0x20030 + 100 ∧ 0x20010 ≤ x ∧ x < 0x20010 + 16)) :=
  ⟨(@C6_blocks_disjoint 4096 ⟨12, by decide, by decide, by decide⟩ (by decide) 7 state_C6
      (after_trace (plainB_sound 4096) _ (by decide))).1 0x20000 0x20020 (by decide)
      (Or.inl (onListB_sound _ 5 _ _ (by decide))) (Or.inl (onListB_sound _ 5 _ _ (by decide))),
    (@C6_blocks_disjoint 4096 ⟨12, by decide, by decide, by decide⟩ (by decide) 7 state_C6
      (after_trace (plainB_sound 4096) _ (by decide))).2 state_C6_first state_C6_first
      (getOk (0, init) (malloc 4096 7 none none 10 16 state_C6_first)).2
      100 16 0x20030 0x20010 10 10 none none none none (by decide) (by decide)
      (ok_getOk_pair (0, init) _ _ (by decide) (by decide)) (by decide)
      (Allocs.refl _)
      (ok_getOk_pair (0, init) _ _ (by decide) (by decide)) (by decide)⟩

/-! ## The internal operations: registry scan, unlink, append, first fit, split, page acquisition -/

theorem malloc_scan_full (tid : Int) (slots : List ThreadTable) : ∀ (k i : Nat),
    (∀ j, i ≤ j → j < i + k →
      (slots.getD j default).id ≠ tid ∧ (slots.getD j default).id ≠ -1) →
    malloc_scan tid slots k i = (i + k, slots) := by
  intro k
  induction k with
  | zero => intro i _; rfl
  | succ n ih =>
    intro i h
    unfold malloc_scan
    obtain ⟨h1, h2⟩ := h i (Nat.le_refl _) (by omega)
    rw [if_neg h1, if_neg h2, ih (i + 1) (fun j hj1 hj2 => h j (by omega) (by omega))]
    congr 1
    omega

/-- C12: registry full.  With `N = pagesize / sizeof(ThreadTable)`, in every state
whose thread table exists and is mapped and whose `N` rows all hold an id
different from the caller's and from the sentinel `-1`, `alloc` by the caller
returns NULL and leaves the whole state (rows, list heads, memory, mapped
regions) unchanged, whatever the kernel would answer to an `mmap` request. -/
theorem C12_registry_full {pagesize : Nat} {tid : Int} {s : State}
    (tblHint blkHint : Option Nat) (fuel bytes : Nat)
    (htbl : s.thread_tbl ≠ 0) (hacc : accessible s.heap s.thread_tbl sizeofThreadTable)
    (hfull : ∀ j, j < pagesize / sizeofThreadTable →
      (s.slots.getD j default).id ≠ tid ∧ (s.slots.getD j default).id ≠ -1) :
    malloc pagesize tid tblHint blkHint fuel bytes s = Except.ok (0, s) := by
  unfold malloc
  rcases malloc_init_cases pagesize tid tblHint s with ⟨_, hc⟩ | ⟨h0, _⟩ | ⟨h0, _⟩
  · rw [hc]
    unfold malloc_main
    simp only
    rw [if_neg (fun hc => hc.2 hacc),
      malloc_scan_full tid s.slots _ 0 (fun j _ hj => hfull j (by omega))]
    simp only [Nat.zero_add]
    rw [if_pos trivial]
    rfl
  · exact absurd h0 htbl
  · exact absurd h0 htbl

/-- Witness for C12: with one table row owned by thread 7, `alloc(1)` by thread 8
returns NULL and changes nothing. -/
theorem C12_witness : malloc 32 8 none (some 0x20000) 10 1 state_C12 = Except.ok (0, state_C12) :=
  C12_registry_full none (some 0x20000) 10 1 (by decide) (by decide) (by decide)

/-- C17: unlink (`remove_block`).  For every NULL-terminated list `l` of mapped
nodes whose `next` cells do not overlap, and every `block` (fuel for one walk
of the list): if `block` is in the list, the call returns 0 and the resulting
list is the original sequence with exactly that block removed, the other
blocks in their original order; if the list is empty, `block` is NULL or
`block` is not in the list, the call returns 1 and leaves the head and the
whole heap unchanged. -/
theorem C17_unlink {hp : Heap} {l : List Nat} {list block fuel : Nat}
    (hl : IsList hp.mem list l) (hacc : ∀ b ∈ l, accessible hp b 8)
    (hsep : ∀ a ∈ l, ∀ b ∈ l, a ≠ b → a + 8 ≤ b ∨ b + 8 ≤ a) (hf : l.length ≤ fuel) :
    (block ∈ l → ∃ r A B, remove_block fuel block list hp = Except.ok r ∧ r.1 = 0 ∧
      l = A ++ block :: B ∧ block ∉ A ++ B ∧ IsList r.2.2.mem r.2.1 (A ++ B) ∧
      r.2.2.mapped = hp.mapped) ∧
    (l = [] ∨ block = 0 ∨ block ∉ l →
      remove_block fuel block list hp = Except.ok (1, list, hp)) := by
  constructor
  · intro hin
    obtain ⟨A, B, rfl⟩ := List.append_of_mem hin
    have hnd := IsList_nodup _ _ hl
    obtain ⟨hA, hB⟩ := nodup_mid1 hnd
    have hAB : block ∉ A ++ B := fun h => (List.mem_append.mp h).elim hA hB
    rcases list_nil_or_snoc A with rfl | ⟨A1, p, rfl⟩
    · refine ⟨_, [], B, remove_block_head fuel hl (hacc block (by simp)), rfl, rfl, hAB, ?_, rfl⟩
      exact IsList_next hl
    · have hl2 : IsList hp.mem list (A1 ++ p :: block :: B) := by simpa using hl
      have hnd2 : (A1 ++ p :: block :: B).Nodup := by simpa using hnd
      obtain ⟨n1, n2, n3, n4, n5⟩ := nodup_mid2 hnd2
      have hlen : A1.length + 1 ≤ fuel := by simp at hf; omega
      have heq := remove_block_inner fuel hl2 n1 n2 (fun b hb => hacc b (by
        simp at hb ⊢; tauto))
      rw [if_pos hlen] at heq
      refine ⟨_, A1 ++ [p], B, heq, rfl, rfl, hAB, ?_, rfl⟩
      have hpm : p ∈ A1 ++ [p] ++ block :: B := by simp
      have := IsList_splice_store (fun a ha => hsep a (by simp; tauto) p hpm (n4 a ha))
        A1 list hl2 (fun a ha => hsep a (by simp; tauto) p hpm (n3 a ha))
      simpa using this
  · intro h
    by_cases hb0 : block = 0
    · unfold remove_block
      rw [if_pos (Or.inr hb0)]
      rfl
    · have hnot : block ∉ l := by
        rcases h with h | h | h
        · rw [h]; exact List.not_mem_nil _
        · exact absurd h hb0
        · exact h
      rw [remove_block_absent fuel hl hnot hacc]
      exact if_pos (Or.inr (Or.inr hf))

/-- Witness for C17: unlinking the middle block `0x20000` of the free list
`[0x10000, 0x20000, 0x30000]` of `state_C8`. -/
theorem C17_witness :
    ∃ r A B, remove_block 10 0x20000 (slotOf 4096 7 state_C8).free state_C8.heap = Except.ok r ∧
      r.1 = 0 ∧ [0x10000, 0x20000, 0x30000] = A ++ 0x20000 :: B ∧ 0x20000 ∉ A ++ B ∧
      IsList r.2.2.mem r.2.1 (A ++ B) ∧ r.2.2.mapped = state_C8.heap.mapped :=
  (@C17_unlink state_C8.heap [0x10000, 0x20000, 0x30000] (slotOf 4096 7 state_C8).free
    0x20000 10 (by decide) (by decide) (by decide) (by decide)).1 (by decide)

/-- C18 (counterexample): in `state_C8` the used list is empty and the block
`0x10000`, which is not in it, has `next = 0x20000`.  `add_block` makes the
block the head but does not clear its `next` field: afterwards the field still
holds `0x20000`, and the list from the new head is not the one-block list. -/
theorem C18_append_keeps_next :
    IsList state_C8.heap.mem (slotOf 4096 7 state_C8).used [] ∧
      load64raw state_C8.heap.mem 0x10000 = 0x20000 ∧
      ∃ r, add_block 10 0x10000 (slotOf 4096 7 state_C8).used state_C8.heap = Except.ok r ∧
        r.1 = 0x10000 ∧ load64raw r.2.mem 0x10000 = 0x20000 ∧
        ¬ IsList r.2.mem r.1 ([] ++ [0x10000]) := by
  refine ⟨by decide, by decide, _, rfl, by decide, by decide, by decide⟩

/-- C18 (amended): append (`add_block`).  For every NULL-terminated list `l` of
mapped nodes and every non-NULL `block` whose `next` cell overlaps no `next`
cell of the list (so `block` is not in the list), with fuel for one walk of
the list, `add_block` returns; it never writes the `next` field of `block`,
which keeps the value it had; the block becomes the head when the list was
empty, and otherwise the head is unchanged and `block` is stored in the `next`
field of the last node.  When the `next` field of `block` was NULL before the
call (every caller in the source clears it first), the resulting list is the
original sequence followed by `block` as its last node. -/
theorem C18_append {hp : Heap} {l : List Nat} {list block fuel : Nat}
    (hl : IsList hp.mem list l) (hacc : ∀ b ∈ l, accessible hp b 8)
    (hb0 : block ≠ 0) (hbW : block < W)
    (hsep : ∀ a ∈ l, a + 8 ≤ block ∨ block + 8 ≤ a)
    (hsepl : ∀ a ∈ l, ∀ b ∈ l, a ≠ b → a + 8 ≤ b ∨ b + 8 ≤ a) (hf : l.length ≤ fuel) :
    ∃ r, add_block fuel block list hp = Except.ok r ∧
      load64raw r.2.mem block = load64raw hp.mem block ∧
      (l = [] → r.1 = block ∧ r.2 = hp) ∧
      (∀ L t, l = L ++ [t] → r.1 = list ∧ r.2 = ⟨store64raw hp.mem t block, hp.mapped⟩) ∧
      (load64raw hp.mem block = 0 → IsList r.2.mem r.1 (l ++ [block])) := by
  rcases list_nil_or_snoc l with rfl | ⟨L, t, rfl⟩
  · have h0 : list = 0 := hl
    subst h0
    refine ⟨_, add_block_nil fuel block hp, rfl, fun _ => ⟨rfl, rfl⟩, ?_, ?_⟩
    · intro L t e
      exact absurd e (by simp)
    · intro hn
      exact ⟨rfl, hb0, hn⟩
  · have heq := add_block_eq fuel block hl hacc
    rw [if_pos hf] at heq
    have htm : t ∈ L ++ [t] := List.mem_append_right _ (List.mem_singleton.mpr rfl)
    have htb := hsep t htm
    refine ⟨_, heq, ?_, ?_, ?_, ?_⟩
    · exact load64raw_store64raw_disj _ _ _ _ (by omega)
    · intro e
      exact absurd e (by simp)
    · intro L1 t1 e
      obtain ⟨e1, e2⟩ := List.append_inj' e rfl
      have e3 : t = t1 := by simpa using e2
      subst e3
      exact ⟨rfl, rfl⟩
    · intro hn
      have hnd := IsList_nodup _ _ hl
      have := IsList_snoc_store hb0 hbW hn htb L list hl (fun a ha => by
        have hne : a ≠ t := by
          intro e
          rw [e] at ha
          have := List.nodup_append.mp hnd
          exact this.2.2 ha (List.mem_singleton.mpr rfl)
        exact hsepl a (List.mem_append_left _ ha) t htm hne)
      simpa using this

/-- Witness for C18: appending the block `0x10018` (left behind with `next = NULL`
by the first split) to the used list `[0x10000]` of `state_C10`. -/
theorem C18_witness :
    ∃ r, add_block 10 0x10018 (slotOf 4096 7 state_C10).used state_C10.heap = Except.ok r ∧
      load64raw r.2.mem 0x10018 = load64raw state_C10.heap.mem 0x10018 ∧
      (([0x10000] : List Nat) = [] → r.1 = 0x10018 ∧ r.2 = state_C10.heap) ∧
      (∀ L t, ([0x10000] : List Nat) = L ++ [t] → r.1 = (slotOf 4096 7 state_C10).used ∧
        r.2 = ⟨store64raw state_C10.heap.mem t 0x10018, state_C10.heap.mapped⟩) ∧
      (load64raw state_C10.heap.mem 0x10018 = 0 → IsList r.2.mem r.1 ([0x10000] ++ [0x10018])) :=
  @C18_append state_C10.heap [0x10000] (slotOf 4096 7 state_C10).used 0x10018 10
    (by decide) (by decide) (by decide) (by decide) (by decide) (by decide) (by decide)

theorem numbytes_least {pagesize : Nat} (hps : PageOK pagesize) {bytes : Nat}
    (hsm : bytes + sizeofHeader + pagesize - 1 < W) :
    numbytes pagesize bytes % pagesize = 0 ∧ bytes + sizeofHeader ≤ numbytes pagesize bytes ∧
      numbytes pagesize bytes < bytes + sizeofHeader + pagesize := by
  obtain ⟨p8, p9, _⟩ := PageOK_facts hps
  refine ⟨(numbytes_mod hps bytes).1, ?_, ?_⟩
  · rw [numbytes_eq hps, Nat.mod_eq_of_lt hsm]
    have := Nat.mod_lt (bytes + sizeofHeader + pagesize - 1) (show 0 < pagesize by omega)
    omega
  · rw [numbytes_eq hps, Nat.mod_eq_of_lt hsm]
    omega

/-- C16: page acquisition.  When no block of the free list fits (fuel for one
walk of the list), for a power-of-two page size and
`bytes + sizeof(Header) + pagesize - 1 < 2 ^ 64`: the length asked of `mmap`
is the least multiple of the page size that is at least
`bytes + sizeof(Header)`; when `mmap` fails, `find_block` returns NULL and the
heap is unchanged; when `mmap` returns the region `a`, the block installed
there has `next = NULL` and `size = length - sizeof(Header) >= bytes`, memory
outside the new region is unchanged, and `find_block` continues with
`add_block` of that block to the free list and `split`. -/
theorem C16_page_acquisition {pagesize : Nat} (hps : PageOK pagesize) {hp : Heap}
    {lf : List Nat} {free bytes fuel : Nat} (hint : Option Nat)
    (hsm : bytes + sizeofHeader + pagesize - 1 < W) (hl : IsList hp.mem free lf)
    (hacc : ∀ b ∈ lf, accessible hp b 16)
    (hno : ∀ b ∈ lf, load64raw hp.mem (b + 8) < bytes) (hf : lf.length + 1 ≤ fuel) :
    (numbytes pagesize bytes % pagesize = 0 ∧ bytes + sizeofHeader ≤ numbytes pagesize bytes ∧
      numbytes pagesize bytes < bytes + sizeofHeader + pagesize) ∧
    ((mmap pagesize hp (numbytes pagesize bytes) hint).1 = MAP_FAILED →
      find_block pagesize hint fuel bytes free hp = Except.ok (0, hp)) ∧
    ((mmap pagesize hp (numbytes pagesize bytes) hint).1 ≠ MAP_FAILED →
      ∃ hpI : Heap,
        hpI.mapped = ((mmap pagesize hp (numbytes pagesize bytes) hint).1,
          numbytes pagesize bytes) :: hp.mapped ∧
        load64raw hpI.mem (mmap pagesize hp (numbytes pagesize bytes) hint).1 = 0 ∧
        load64raw hpI.mem ((mmap pagesize hp (numbytes pagesize bytes) hint).1 + 8) =
          numbytes pagesize bytes - sizeofHeader ∧
        bytes ≤ numbytes pagesize bytes - sizeofHeader ∧
        (∀ x, x < (mmap pagesize hp (numbytes pagesize bytes) hint).1 ∨
            (mmap pagesize hp (numbytes pagesize bytes) hint).1 + numbytes pagesize bytes ≤ x →
          hpI.mem x = hp.mem x) ∧
        find_block pagesize hint fuel bytes free hp =
          (add_block fuel (mmap pagesize hp (numbytes pagesize bytes) hint).1 free hpI >>=
            fun x => split fuel (mmap pagesize hp (numbytes pagesize bytes) hint).1 bytes
              x.1 x.2)) := by
  obtain ⟨n1, n2, n3⟩ := numbytes_least hps hsm
  have hscan : find_block_scan hp bytes fuel free = Except.ok none := by
    rw [find_block_scan_none lf free fuel hl hno hacc]
    exact if_pos hf
  refine ⟨⟨n1, n2, n3⟩, ?_, ?_⟩
  · intro hfail
    unfold find_block
    rw [hscan, ok_bind]
    simp only
    rw [if_pos hfail]
    rcases mmap_cases pagesize hp (numbytes pagesize bytes) hint with hc | ⟨a, _, _, _, _, c5, _, hc⟩
    · rw [hc]; rfl
    · rw [hc] at hfail
      exact absurd hfail c5
  · intro hok
    rcases mmap_cases pagesize hp (numbytes pagesize bytes) hint with hc | ⟨a, c1, c2, c3, c4, c5, c6, hc⟩
    · rw [hc] at hok
      exact absurd rfl hok
    · unfold find_block
      rw [hscan, ok_bind]
      simp only
      rw [if_neg hok, hc]
      simp only
      generalize hlen : numbytes pagesize bytes = len at *
      unfold sizeofHeader at n2 n3 ⊢
      have hW : W = 2 ^ 64 := rfl
      have hreg : ((a, len) : Nat × Nat) ∈
          (⟨fun x => if a ≤ x ∧ x < a + len then 0 else hp.mem x, (a, len) :: hp.mapped⟩ : Heap).mapped :=
        List.mem_cons_self _ _
      have acc1 := accessible_of_reg hreg (show a ≤ a from Nat.le_refl _)
        (show a + 8 ≤ a + len by omega) (by omega)
      have acc2 : accessible (⟨store64raw (fun x => if a ≤ x ∧ x < a + len then 0 else hp.mem x) a 0,
          (a, len) :: hp.mapped⟩ : Heap) (a + 8) 8 :=
        accessible_of_reg hreg (show a ≤ a + 8 by omega) (show a + 8 + 8 ≤ a + len by omega)
          (by omega)
      rw [store64_eq 0 acc1, ok_bind, store64_eq _ acc2, ok_bind]
      have e16 : (len + W - 16) % W = len - 16 := by
        rw [show len + W - 16 = (len - 16) + W by omega, Nat.add_mod_right]
        exact Nat.mod_eq_of_lt (by omega)
      rw [e16]
      refine ⟨_, rfl, ?_, ?_, by omega, ?_, rfl⟩
      · rw [load64raw_store64raw_disj _ _ _ _ (by omega),
          load64raw_store64raw_same _ _ _ (by omega)]
      · rw [load64raw_store64raw_same _ _ _ (by omega)]
      · intro x hx
        show store64raw (store64raw (fun x => if a ≤ x ∧ x < a + len then 0 else hp.mem x) a 0)
          (a + 8) (len - 16) x = hp.mem x
        rw [store64raw_other _ _ _ _ (by omega), store64raw_other _ _ _ _ (by omega)]
        show (if a ≤ x ∧ x < a + len then 0 else hp.mem x) = hp.mem x
        rw [if_neg (by omega)]

/-- Witness for C16: the first request of 8 bytes in a fresh process, with the
kernel answering `0x10000`. -/
theorem C16_witness :
    (numbytes 4096 8 % 4096 = 0 ∧ 8 + sizeofHeader ≤ numbytes 4096 8 ∧
      numbytes 4096 8 < 8 + sizeofHeader + 4096) ∧
    ((mmap 4096 init.heap (numbytes 4096 8) (some 0x10000)).1 = MAP_FAILED →
      find_block 4096 (some 0x10000) 10 8 0 init.heap = Except.ok (0, init.heap)) ∧
    ((mmap 4096 init.heap (numbytes 4096 8) (some 0x10000)).1 ≠ MAP_FAILED →
      ∃ hpI : Heap,
        hpI.mapped = ((mmap 4096 init.heap (numbytes 4096 8) (some 0x10000)).1,
          numbytes 4096 8) :: init.heap.mapped ∧
        load64raw hpI.mem (mmap 4096 init.heap (numbytes 4096 8) (some 0x10000)).1 = 0 ∧
        load64raw hpI.mem ((mmap 4096 init.heap (numbytes 4096 8) (some 0x10000)).1 + 8) =
          numbytes 4096 8 - sizeofHeader ∧
        8 ≤ numbytes 4096 8 - sizeofHeader ∧
        (∀ x, x < (mmap 4096 init.heap (numbytes 4096 8) (some 0x10000)).1 ∨
            (mmap 4096 init.heap (numbytes 4096 8) (some 0x10000)).1 + numbytes 4096 8 ≤ x →
          hpI.mem x = init.heap.mem x) ∧
        find_block 4096 (some 0x10000) 10 8 0 init.heap =
          (add_block 10 (mmap 4096 init.heap (numbytes 4096 8) (some 0x10000)).1 0 hpI >>=
            fun x => split 10 (mmap 4096 init.heap (numbytes 4096 8) (some 0x10000)).1 8
              x.1 x.2)) :=
  @C16_page_acquisition 4096 ⟨12, by decide, by decide, by decide⟩ init.heap [] 0 8 10
    (some 0x10000) (by decide) rfl (fun b hb => absurd hb (List.not_mem_nil b))
    (fun b hb => absurd hb (List.not_mem_nil b)) (by decide)

/-- The subtractions of `split` do not wrap for an aligned block with an aligned size. -/
theorem split_nowrap {block size bytes : Nat} (hb : block % 8 = 0) (hs : size % 8 = 0)
    (hfit : bytes ≤ size) (hW : block + sizeofHeader + size < W) :
    split_block2 block bytes % 8 = 0 ∧
    block + sizeofHeader + bytes ≤ split_block2 block bytes ∧
    split_block2 block bytes ≤ block + sizeofHeader + size ∧
    ((block + sizeofHeader + size) % W + W - split_block2 block bytes) % W =
      block + sizeofHeader + size - split_block2 block bytes ∧
    (sizeofHeader < block + sizeofHeader + size - split_block2 block bytes →
      8 ≤ block + sizeofHeader + size - split_block2 block bytes - sizeofHeader) := by
  have hWd : W = 2 ^ 64 := rfl
  unfold sizeofHeader at *
  have e2 : split_block2 block bytes = block + 16 + (bytes + 7) / 8 * 8 :=
    split_block2_eq hb (by omega)
  rw [e2, Nat.mod_eq_of_lt hW]
  refine ⟨by omega, by omega, by omega, ?_, by omega⟩
  rw [show block + 16 + size + W - (block + 16 + (bytes + 7) / 8 * 8) =
    (block + 16 + size - (block + 16 + (bytes + 7) / 8 * 8)) + W by omega, Nat.add_mod_right]
  exact Nat.mod_eq_of_lt (by omega)

/-- C19: sizes stay multiples of 8.  In every state a single thread reaches
through alloc and release calls with non-wrapping request sizes (pages a
power of two large enough to hold one table row), every block on the free or
the used list is 8-byte aligned, has a size that is a multiple of 8 and ends
below `2 ^ 64`.  Hence for a block of the free list with `size >= bytes`, and
likewise for the block installed in a fresh region of `numbytes` bytes at a
page-aligned address, the candidate address of `split` is 8-byte aligned and
at most `block_end`, the 64-bit subtraction `block_end - candidate` equals
the true difference, and when that difference exceeds `sizeof(Header)` the
size given to the second block is at least 8. -/
theorem C19_sizes_multiple_of_8 {pagesize : Nat} (hps : PageOK pagesize)
    (hnum : 0 < pagesize / sizeofThreadTable) {tid : Int} {s : State}
    (hs : Trace pagesize tid (Call.plain pagesize) s) :
    (∀ b, OnList s.heap.mem (slotOf pagesize tid s).free b ∨
        OnList s.heap.mem (slotOf pagesize tid s).used b →
      b % 8 = 0 ∧ load64raw s.heap.mem (b + 8) % 8 = 0 ∧
        b + sizeofHeader + load64raw s.heap.mem (b + 8) < W) ∧
    (∀ b bytes, OnList s.heap.mem (slotOf pagesize tid s).free b →
      bytes ≤ load64raw s.heap.mem (b + 8) →
      split_block2 b bytes % 8 = 0 ∧
      split_block2 b bytes ≤ b + sizeofHeader + load64raw s.heap.mem (b + 8) ∧
      ((b + sizeofHeader + load64raw s.heap.mem (b + 8)) % W + W - split_block2 b bytes) % W =
        b + sizeofHeader + load64raw s.heap.mem (b + 8) - split_block2 b bytes ∧
      (sizeofHeader < b + sizeofHeader + load64raw s.heap.mem (b + 8) - split_block2 b bytes →
        8 ≤ b + sizeofHeader + load64raw s.heap.mem (b + 8) - split_block2 b bytes
          - sizeofHeader)) ∧
    (∀ a bytes, bytes + sizeofHeader + pagesize < W → a % pagesize = 0 →
      a + numbytes pagesize bytes < W →
      bytes ≤ numbytes pagesize bytes - sizeofHeader ∧
      (numbytes pagesize bytes - sizeofHeader) % 8 = 0 ∧
      split_block2 a bytes % 8 = 0 ∧
      split_block2 a bytes ≤ a + numbytes pagesize bytes ∧
      ((a + sizeofHeader + (numbytes pagesize bytes - sizeofHeader)) % W + W
          - split_block2 a bytes) % W = a + numbytes pagesize bytes - split_block2 a bytes ∧
      (sizeofHeader < a + numbytes pagesize bytes - split_block2 a bytes →
        8 ≤ a + numbytes pagesize bytes - split_block2 a bytes - sizeofHeader)) := by
  obtain ⟨lf, lu, hI⟩ := Trace_inv hps hnum (Trace_imp (fun c hc => hc.2) hs)
  obtain ⟨hf, hu⟩ := Inv_slot hnum hI
  have hmem : ∀ b, OnList s.heap.mem (slotOf pagesize tid s).free b ∨
      OnList s.heap.mem (slotOf pagesize tid s).used b → b ∈ lf ++ lu := by
    intro b hb
    rcases hb with hb | hb
    · exact List.mem_append_left _ ((IsList_onList hf b).mp hb)
    · exact List.mem_append_right _ ((IsList_onList hu b).mp hb)
  have hblk : ∀ b, b ∈ lf ++ lu → b % 8 = 0 ∧ load64raw s.heap.mem (b + 8) % 8 = 0 ∧
      b + sizeofHeader + load64raw s.heap.mem (b + 8) < W := by
    intro b hb
    have h1 := hI.dir.heap.ok b hb
    have h2 := hI.dir.heap.bound hb
    exact ⟨h1.al, h1.szal, by unfold sizeofHeader; omega⟩
  refine ⟨fun b hb => hblk b (hmem b hb), ?_, ?_⟩
  · intro b bytes hb hfit
    obtain ⟨h1, h2, h3⟩ := hblk b (hmem b (Or.inl hb))
    obtain ⟨q1, _, q3, q4, q5⟩ := split_nowrap h1 h2 hfit h3
    exact ⟨q1, q3, q4, q5⟩
  · intro a bytes hsm ha haW
    obtain ⟨p8, _, _⟩ := PageOK_facts hps
    obtain ⟨n1, n2, n3⟩ := numbytes_ge hps hsm
    have ha8 : a % 8 = 0 := by
      have := Nat.mod_mod_of_dvd a (Nat.dvd_of_mod_eq_zero p8)
      omega
    generalize numbytes pagesize bytes = len at *
    have e : a + sizeofHeader + (len - sizeofHeader) = a + len := by
      unfold sizeofHeader; omega
    obtain ⟨q1, _, q3, q4, q5⟩ := @split_nowrap a (len - sizeofHeader) bytes ha8
      (by unfold sizeofHeader; omega) (by unfold sizeofHeader; omega) (by rw [e]; exact haW)
    rw [e] at q3 q4 q5
    rw [e]
    exact ⟨by unfold sizeofHeader; omega, by unfold sizeofHeader; omega, q1, q3, q4, q5⟩

/-- Witness for C19: the blocks of `state_C8`. -/
theorem C19_witness :
    (0x10000 : Nat) % 8 = 0 ∧ load64raw state_C8.heap.mem (0x10000 + 8) % 8 = 0 ∧
      0x10000 + sizeofHeader + load64raw state_C8.heap.mem (0x10000 + 8) < W :=
  (@C19_sizes_multiple_of_8 4096 ⟨12, by decide, by decide, by decide⟩ (by decide) 7 state_C8
    (after_trace (plainB_sound 4096) _ (by decide))).1 0x10000
    (Or.inl (onListB_sound _ 5 _ _ (by decide)))

/-! ## `calloc`: the zeroed bytes -/

theorem find_block_scan_mem {hp : Heap} {bytes : Nat} : ∀ (fuel head : Nat) (l : List Nat) (c : Nat),
    IsList hp.mem head l → find_block_scan hp bytes fuel head = Except.ok (some c) → c ∈ l := by
  intro fuel
  induction fuel with
  | zero => intro head l c _ he; simp [find_block_scan] at he
  | succ n ih =>
    intro head l c hl he
    unfold find_block_scan at he
    split at he
    · simp [pure, Except.pure] at he
    · rename_i h0
      cases l with
      | nil => exact absurd hl h0
      | cons b l1 =>
        obtain ⟨e1, _, hl1⟩ := hl
        obtain ⟨sz, h1, h2⟩ := bind_ok he
        split at h2
        · simp only [pure, Except.pure] at h2
          injection h2 with h2
          injection h2 with h2
          rw [← h2, e1]
          exact List.mem_cons_self _ _
        · obtain ⟨nx, h3, h4⟩ := bind_ok h2
          obtain ⟨_, e3⟩ := load64_ok h3
          rw [e3, e1] at h4
          exact List.mem_cons_of_mem _ (ih _ _ _ hl1 h4)

theorem split_fst {fuel block bytes free : Nat} {hp : Heap} {r : Nat × Heap}
    (he : split fuel block bytes free hp = Except.ok r) : r.1 = block := by
  unfold split at he
  obtain ⟨size, h1, h2⟩ := bind_ok he
  generalize split_block2 block bytes = block2 at h2
  simp only [sizeofHeader, W] at h2
  split at h2
  · injection h2 with h2; subst h2; rfl
  · obtain ⟨rb, h3, h4⟩ := bind_ok h2
    obtain ⟨hp1, h5, h6⟩ := bind_ok h4
    obtain ⟨hp2, h7, h8⟩ := bind_ok h6
    obtain ⟨hp3, h9, h10⟩ := bind_ok h8
    obtain ⟨hp4, h11, h12⟩ := bind_ok h10
    obtain ⟨a1, h13, h14⟩ := bind_ok h12
    obtain ⟨a2, h15, h16⟩ := bind_ok h14
    injection h16 with h16; subst h16
    rfl

/-- Whatever the request size, a block returned by `find_block` starts at or above the
first page boundary and its header ends below the top of the address space. -/
theorem find_block_ptr {pagesize : Nat} (hps : PageOK pagesize) (h16 : 16 ≤ pagesize)
    {hp : Heap} {S lf : List Nat} {hint : Option Nat} {fuel bytes free : Nat} {r : Nat × Heap}
    (h : HeapOK pagesize hp S) (hl : IsList hp.mem free lf) (hS : ∀ b ∈ lf, b ∈ S)
    (he : find_block pagesize hint fuel bytes free hp = Except.ok r) :
    r.1 = 0 ∨ (pagesize ≤ r.1 ∧ r.1 + 16 < W) := by
  unfold find_block at he
  obtain ⟨o, h1, h2⟩ := bind_ok he
  cases o with
  | some c =>
    have hc := find_block_scan_mem _ _ _ _ hl h1
    have hb := h.bound (hS c hc)
    rw [split_fst h2]
    exact Or.inr ⟨hb.1, by omega⟩
  | none =>
    simp only at h2
    obtain ⟨n1, n2, n3⟩ := numbytes_mod hps bytes
    rcases mmap_cases pagesize hp (numbytes pagesize bytes) hint with hc | ⟨a, c1, c2, c3, c4, c5, c6, hc⟩
    · rw [hc] at h2
      simp only [if_true] at h2
      injection h2 with h2; subst h2
      exact Or.inl rfl
    · rw [hc] at h2
      simp only [if_neg c5] at h2
      obtain ⟨hp1, h3, h4⟩ := bind_ok h2
      obtain ⟨hp2, h5, h6⟩ := bind_ok h4
      obtain ⟨a1, h7, h8⟩ := bind_ok h6
      rw [split_fst h8]
      have hage : pagesize ≤ a := Nat.le_of_dvd c2 (Nat.dvd_of_mod_eq_zero c3)
      have hlen : pagesize ≤ numbytes pagesize bytes :=
        Nat.le_of_dvd c1 (Nat.dvd_of_mod_eq_zero n1)
      exact Or.inr ⟨hage, by omega⟩

theorem malloc_main_ptr {pagesize : Nat} (hps : PageOK pagesize)
    (hnum : 0 < pagesize / sizeofThreadTable) {tid : Int} {blkHint : Option Nat}
    {fuel bytes : Nat} {s : State} {r : Nat × State} {lf lu : List Nat}
    (hI : Inv pagesize tid s lf lu) (hs : s.slots ≠ [])
    (he : malloc_main pagesize tid blkHint fuel bytes s = Except.ok r) :
    r.1 = 0 ∨ (pagesize + 16 ≤ r.1 ∧ r.1 < W) := by
  have h16 : 16 ≤ pagesize := by
    have := Nat.div_mul_le_self pagesize sizeofThreadTable
    have h3 : 1 * sizeofThreadTable ≤ pagesize / sizeofThreadTable * sizeofThreadTable :=
      Nat.mul_le_mul_right _ hnum
    unfold sizeofThreadTable at *
    omega
  have hid : (s.slots.getD 0 default).id = tid := by
    rcases hI.own with ⟨h1, _⟩ | ⟨_, _, h3⟩
    · exact absurd h1 hs
    · exact h3
  unfold malloc_main at he
  simp only at he
  split at he
  · simp at he
  · rw [malloc_scan_zero hnum hid] at he
    simp only at he
    rw [if_neg (Nat.ne_of_lt hnum)] at he
    obtain ⟨f, h1, h2⟩ := bind_ok he
    have hb := find_block_ptr hps h16 hI.dir.heap hI.dir.isf
      (fun b hb => List.mem_append_left _ hb) h1
    split at h2
    · injection h2 with h2; subst h2
      exact Or.inl rfl
    · rename_i hf0
      obtain ⟨rb, h3, h4⟩ := bind_ok h2
      obtain ⟨hp1, h5, h6⟩ := bind_ok h4
      obtain ⟨a, h7, h8⟩ := bind_ok h6
      injection h8 with h8; subst h8
      rcases hb with hb | hb
      · exact absurd hb hf0
      · right
        show pagesize + 16 ≤ (f.1 + sizeofHeader) % W ∧ (f.1 + sizeofHeader) % W < W
        unfold sizeofHeader
        rw [Nat.mod_eq_of_lt hb.2]
        omega

/-- Whatever the request size, a non-NULL pointer returned by `malloc` in a
well-formed state lies at least a header above the first page boundary. -/
theorem malloc_ptr {pagesize : Nat} (hps : PageOK pagesize)
    (hnum : 0 < pagesize / sizeofThreadTable) {tid : Int} {tblHint blkHint : Option Nat}
    {fuel bytes : Nat} {s : State} {r : Nat × State} {lf lu : List Nat}
    (hI : Inv pagesize tid s lf lu)
    (he : malloc pagesize tid tblHint blkHint fuel bytes s = Except.ok r) :
    r.1 = 0 ∨ (pagesize + 16 ≤ r.1 ∧ r.1 < W) := by
  have hH := hI.dir.heap
  unfold malloc at he
  rcases malloc_init_cases pagesize tid tblHint s with ⟨h0, hc⟩ | ⟨h0, hc⟩ |
    ⟨h0, a, c1, c2, c3, c4, hc⟩
  · rw [hc] at he
    by_cases hs : s.slots = []
    · rcases hI.own with ⟨_, h2 | h2⟩ | ⟨h1, _⟩
      · exact absurd h2 h0
      · unfold malloc_main at he
        simp only at he
        rw [if_pos ⟨Nat.ne_of_gt hnum, by
          rw [h2]; exact not_accessible_failed _ (by unfold sizeofThreadTable; omega)⟩] at he
        cases he
      · exact absurd hs h1
    · exact malloc_main_ptr hps hnum hI hs he
  · rw [hc] at he
    simp only [pure, Except.pure] at he
    injection he with he; subst he
    exact Or.inl rfl
  · rw [hc] at he
    simp only at he
    have hs : s.slots = [] := by
      rcases hI.own with ⟨h1, _⟩ | ⟨_, h2, _⟩
      · exact h1
      · rw [h0] at h2
        exact absurd h2 (not_accessible_zero hps hH (by unfold sizeofThreadTable; omega))
    obtain ⟨e1, e2⟩ := Inv_dead_lists hI hs
    subst e1; subst e2
    have hage : pagesize ≤ a := Nat.le_of_dvd c1 (Nat.dvd_of_mod_eq_zero c2)
    have hI1 : Inv pagesize tid
        ⟨⟨fun x => if a ≤ x ∧ x < a + pagesize then 0 else s.heap.mem x,
          (a, pagesize) :: s.heap.mapped⟩, a, init_slots tid (pagesize / sizeofThreadTable)⟩
        [] [] := by
      refine ⟨Or.inr ⟨by simp [init_slots], ?_, rfl⟩, ⟨rfl, rfl, List.nodup_nil, ?_, ?_, ?_⟩⟩
      · refine accessible_of_reg (List.mem_cons_self _ _) (Nat.le_refl _) ?_ (by
          show a + pagesize ≤ W
          omega)
        show a + sizeofThreadTable ≤ a + pagesize
        have := Nat.div_mul_le_self pagesize sizeofThreadTable
        have : sizeofThreadTable ≤ pagesize := by
          have h3 : 1 * sizeofThreadTable ≤ pagesize / sizeofThreadTable * sizeofThreadTable :=
            Nat.mul_le_mul_right _ hnum
          omega
        omega
      · intro r hr
        rcases List.mem_cons.mp hr with e | hr
        · rw [e]; exact ⟨hage, c3⟩
        · exact hH.regs r hr
      · intro b hb; simp at hb
      · intro b hb; simp at hb
    exact malloc_main_ptr hps hnum hI1 (by simp [init_slots]) he

/-- Zero-alloc without wrap-around.  In every state a single thread reaches through alloc,
zero-alloc, resize and release calls with non-wrapping request sizes (pages a
power of two large enough to hold one table row), for every `count` and every
second argument: if `calloc(count, unit)` returns a non-NULL pointer `p`, then
the `count` bytes from `p` are zero, `p` is the payload address of a block on
the used list of the thread whose size is at least `count`, and the state
differs from the one left by `malloc(count)` (which returned `p`) only in the
bytes `p[0 .. count)`: zeroing writes no byte outside the payload. -/
theorem zero_alloc_nonwrapping {pagesize : Nat} (hps : PageOK pagesize)
    (hnum : 0 < pagesize / sizeofThreadTable) {tid : Int} {s s1 : State}
    {count unit fuel p : Nat} {t b : Option Nat}
    (hs : Trace pagesize tid (Call.small pagesize) s)
    (hr : calloc pagesize tid t b fuel count unit s = Except.ok (p, s1)) (hp : p ≠ 0) :
    (∀ i, i < count → s1.heap.mem (p + i) = 0) ∧
      p = hdr p + sizeofHeader ∧
      OnList s1.heap.mem (slotOf pagesize tid s1).used (hdr p) ∧
      count ≤ load64raw s1.heap.mem (hdr p + 8) ∧
      ∃ s0, malloc pagesize tid t b fuel count s = Except.ok (p, s0) ∧
        s1.slots = s0.slots ∧ s1.thread_tbl = s0.thread_tbl ∧
        s1.heap.mapped = s0.heap.mapped ∧
        ∀ x, x < p ∨ p + count ≤ x → s1.heap.mem x = s0.heap.mem x := by
  obtain ⟨lf, lu, hI⟩ := Trace_inv hps hnum hs
  unfold calloc at hr
  obtain ⟨r1, hm, h2⟩ := bind_ok hr
  split at h2
  · injection h2 with h2
    injection h2 with h3 h4
    exact absurd h3.symm hp
  · rename_i hne
    obtain ⟨hp1, h3, h4⟩ := bind_ok h2
    injection h4 with h4
    injection h4 with h5 h6
    unfold memset at h3
    split at h3
    swap
    · cases h3
    rename_i hacc
    injection h3 with h3
    by_cases hsm : count + sizeofHeader + pagesize < W
    · obtain ⟨lf1, lu1, hI1, _, _, hc⟩ := malloc_spec hps hnum hI hsm hm
      rcases hc with ⟨h0, _⟩ | ⟨h, hr1, hW, hnin, hlu, hsz, _⟩
      · exact absurd h0 hne
      have hin : h ∈ lf1 ++ lu1 := by
        rw [hlu]
        exact List.mem_append_right _ (List.mem_append_right _ (List.mem_singleton.mpr rfl))
      have hIM := @Inv_payload pagesize tid r1.2 lf1 lu1 hI1 h hin
        (memset_raw r1.2.heap.mem r1.1 0 count) (fun x hx => by
          show (if r1.1 ≤ x ∧ x < r1.1 + count then 0 % 256 else r1.2.heap.mem x) = _
          rw [if_neg (by rw [hr1]; omega)])
      have hpe : p = h + 16 := by rw [← h5]; exact hr1
      have hq : hdr p = h := by rw [hpe]; exact hdr_add hW
      have es1 : s1 = ⟨⟨memset_raw r1.2.heap.mem r1.1 0 count, r1.2.heap.mapped⟩,
          r1.2.thread_tbl, r1.2.slots⟩ := by
        rw [← h6, ← h3]
      rw [es1, hq]
      have hr1p : r1.1 = p := h5
      refine ⟨?_, hpe, ?_, ?_, r1.2, ?_, rfl, rfl, rfl, ?_⟩
      · intro i hi
        show (if r1.1 ≤ p + i ∧ p + i < r1.1 + count then 0 % 256 else r1.2.heap.mem (p + i)) = 0
        rw [if_pos (by omega)]
      · have hu := (Inv_slot hnum hIM).2
        refine (IsList_onList hu _).mpr ?_
        rw [hlu]
        exact List.mem_append_right _ (List.mem_singleton.mpr rfl)
      · have e : load64raw (memset_raw r1.2.heap.mem r1.1 0 count) (h + 8) =
            load64raw r1.2.heap.mem (h + 8) :=
          load64raw_congr _ _ _ (fun x h1 h2 => by
            show (if r1.1 ≤ x ∧ x < r1.1 + count then 0 % 256 else r1.2.heap.mem x) = _
            rw [if_neg (by omega)])
        show count ≤ load64raw (memset_raw r1.2.heap.mem r1.1 0 count) (h + 8)
        rw [e]; exact hsz
      · rw [hm, ← hr1p]
      · intro x hx
        show (if r1.1 ≤ x ∧ x < r1.1 + count then 0 % 256 else r1.2.heap.mem x) = _
        rw [if_neg (by omega)]
    · exfalso
      have htop : RegsTop s.heap.mapped := fun r hr => (hI.dir.heap.regs r hr).2
      obtain ⟨top1, _⟩ := malloc_top htop hm
      rcases malloc_ptr hps hnum hI hm with h0 | ⟨hb1, hb2⟩
      · exact hne h0
      · unfold sizeofHeader at hsm
        exact not_accessible_top top1 hb2 (by omega) hacc

/-- In a fresh process `calloc(8, 1)` returns `0x10010`. -/
theorem zero_alloc_example :
    (∀ i, i < 8 → state_C11.heap.mem (0x10010 + i) = 0) ∧
      0x10010 = hdr 0x10010 + sizeofHeader ∧
      OnList state_C11.heap.mem (slotOf 4096 7 state_C11).used (hdr 0x10010) ∧
      8 ≤ load64raw state_C11.heap.mem (hdr 0x10010 + 8) ∧
      ∃ s0, malloc 4096 7 (some 0x100000) (some 0x10000) 10 8 init = Except.ok (0x10010, s0) ∧
        state_C11.slots = s0.slots ∧ state_C11.thread_tbl = s0.thread_tbl ∧
        state_C11.heap.mapped = s0.heap.mapped ∧
        ∀ x, x < 0x10010 ∨ 0x10010 + 8 ≤ x → state_C11.heap.mem x = s0.heap.mem x :=
  @zero_alloc_nonwrapping 4096 ⟨12, by decide, by decide, by decide⟩ (by decide) 7 init state_C11
    8 1 10 0x10010 (some 0x100000) (some 0x10000) Trace.init
    (ok_getOk_pair (0, init) _ _ (by decide) (by decide)) (by decide)

/-! ## The registry under calls of several threads -/

theorem getD_set (slots : List ThreadTable) (i j : Nat) (e : ThreadTable) :
    (slots.set i e).getD j default =
      if i = j ∧ j < slots.length then e else slots.getD j default := by
  simp only [List.getD_eq_getElem?_getD, List.getElem?_set]
  by_cases hij : i = j
  · subst hij
    by_cases hl : i < slots.length
    · simp [hl]
    · have : slots[i]? = none := List.getElem?_eq_none (by omega)
      simp [hl, this]
  · simp [hij]

theorem malloc_scan_spec (tid : Int) (slots : List ThreadTable) : ∀ (n i : Nat),
    (malloc_scan tid slots n i = (i + n, slots) ∧
      ∀ j, i ≤ j → j < i + n →
        (slots.getD j default).id ≠ tid ∧ (slots.getD j default).id ≠ -1) ∨
    (∃ m, i ≤ m ∧ m < i + n ∧
      (∀ j, i ≤ j → j < m →
        (slots.getD j default).id ≠ tid ∧ (slots.getD j default).id ≠ -1) ∧
      (((slots.getD m default).id = tid ∧ malloc_scan tid slots n i = (m, slots)) ∨
       ((slots.getD m default).id ≠ tid ∧ (slots.getD m default).id = -1 ∧
         malloc_scan tid slots n i =
           (m, slots.set m ⟨tid, (slots.getD m default).used, (slots.getD m default).free⟩)))) := by
  intro n
  induction n with
  | zero =>
    intro i
    left
    exact ⟨rfl, fun j h1 h2 => by omega⟩
  | succ k ih =>
    intro i
    unfold malloc_scan
    by_cases h1 : (slots.getD i default).id = tid
    · right
      rw [if_pos h1]
      exact ⟨i, Nat.le_refl _, by omega, fun j a b => by omega, Or.inl ⟨h1, rfl⟩⟩
    · rw [if_neg h1]
      by_cases h2 : (slots.getD i default).id = -1
      · right
        rw [if_pos h2]
        exact ⟨i, Nat.le_refl _, by omega, fun j a b => by omega, Or.inr ⟨h1, h2, rfl⟩⟩
      · rw [if_neg h2]
        have hstep : ∀ j, i ≤ j → j < i + 1 →
            (slots.getD j default).id ≠ tid ∧ (slots.getD j default).id ≠ -1 := by
          intro j a b
          have : j = i := by omega
          rw [this]; exact ⟨h1, h2⟩
        rcases ih (i + 1) with ⟨e, hall⟩ | ⟨m, m1, m2, m3, m4⟩
        · left
          refine ⟨by rw [e]; congr 1; omega, fun j a b => ?_⟩
          by_cases hj : j = i
          · rw [hj]; exact ⟨h1, h2⟩
          · exact hall j (by omega) (by omega)
        · right
          refine ⟨m, by omega, by omega, fun j a b => ?_, m4⟩
          by_cases hj : j = i
          · rw [hj]; exact ⟨h1, h2⟩
          · exact m3 j (by omega) b

theorem free_scan_spec (tid : Int) (slots : List ThreadTable) : ∀ (n i : Nat),
    (free_scan tid slots n i = i + n ∧
      ∀ j, i ≤ j → j < i + n → (slots.getD j default).id ≠ tid) ∨
    (i ≤ free_scan tid slots n i ∧ free_scan tid slots n i < i + n ∧
      (slots.getD (free_scan tid slots n i) default).id = tid ∧
      ∀ j, i ≤ j → j < free_scan tid slots n i → (slots.getD j default).id ≠ tid) := by
  intro n
  induction n with
  | zero =>
    intro i
    left
    exact ⟨rfl, fun j h1 h2 => by omega⟩
  | succ k ih =>
    intro i
    unfold free_scan
    by_cases h1 : (slots.getD i default).id = tid
    · right
      rw [if_pos h1]
      exact ⟨Nat.le_refl _, by omega, h1, fun j a b => by omega⟩
    · rw [if_neg h1]
      rcases ih (i + 1) with ⟨e, hall⟩ | ⟨m1, m2, m3, m4⟩
      · left
        refine ⟨by rw [e]; omega, fun j a b => ?_⟩
        by_cases hj : j = i
        · rw [hj]; exact h1
        · exact hall j (by omega) (by omega)
      · right
        refine ⟨by omega, by omega, m3, fun j a b => ?_⟩
        by_cases hj : j = i
        · rw [hj]; exact h1
        · exact m4 j (by omega) b

theorem RowsOK.claimed {num : Nat} {slots : List ThreadTable} (h : RowsOK num slots) {i : Nat}
    (hi : i < num) (hid : (slots.getD i default).id ≠ -1) :
    ∃ k, i < k ∧ k ≤ num ∧ (∀ j, j < k → (slots.getD j default).id ≠ -1) ∧
      (∀ j, k ≤ j → j < num → slots.getD j default = ⟨-1, 0, 0⟩) ∧
      (∀ a b, a < k → b < k → (slots.getD a default).id = (slots.getD b default).id → a = b) := by
  obtain ⟨_, k, k1, k2, k3, k4, k5⟩ := h
  refine ⟨k, ?_, k2, k3, k4, k5⟩
  by_contra hc
  have := k4 i (by omega) hi
  rw [this] at hid
  exact hid rfl

/-- Rewriting the list heads of a claimed row keeps the rows well formed. -/
theorem RowsOK.set_heads {num : Nat} {slots : List ThreadTable} (h : RowsOK num slots) {i : Nat}
    (hi : i < num) (hid : (slots.getD i default).id ≠ -1) (u f : Nat) :
    RowsOK num (slots.set i ⟨(slots.getD i default).id, u, f⟩) := by
  obtain ⟨k, k1, k2, k3, k4, k5⟩ := h.claimed hi hid
  have hlen := h.1
  have hid2 : ∀ j, ((slots.set i ⟨(slots.getD i default).id, u, f⟩).getD j default).id =
      (slots.getD j default).id := by
    intro j
    rw [getD_set]
    split
    · rename_i hc; rw [← hc.1]
    · rfl
  refine ⟨by simp [hlen], k, by omega, k2, ?_, ?_, ?_⟩
  · intro j hj
    rw [hid2]; exact k3 j hj
  · intro j hj1 hj2
    rw [getD_set, if_neg (by omega)]
    exact k4 j hj1 hj2
  · intro a b ha hb hab
    rw [hid2, hid2] at hab
    exact k5 a b ha hb hab

/-- The slot loop of `malloc` on well-formed rows: it finds the row of `tid`, or
claims the first unclaimed row, or reports that the registry is full. -/
theorem RowsOK.scan {num : Nat} {slots : List ThreadTable} (h : RowsOK num slots) {tid : Int}
    (htid : tid ≠ -1) :
    RowsOK num (malloc_scan tid slots num 0).2 ∧
      (∀ i, i < num → (slots.getD i default).id ≠ -1 →
        (malloc_scan tid slots num 0).2.getD i default = slots.getD i default) ∧
      (∀ i, ((malloc_scan tid slots num 0).2.getD i default).used =
          (slots.getD i default).used ∧
        ((malloc_scan tid slots num 0).2.getD i default).free = (slots.getD i default).free) ∧
      ((malloc_scan tid slots num 0).1 ≠ num →
        (malloc_scan tid slots num 0).1 < num ∧
        ((malloc_scan tid slots num 0).2.getD (malloc_scan tid slots num 0).1 default).id = tid) ∧
      (∀ i, i < num → (slots.getD i default).id = tid →
        malloc_scan tid slots num 0 = (i, slots)) ∧
      (((malloc_scan tid slots num 0).1 = num ∨
          ∃ i, i < num ∧ (slots.getD i default).id = tid) →
        (malloc_scan tid slots num 0).2 = slots) := by
  obtain ⟨hlen, k, k1, k2, k3, k4, k5⟩ := h
  rcases malloc_scan_spec tid slots num 0 with ⟨e, hall⟩ | ⟨m, _, m2, m3, m4⟩
  · have e1 : malloc_scan tid slots num 0 = (num, slots) := by rw [e, Nat.zero_add]
    rw [e1]
    refine ⟨⟨hlen, k, k1, k2, k3, k4, k5⟩, fun _ _ _ => rfl, fun _ => ⟨rfl, rfl⟩,
      fun hc => absurd rfl hc, ?_, fun _ => rfl⟩
    intro i hi hid
    exact absurd hid (hall i (Nat.zero_le _) (by omega)).1
  · rcases m4 with ⟨m5, e⟩ | ⟨m5, m6, e⟩
    · rw [e]
      refine ⟨⟨hlen, k, k1, k2, k3, k4, k5⟩, fun _ _ _ => rfl, fun _ => ⟨rfl, rfl⟩,
        fun _ => ⟨by omega, m5⟩, ?_, fun _ => rfl⟩
      intro i hi hid
      have hmk : m < k := by
        by_contra hc
        have := k4 m (by omega) (by omega)
        rw [this] at m5
        exact htid m5.symm
      have hik : i < k := by
        by_contra hc
        have := k4 i (by omega) hi
        rw [this] at hid
        exact htid hid.symm
      have : m = i := k5 m i hmk hik (by rw [m5, hid])
      rw [this]
    · have hmk : k ≤ m := by
        by_contra hc
        exact k3 m (by omega) m6
      have hall : ∀ j, j < k → (slots.getD j default).id ≠ tid :=
        fun j hj => (m3 j (Nat.zero_le _) (by omega)).1
      have hmeq : m = k := by
        by_contra hc
        have := (m3 k (Nat.zero_le _) (by omega)).2
        rw [k4 k (Nat.le_refl _) (by omega)] at this
        exact this rfl
      subst hmeq
      have hrow := k4 m (Nat.le_refl _) (by omega)
      rw [e, hrow]
      simp only
      have hnone : ∀ i, i < num → (slots.getD i default).id ≠ tid := by
        intro i hi hid
        by_cases hik : i < m
        · exact hall i hik hid
        · rw [k4 i (by omega) hi] at hid
          exact htid hid.symm
      refine ⟨⟨by simp [hlen], m + 1, by omega, by omega, ?_, ?_, ?_⟩, ?_, ?_, ?_, ?_, ?_⟩
      · intro i hi
        rw [getD_set]
        split
        · exact htid
        · exact k3 i (by omega)
      · intro i hi1 hi2
        rw [getD_set, if_neg (by omega)]
        exact k4 i (by omega) hi2
      · intro a b ha hb hab
        rw [getD_set, getD_set] at hab
        by_cases ha1 : a = m
        · by_cases hb1 : b = m
          · omega
          · rw [if_pos ⟨ha1.symm, by omega⟩, if_neg (by omega)] at hab
            exact absurd hab.symm (hall b (by omega))
        · by_cases hb1 : b = m
          · rw [if_neg (by omega), if_pos ⟨hb1.symm, by omega⟩] at hab
            exact absurd hab (hall a (by omega))
          · rw [if_neg (by omega), if_neg (by omega)] at hab
            exact k5 a b (by omega) (by omega) hab
      · intro i hi hid
        rw [getD_set, if_neg]
        intro hc
        rw [← hc.1, hrow] at hid
        exact hid rfl
      · intro i
        rw [getD_set]
        split
        · rename_i hc
          rw [← hc.1, hrow]
          exact ⟨rfl, rfl⟩
        · exact ⟨rfl, rfl⟩
      · intro _
        refine ⟨by omega, ?_⟩
        rw [getD_set, if_pos ⟨rfl, by omega⟩]
      · intro i hi hid
        exact absurd hid (hnone i hi)
      · intro hc
        rcases hc with hc | ⟨i, hi, hid⟩
        · exact absurd hc (by show m ≠ num; omega)
        · exact absurd hid (hnone i hi)

theorem malloc_main_slots {pagesize : Nat} {tid : Int} {blkHint : Option Nat}
    {fuel bytes : Nat} {s : State} {r : Nat × State}
    (he : malloc_main pagesize tid blkHint fuel bytes s = Except.ok r) :
    (pagesize / sizeofThreadTable ≠ 0 → accessible s.heap s.thread_tbl sizeofThreadTable) ∧
      r.2.thread_tbl = s.thread_tbl ∧
      (r.2.slots = (malloc_scan tid s.slots (pagesize / sizeofThreadTable) 0).2 ∨
        ((malloc_scan tid s.slots (pagesize / sizeofThreadTable) 0).1
            ≠ pagesize / sizeofThreadTable ∧
          ∃ u f, r.2.slots = (malloc_scan tid s.slots (pagesize / sizeofThreadTable) 0).2.set
            (malloc_scan tid s.slots (pagesize / sizeofThreadTable) 0).1
            ⟨((malloc_scan tid s.slots (pagesize / sizeofThreadTable) 0).2.getD
              (malloc_scan tid s.slots (pagesize / sizeofThreadTable) 0).1 default).id, u, f⟩)) := by
  unfold malloc_main at he
  simp only at he
  split at he
  · simp at he
  · rename_i hchk
    have hacc : pagesize / sizeofThreadTable ≠ 0 →
        accessible s.heap s.thread_tbl sizeofThreadTable := by
      intro hn
      by_contra hc
      exact hchk ⟨hn, hc⟩
    generalize malloc_scan tid s.slots (pagesize / sizeofThreadTable) 0 = sc at he ⊢
    split at he
    · injection he with he; subst he
      exact ⟨hacc, rfl, Or.inl rfl⟩
    · rename_i hne
      obtain ⟨f, h1, h2⟩ := bind_ok he
      split at h2
      · injection h2 with h2; subst h2
        exact ⟨hacc, rfl, Or.inl rfl⟩
      · obtain ⟨rb, h3, h4⟩ := bind_ok h2
        obtain ⟨hp1, h5, h6⟩ := bind_ok h4
        obtain ⟨a, h7, h8⟩ := bind_ok h6
        injection h8 with h8; subst h8
        exact ⟨hacc, rfl, Or.inr ⟨hne, _, _, rfl⟩⟩

theorem free_slots {pagesize : Nat} {tid : Int} {fuel p : Nat} {s s1 : State}
    (he : free pagesize tid fuel p s = Except.ok s1) :
    s1.thread_tbl = s.thread_tbl ∧
      (s1 = s ∨
        (free_scan tid s.slots (pagesize / sizeofThreadTable) 0 ≠ pagesize / sizeofThreadTable ∧
          ∃ u f, s1.slots = s.slots.set (free_scan tid s.slots (pagesize / sizeofThreadTable) 0)
            ⟨(s.slots.getD (free_scan tid s.slots (pagesize / sizeofThreadTable) 0) default).id,
              u, f⟩)) := by
  unfold free at he
  simp only at he
  split at he
  · injection he with he; subst he; exact ⟨rfl, Or.inl rfl⟩
  · split at he
    · simp at he
    · split at he
      · injection he with he; subst he; exact ⟨rfl, Or.inl rfl⟩
      · rename_i hne
        obtain ⟨rb, h3, h4⟩ := bind_ok he
        obtain ⟨hp1, h5, h6⟩ := bind_ok h4
        obtain ⟨a, h7, h8⟩ := bind_ok h6
        injection h8 with h8; subst h8
        exact ⟨rfl, Or.inr ⟨hne, _, _, rfl⟩⟩

theorem init_slots_rows {num : Nat} (hnum : 0 < num) {tid : Int} (htid : tid ≠ -1) :
    RowsOK num (init_slots tid num) := by
  have hlen : (init_slots tid num).length = num := by
    simp [init_slots]; omega
  refine ⟨hlen, 1, Nat.one_pos, hnum, ?_, ?_, ?_⟩
  · intro i hi
    have : i = 0 := by omega
    subst this
    exact htid
  · intro i hi1 hi2
    obtain ⟨j, rfl⟩ : ∃ j, i = j + 1 := ⟨i - 1, by omega⟩
    show (List.replicate (num - 1) (⟨-1, 0, 0⟩ : ThreadTable)).getD j default = ⟨-1, 0, 0⟩
    rw [List.getD_eq_getElem?_getD, List.getElem?_replicate, if_pos (by omega)]
    rfl
  · intro a b ha hb _
    omega

theorem malloc_main_registry {pagesize : Nat} {tid : Int} (htid : tid ≠ -1)
    {blkHint : Option Nat} {fuel bytes : Nat} {s : State} {r : Nat × State}
    (h0 : s.thread_tbl ≠ 0) (hR : RowsOK (pagesize / sizeofThreadTable) s.slots)
    (he : malloc_main pagesize tid blkHint fuel bytes s = Except.ok r) :
    r.2.thread_tbl ≠ 0 ∧ RowsOK (pagesize / sizeofThreadTable) r.2.slots ∧
      ∀ i, i < pagesize / sizeofThreadTable → (s.slots.getD i default).id ≠ -1 →
        (r.2.slots.getD i default).id = (s.slots.getD i default).id := by
  obtain ⟨_, e1, e2⟩ := malloc_main_slots he
  obtain ⟨q1, q2, _, q4, _, _⟩ := hR.scan htid
  rw [e1]
  rcases e2 with e2 | ⟨hne, u, f, e2⟩
  · rw [e2]
    exact ⟨h0, q1, fun i hi hid => by rw [q2 i hi hid]⟩
  · obtain ⟨q5, q6⟩ := q4 hne
    rw [e2]
    refine ⟨h0, q1.set_heads q5 (by rw [q6]; exact htid) u f, ?_⟩
    intro i hi hid
    rw [getD_set]
    split
    · rename_i hc
      rw [← hc.1, q2 _ q5 (by rw [hc.1]; exact hid)]
    · rw [q2 i hi hid]

theorem malloc_registry {pagesize : Nat} (hnum : 0 < pagesize / sizeofThreadTable) {tid : Int}
    (htid : tid ≠ -1) {tblHint blkHint : Option Nat} {fuel bytes : Nat} {s : State}
    {r : Nat × State} (hR : Registry (pagesize / sizeofThreadTable) s)
    (he : malloc pagesize tid tblHint blkHint fuel bytes s = Except.ok r) :
    Registry (pagesize / sizeofThreadTable) r.2 ∧
      ∀ i, i < s.slots.length → (s.slots.getD i default).id ≠ -1 →
        (r.2.slots.getD i default).id = (s.slots.getD i default).id := by
  unfold malloc at he
  rcases malloc_init_cases pagesize tid tblHint s with ⟨h0, hc⟩ | ⟨h0, hc⟩ |
    ⟨h0, a, c1, c2, c3, c4, hc⟩
  · rw [hc] at he
    rcases hR with ⟨h1, h2 | h2⟩ | ⟨_, h2⟩
    · exact absurd h2 h0
    · have := (malloc_main_slots he).1 (Nat.ne_of_gt hnum)
      rw [h2] at this
      exact absurd this (not_accessible_failed _ (by unfold sizeofThreadTable; omega))
    · obtain ⟨g1, g2, g3⟩ := malloc_main_registry htid h0 h2 he
      exact ⟨Or.inr ⟨g1, g2⟩, fun i hi hid => g3 i (by rw [← h2.1]; exact hi) hid⟩
  · rw [hc] at he
    simp only [pure, Except.pure] at he
    injection he with he; subst he
    rcases hR with ⟨h1, _⟩ | ⟨h1, _⟩
    · exact ⟨Or.inl ⟨h1, Or.inr rfl⟩, fun _ _ _ => rfl⟩
    · exact absurd h0 h1
  · rw [hc] at he
    simp only at he
    rcases hR with ⟨h1, _⟩ | ⟨h1, _⟩
    · obtain ⟨g1, g2, _⟩ := @malloc_main_registry pagesize tid htid blkHint fuel bytes
        ⟨⟨fun x => if a ≤ x ∧ x < a + pagesize then 0 else s.heap.mem x,
          (a, pagesize) :: s.heap.mapped⟩, a, init_slots tid (pagesize / sizeofThreadTable)⟩ r
        (Nat.ne_of_gt c1) (init_slots_rows hnum htid) he
      refine ⟨Or.inr ⟨g1, g2⟩, fun i hi => ?_⟩
      rw [h1] at hi
      exact absurd hi (Nat.not_lt_zero _)
    · exact absurd h0 h1

theorem free_registry {pagesize : Nat} {tid : Int} (htid : tid ≠ -1) {fuel p : Nat}
    {s s1 : State} (hR : Registry (pagesize / sizeofThreadTable) s)
    (he : free pagesize tid fuel p s = Except.ok s1) :
    Registry (pagesize / sizeofThreadTable) s1 ∧
      ∀ i, i < s.slots.length → (s.slots.getD i default).id ≠ -1 →
        (s1.slots.getD i default).id = (s.slots.getD i default).id := by
  obtain ⟨e1, e2⟩ := free_slots he
  rcases e2 with e2 | ⟨hne, u, f, e2⟩
  · rw [e2]; exact ⟨hR, fun _ _ _ => rfl⟩
  · rcases free_scan_spec tid s.slots (pagesize / sizeofThreadTable) 0 with ⟨e, _⟩ | ⟨_, m2, m3, _⟩
    · rw [Nat.zero_add] at e
      exact absurd e hne
    · have hid2 : ∀ j, (s1.slots.getD j default).id = (s.slots.getD j default).id := by
        intro j
        rw [e2, getD_set]
        split
        · rename_i hc; rw [← hc.1]
        · rfl
      refine ⟨?_, fun i _ _ => hid2 i⟩
      rcases hR with ⟨h1, h2⟩ | ⟨h1, h2⟩
      · left
        rw [e1, e2, h1]
        exact ⟨rfl, h2⟩
      · right
        rw [e1, e2]
        exact ⟨h1, h2.set_heads (by omega) (by rw [m3]; exact htid) u f⟩

theorem MTrace_registry {pagesize : Nat} (hnum : 0 < pagesize / sizeofThreadTable)
    {P : Call → Prop} (hP : ∀ c, P c → c.basic) {s : State} (h : MTrace pagesize P s) :
    Registry (pagesize / sizeofThreadTable) s := by
  induction h with
  | init => exact Or.inl ⟨rfl, Or.inl rfl⟩
  | @step s0 s1 tid c fuel p _ htid hPc hwf hrun ih =>
    have hb := hP c hPc
    cases c with
    | alloc bytes t b => exact (malloc_registry hnum htid ih hrun).1
    | zero_alloc count unit t b => exact absurd hb (fun h => h)
    | resize ptr bytes t b => exact absurd hb (fun h => h)
    | release ptr =>
      have hrun2 : (free pagesize tid fuel ptr s0).map (fun s1 => (0, s1)) = Except.ok (p, s1) := hrun
      cases hf : free pagesize tid fuel ptr s0 with
      | error e => rw [hf] at hrun2; cases hrun2
      | ok s2 =>
        rw [hf] at hrun2
        injection hrun2 with e
        injection e with e1 e2
        rw [← e2]
        exact (free_registry htid ih hf).1

theorem Trace_MTrace {pagesize : Nat} {tid : Int} (htid : tid ≠ -1) {P : Call → Prop}
    {s : State} (h : Trace pagesize tid P s) : MTrace pagesize P s := by
  induction h with
  | init => exact MTrace.init
  | step _ hP hwf hrun ih => exact MTrace.step ih htid hP hwf hrun

theorem run_registry {pagesize : Nat} (hnum : 0 < pagesize / sizeofThreadTable) {tid : Int}
    (htid : tid ≠ -1) {c : Call} (hb : c.basic) {fuel p : Nat} {s s1 : State}
    (hR : Registry (pagesize / sizeofThreadTable) s)
    (hrun : c.run pagesize tid fuel s = Except.ok (p, s1)) :
    ∀ i, i < s.slots.length → (s.slots.getD i default).id ≠ -1 →
      (s1.slots.getD i default).id = (s.slots.getD i default).id := by
  cases c with
  | alloc bytes t b => exact (malloc_registry hnum htid hR hrun).2
  | zero_alloc count unit t b => exact absurd hb (fun h => h)
  | resize ptr bytes t b => exact absurd hb (fun h => h)
  | release ptr =>
    have hrun2 : (free pagesize tid fuel ptr s).map (fun s1 => (0, s1)) = Except.ok (p, s1) := hrun
    cases hf : free pagesize tid fuel ptr s with
    | error e => rw [hf] at hrun2; cases hrun2
    | ok s2 =>
      rw [hf] at hrun2
      injection hrun2 with e
      injection e with e1 e2
      rw [← e2]
      exact (free_registry htid hR hf).2

/-- The registry without wrap-around.  With each public call one atomic step and
no thread id equal to the sentinel `-1`, in every state reached through alloc
and release calls of any threads (release only on pointers valid for the
caller, non-wrapping request sizes, at least one table row per page): the
registry is well formed (`Registry`: the claimed rows are the first `k` rows,
every later row holds `-1` with empty lists, claimed ids are pairwise
distinct); a further call never changes the id of a claimed row; and for a
thread that owns row `i`, the slot loops of `free` and `malloc` both stop at
`i`, the loop of `malloc` leaving the rows unchanged. -/
theorem registry_nonwrapping {pagesize : Nat} (hnum : 0 < pagesize / sizeofThreadTable)
    {s : State} (hs : MTrace pagesize (Call.plain pagesize) s) :
    Registry (pagesize / sizeofThreadTable) s ∧
    (∀ (tid : Int) (c : Call) (fuel p : Nat) (s1 : State), tid ≠ -1 → c.plain pagesize →
      c.wf pagesize tid s → c.run pagesize tid fuel s = Except.ok (p, s1) →
      ∀ i, i < s.slots.length → (s.slots.getD i default).id ≠ -1 →
        (s1.slots.getD i default).id = (s.slots.getD i default).id) ∧
    (∀ (tid : Int) (i : Nat), tid ≠ -1 → i < s.slots.length →
      (s.slots.getD i default).id = tid →
      free_scan tid s.slots (pagesize / sizeofThreadTable) 0 = i ∧
        malloc_scan tid s.slots (pagesize / sizeofThreadTable) 0 = (i, s.slots) ∧
        ∀ j, j < s.slots.length → (s.slots.getD j default).id = tid → j = i) := by
  have hR := MTrace_registry hnum (fun c hc => hc.1) hs
  refine ⟨hR, ?_, ?_⟩
  · intro tid c fuel p s1 htid hc _ hrun
    exact run_registry hnum htid hc.1 hR hrun
  · intro tid i htid hi hid
    rcases hR with ⟨h1, _⟩ | ⟨_, h2⟩
    · rw [h1] at hi
      exact absurd hi (Nat.not_lt_zero _)
    · have hin : i < pagesize / sizeofThreadTable := by rw [← h2.1]; exact hi
      obtain ⟨k, k1, k2, k3, k4, k5⟩ := h2.claimed hin (by rw [hid]; exact htid)
      have huniq : ∀ j, j < s.slots.length → (s.slots.getD j default).id = tid → j = i := by
        intro j hj hjd
        have hjn : j < pagesize / sizeofThreadTable := by rw [← h2.1]; exact hj
        have hjk : j < k := by
          by_contra hc
          rw [k4 j (by omega) hjn] at hjd
          exact htid hjd.symm
        exact k5 j i hjk k1 (by rw [hjd, hid])
      refine ⟨?_, (h2.scan htid).2.2.2.2.1 i hin hid, huniq⟩
      rcases free_scan_spec tid s.slots (pagesize / sizeofThreadTable) 0 with ⟨_, hall⟩ |
        ⟨_, m2, m3, _⟩
      · exact absurd hid (hall i (Nat.zero_le _) (by omega))
      · exact huniq _ (by rw [h2.1]; omega) m3

/-- With two table rows, after `alloc(8)` by thread 7 and `alloc(8)` by
thread 8, the slot loops find row 1 for thread 8. -/
theorem registry_example :
    free_scan 8 state_C20.slots (64 / sizeofThreadTable) 0 = 1 ∧
      malloc_scan 8 state_C20.slots (64 / sizeofThreadTable) 0 = (1, state_C20.slots) ∧
      ∀ j, j < state_C20.slots.length → (state_C20.slots.getD j default).id = 8 → j = 1 :=
  (@registry_nonwrapping 64 (by decide) state_C20
    (@MTrace.step 64 (Call.plain 64) state_C20_first state_C20 8
      (Call.alloc 8 none (some 0x20000)) 10 0x20010
      (@Trace_MTrace 64 7 (by decide) (Call.plain 64) state_C20_first
        (after_trace (plainB_sound 64) _ (by decide)))
      (by decide) (plainB_sound 64 _ (by decide)) (show (8 : Nat) < W by decide)
      (ok_getOk_pair (0, init) _ 0x20010 (by decide) (by decide)))).2.2 8 1
    (by decide) (by decide) (by decide)

/-! ## Thread isolation -/

/-- A change confined to the `next` fields of the blocks `F` leaves every other block
unchanged, header included. -/
theorem NextFrame.whole {pagesize : Nat} {hp : Heap} {S F : List Nat} {m1 : Nat → Nat}
    (h : HeapOK pagesize hp S) (hF : ∀ b ∈ F, b ∈ S) (hfr : NextFrame F hp.mem m1)
    {b : Nat} (hb : b ∈ S) (hbF : b ∉ F) {x : Nat} (h1 : b ≤ x)
    (h2 : x < b + 16 + load64raw hp.mem (b + 8)) : m1 x = hp.mem x := by
  apply hfr
  intro c hc
  have hne : c ≠ b := fun e => hbF (e ▸ hc)
  have := h.disj c (hF c hc) b hb hne
  unfold Disj at this
  omega

/-- The heap part of `malloc` after the slot was found, for any set `S` of
well-placed blocks that contains the two lists of the slot: the lists of
the slot afterwards consist of old blocks of the slot and of blocks that
were not in `S`, and every block of `S` outside the two lists is unchanged. -/
theorem malloc_body_spec {pagesize : Nat} (hps : PageOK pagesize) {hp : Heap}
    {S lf lu : List Nat} {free used fuel bytes : Nat} {hint : Option Nat} {f : Nat × Heap}
    (hH : HeapOK pagesize hp S) (hf : IsList hp.mem free lf) (hu : IsList hp.mem used lu)
    (hlfS : ∀ b ∈ lf, b ∈ S) (hluS : ∀ b ∈ lu, b ∈ S) (hnd : (lf ++ lu).Nodup)
    (hsm : bytes + sizeofHeader + pagesize < W)
    (h1 : find_block pagesize hint fuel bytes free hp = Except.ok f) :
    (f.1 = 0 ∧ f.2 = hp) ∨
    (f.1 ≠ 0 ∧ ∀ (rb : Nat × Nat × Heap) (hp1 : Heap) (a : Nat × Heap),
      remove_block fuel f.1 free f.2 = Except.ok rb → store64 rb.2.2 f.1 0 = Except.ok hp1 →
      add_block fuel f.1 used hp1 = Except.ok a →
      ∃ S1 lf1, HeapOK pagesize a.2 S1 ∧ (∀ b ∈ S, b ∈ S1) ∧
        (∀ x ∈ hp.mapped, x ∈ a.2.mapped) ∧
        IsList a.2.mem rb.2.1 lf1 ∧ IsList a.2.mem a.1 (lu ++ [f.1]) ∧
        (lf1 ++ (lu ++ [f.1])).Nodup ∧
        (∀ b ∈ lf1 ++ (lu ++ [f.1]), b ∈ S1 ∧ (b ∈ lf ++ lu ∨ b ∉ S)) ∧
        (∀ b ∈ S, b ∉ lf → b ∉ lu → ∀ x, b ≤ x → x < b + 16 + load64raw hp.mem (b + 8) →
          a.2.mem x = hp.mem x)) := by
  have hdisj : ∀ b ∈ lu, b ∉ lf := fun b hb hbf => (List.nodup_append.mp hnd).2.2 hbf hb
  rcases find_block_spec hps hH hf hlfS hsm h1 with ⟨f0, fe, _⟩ |
    ⟨S1, g1, g2, g3, g4, g5, g6, g7, g8⟩
  · exact Or.inl ⟨f0, fe⟩
  · have hf0 : f.1 ≠ 0 := (g1.ok _ g3).pos
    refine Or.inr ⟨hf0, ?_⟩
    intro rb hp1 a h3 h5 h7
    obtain ⟨_, rfl⟩ := store64_ok h5
    have hlu1 : IsList f.2.mem used lu := by
      refine IsList_congr _ _ hu (fun b hb => ?_)
      apply load64raw_congr
      intro x hx1 hx2
      exact g6 b (hluS b hb) (hdisj b hb) x (by omega) (by omega)
    have hfq : f.1 ∈ lf ∨ f.1 ∉ S := by
      rcases g8 with ⟨_, _, _, _, q, _⟩ | ⟨_, q⟩
      · exact q
      · exact Or.inr q
    have hfu : f.1 ∉ lu := by
      rcases hfq with q | q
      · exact fun hin => hdisj _ hin q
      · exact fun hin => q (hluS _ hin)
    obtain ⟨lf1, hrem1, hrem2, hrem3, hrem4, hrem5⟩ : ∃ lf1,
        IsList rb.2.2.mem rb.2.1 lf1 ∧ rb.2.2.mapped = f.2.mapped ∧
        (∃ F, (∀ b ∈ F, b ∈ S1) ∧ (∀ b ∈ F, b ∉ lu ∧ b ≠ f.1 ∧ (b ∈ lf ∨ b ∉ S)) ∧
          NextFrame F f.2.mem rb.2.2.mem) ∧
        (∀ b ∈ lf1, b ∈ S1 ∧ b ∉ lu ∧ b ≠ f.1 ∧ (b ∈ lf ∨ b ∉ S)) ∧ lf1.Nodup := by
      rcases g8 with ⟨A1, B1, q1, q2, _, _⟩ | ⟨q1, _⟩
      · have hnd1 := IsList_nodup _ _ q1
        obtain ⟨nA, nB⟩ := nodup_mid1 hnd1
        have hAB : ∀ b ∈ A1 ++ B1, b ∈ S1 ∧ b ∉ lu ∧ b ≠ f.1 ∧ (b ∈ lf ∨ b ∉ S) := by
          intro b hb
          refine ⟨(q2 b hb).1, ?_, ?_, (q2 b hb).2⟩
          · rcases (q2 b hb).2 with q | q
            · exact fun hin => hdisj _ hin q
            · exact fun hin => q (hluS _ hin)
          · intro e
            rw [e] at hb
            rcases List.mem_append.mp hb with hb | hb
            · exact nA hb
            · exact nB hb
        obtain ⟨_, t2, t3, t4⟩ := remove_block_spec g1 q1
          (fun b hb => by
            rcases List.mem_append.mp hb with hb | hb
            · exact (hAB b (List.mem_append_left _ hb)).1
            · rcases List.mem_cons.mp hb with hb | hb
              · rw [hb]; exact g3
              · exact (hAB b (List.mem_append_right _ hb)).1) h3
        refine ⟨A1 ++ B1, t2, t3, ⟨A1, fun b hb => (hAB b (List.mem_append_left _ hb)).1,
          fun b hb => (hAB b (List.mem_append_left _ hb)).2, t4⟩, hAB, ?_⟩
        have := List.nodup_append.mp hnd1
        exact nodup_of_parts this.1 (List.nodup_cons.mp this.2.1).2
          (fun b hb hb2 => this.2.2 hb (List.mem_cons_of_mem _ hb2))
      · have e0 : free = 0 := by
          have := hf
          rw [q1] at this
          exact this
        rw [e0, remove_block_null] at h3
        injection h3 with h3; subst h3
        exact ⟨[], rfl, rfl, ⟨[], fun _ hb => absurd hb (List.not_mem_nil _),
          fun _ hb => absurd hb (List.not_mem_nil _), NextFrame.refl _ _⟩,
          fun _ hb => absurd hb (List.not_mem_nil _), List.nodup_nil⟩
    obtain ⟨F, hF1, hF2, hF3⟩ := hrem3
    generalize rb.2.2 = hp2 at *
    generalize rb.2.1 = free1 at *
    have hH2 : HeapOK pagesize hp2 S1 := NextFrame.heapOK g1 hF1 hF3 hrem2
    have hfr3 : NextFrame [f.1] hp2.mem (store64raw hp2.mem f.1 0) :=
      NextFrame.store 0 (List.mem_singleton.mpr rfl)
    have hf1S : ∀ b ∈ [f.1], b ∈ S1 := fun b hb => by rw [List.mem_singleton.mp hb]; exact g3
    have hH3 : HeapOK pagesize ⟨store64raw hp2.mem f.1 0, hp2.mapped⟩ S1 :=
      NextFrame.heapOK hH2 hf1S hfr3 rfl
    have hluS1 : ∀ b ∈ lu, b ∈ S1 := fun b hb => g2 b (hluS b hb)
    have hlu2 : IsList hp2.mem used lu :=
      IsList_nextframe g1 hlu1 hluS1 hF1 (fun b hb hbF => (hF2 b hbF).1 hb) hF3
    have hlu3 : IsList (store64raw hp2.mem f.1 0) used lu :=
      IsList_nextframe hH2 hlu2 hluS1 hf1S
        (fun b hb hbF => hfu (by have e := List.mem_singleton.mp hbF; rw [e] at hb; exact hb)) hfr3
    obtain ⟨a1, a2, a3⟩ := @add_block_spec pagesize ⟨store64raw hp2.mem f.1 0, hp2.mapped⟩ S1 lu
      _ f.1 fuel a hH3 hlu3 hluS1 g3 hfu
      (load64raw_store64raw_same _ _ 0 (by unfold W; norm_num)) h7
    have hH4 : HeapOK pagesize a.2 S1 := NextFrame.heapOK hH3 hluS1 a3 a2
    have hlf3 : IsList (store64raw hp2.mem f.1 0) free1 lf1 :=
      IsList_nextframe hH2 hrem1 (fun b hb => (hrem4 b hb).1) hf1S
        (fun b hb hbF => (hrem4 b hb).2.2.1 (List.mem_singleton.mp hbF)) hfr3
    have hlf4 : IsList a.2.mem free1 lf1 :=
      IsList_nextframe hH3 hlf3 (fun b hb => (hrem4 b hb).1) hluS1
        (fun b hb hbF => (hrem4 b hb).2.1 hbF) a3
    have hmapped : a.2.mapped = f.2.mapped := by rw [a2]; exact hrem2
    refine ⟨S1, lf1, hH4, g2, ?_, hlf4, a1, ?_, ?_, ?_⟩
    · intro x hx
      rw [hmapped]; exact g5 x hx
    · refine nodup_of_parts hrem5 (IsList_nodup _ _ a1) ?_
      intro b hb hb2
      rcases mem_app_snoc hb2 with hb2 | hb2
      · exact (hrem4 b hb).2.1 hb2
      · exact (hrem4 b hb).2.2.1 hb2
    · intro b hb
      rcases List.mem_append.mp hb with hb | hb
      · refine ⟨(hrem4 b hb).1, ?_⟩
        rcases (hrem4 b hb).2.2.2 with q | q
        · exact Or.inl (List.mem_append_left _ q)
        · exact Or.inr q
      · rcases mem_app_snoc hb with hb | hb
        · exact ⟨hluS1 b hb, Or.inl (List.mem_append_right _ hb)⟩
        · rw [hb]
          refine ⟨g3, ?_⟩
          rcases hfq with q | q
          · exact Or.inl (List.mem_append_left _ q)
          · exact Or.inr q
    · intro b hb hbf hbu x hx1 hx2
      have hb1 : b ∈ S1 := g2 b hb
      have e0 : f.2.mem x = hp.mem x := g6 b hb hbf x hx1 hx2
      have hs0 : load64raw f.2.mem (b + 8) = load64raw hp.mem (b + 8) :=
        load64raw_congr _ _ _ (fun y hy1 hy2 => g6 b hb hbf y (by omega) (by omega))
      have hbF : b ∉ F := by
        intro hin
        rcases (hF2 b hin).2.2 with q | q
        · exact hbf q
        · exact q hb
      have hbf1 : b ∉ [f.1] := by
        intro hin
        rw [List.mem_singleton.mp hin] at hb hbf
        rcases hfq with q | q
        · exact hbf q
        · exact q hb
      have e1 : hp2.mem x = f.2.mem x := hF3.whole g1 hF1 hb1 hbF hx1 (by rw [hs0]; exact hx2)
      have hs1 : load64raw hp2.mem (b + 8) = load64raw f.2.mem (b + 8) := hF3.size g1 hF1 hb1
      have e2 : store64raw hp2.mem f.1 0 x = hp2.mem x :=
        hfr3.whole hH2 hf1S hb1 hbf1 hx1 (by rw [hs1, hs0]; exact hx2)
      have hs2 : load64raw (store64raw hp2.mem f.1 0) (b + 8) = load64raw hp2.mem (b + 8) :=
        hfr3.size hH2 hf1S hb1
      have e3 : a.2.mem x = store64raw hp2.mem f.1 0 x :=
        a3.whole hH3 hluS1 hb1 hbu hx1 (by
          show x < b + 16 + load64raw (store64raw hp2.mem f.1 0) (b + 8)
          rw [hs2, hs1, hs0]; exact hx2)
      rw [e3, e2, e1, e0]

/-- The heap part of `free` on a block `h` of the used list, for any set `S` of
well-placed blocks that contains the two lists of the slot. -/
theorem free_body_spec {pagesize : Nat} {hp : Heap} {S lf lu : List Nat}
    {free used fuel h : Nat} (hH : HeapOK pagesize hp S) (hf : IsList hp.mem free lf)
    (hu : IsList hp.mem used lu) (hlfS : ∀ b ∈ lf, b ∈ S) (hluS : ∀ b ∈ lu, b ∈ S)
    (hnd : (lf ++ lu).Nodup) (hv : h ∈ lu) {rb : Nat × Nat × Heap} {hp1 : Heap} {a : Nat × Heap}
    (h1 : remove_block fuel h used hp = Except.ok rb)
    (h3 : store64 rb.2.2 h 0 = Except.ok hp1) (h5 : add_block fuel h free hp1 = Except.ok a) :
    HeapOK pagesize a.2 S ∧ a.2.mapped = hp.mapped ∧ IsList a.2.mem a.1 (lf ++ [h]) ∧
      IsList a.2.mem rb.2.1 (lu.erase h) ∧ ((lf ++ [h]) ++ lu.erase h).Nodup ∧
      (∀ b ∈ (lf ++ [h]) ++ lu.erase h, b ∈ lf ++ lu) ∧
      NextFrame (lf ++ lu) hp.mem a.2.mem := by
  obtain ⟨A, B, rfl⟩ := List.append_of_mem hv
  have hndu := IsList_nodup _ _ hu
  obtain ⟨hA, hB⟩ := nodup_mid1 hndu
  have herase : (A ++ h :: B).erase h = A ++ B := by
    rw [List.erase_append_right _ hA, List.erase_cons_head]
  rw [herase]
  have hhS : h ∈ S := hluS h hv
  have hlf : h ∉ lf := fun hin => (List.nodup_append.mp hnd).2.2 hin hv
  have hAS : ∀ b ∈ A, b ∈ S := fun b hb => hluS b (List.mem_append_left _ hb)
  have hABS : ∀ b ∈ A ++ B, b ∈ S := fun b hb => hluS b (mem_app_mid hb)
  have hhs : ∀ b ∈ [h], b ∈ S := fun b hb => by rw [List.mem_singleton.mp hb]; exact hhS
  have hABh : ∀ b ∈ A ++ B, b ≠ h := by
    intro b hb e
    rw [e] at hb
    rcases List.mem_append.mp hb with hb | hb
    · exact hA hb
    · exact hB hb
  obtain ⟨r1, r2, r3, r4⟩ := remove_block_spec hH hu hluS h1
  have hH1 : HeapOK pagesize rb.2.2 S := NextFrame.heapOK hH hAS r4 r3
  obtain ⟨_, rfl⟩ := store64_ok h3
  have hfr2 : NextFrame [h] rb.2.2.mem (store64raw rb.2.2.mem h 0) :=
    NextFrame.store 0 (List.mem_singleton.mpr rfl)
  have hH2 : HeapOK pagesize ⟨store64raw rb.2.2.mem h 0, rb.2.2.mapped⟩ S :=
    NextFrame.heapOK hH1 hhs hfr2 rfl
  have hlf1 : IsList rb.2.2.mem free lf :=
    IsList_nextframe hH hf hlfS hAS
      (fun b hb hbA => (List.nodup_append.mp hnd).2.2 hb (List.mem_append_left _ hbA)) r4
  have hlf2 : IsList (store64raw rb.2.2.mem h 0) free lf :=
    IsList_nextframe hH1 hlf1 hlfS hhs
      (fun b hb hbA => hlf (by rw [← List.mem_singleton.mp hbA]; exact hb)) hfr2
  obtain ⟨a1, a2, a3⟩ := add_block_spec hH2 hlf2 hlfS hhS hlf
    (load64raw_store64raw_same _ _ 0 (by unfold W; norm_num)) h5
  have hH3 : HeapOK pagesize a.2 S := NextFrame.heapOK hH2 hlfS a3 a2
  have hu2 : IsList (store64raw rb.2.2.mem h 0) rb.2.1 (A ++ B) :=
    IsList_nextframe hH1 r2 hABS hhs
      (fun b hb hbA => hABh b hb (List.mem_singleton.mp hbA)) hfr2
  have hu3 : IsList a.2.mem rb.2.1 (A ++ B) :=
    IsList_nextframe hH2 hu2 hABS hlfS
      (fun b hb hbA => (List.nodup_append.mp hnd).2.2 hbA (mem_app_mid hb)) a3
  refine ⟨hH3, by rw [a2]; exact r3, a1, hu3, ?_, ?_, ?_⟩
  · have : (lf ++ [h] ++ (A ++ B)).Perm (lf ++ (A ++ h :: B)) := by
      rw [List.append_assoc]
      refine List.Perm.append_left lf ?_
      simpa using (@List.perm_middle _ h A B).symm
    exact this.nodup_iff.mpr hnd
  · intro b hb
    rcases List.mem_append.mp hb with hb | hb
    · rcases mem_app_snoc hb with hb | hb
      · exact List.mem_append_left _ hb
      · rw [hb]; exact List.mem_append_right _ hv
    · exact List.mem_append_right _ (mem_app_mid hb)
  · intro x hx
    rw [a3 x (fun b hb => hx b (List.mem_append_left _ hb))]
    show store64raw rb.2.2.mem h 0 x = _
    rw [store64raw_other _ _ _ _ (by have := hx h (List.mem_append_right _ hv); omega),
      r4 x (fun b hb => hx b (List.mem_append_right _ (List.mem_append_left _ hb)))]

/-- Rebuilding the invariant after a call that worked on row `i` only. -/
theorem MInv.update {pagesize : Nat} {s s1 : State} {S S1 : List Nat} {F U : Nat → List Nat}
    (hM : MInv pagesize s S F U) {i : Nat} {lf1 lu1 : List Nat}
    (hreg : Registry (pagesize / sizeofThreadTable) s1) (hs1 : s1.slots ≠ [])
    (hacc : accessible s1.heap s1.thread_tbl sizeofThreadTable)
    (hrow : ∀ j, j ≠ i → (s1.slots.getD j default).free = (s.slots.getD j default).free ∧
      (s1.slots.getD j default).used = (s.slots.getD j default).used)
    (hH : HeapOK pagesize s1.heap S1) (hSS : ∀ b ∈ S, b ∈ S1)
    (hf1 : IsList s1.heap.mem (s1.slots.getD i default).free lf1)
    (hu1 : IsList s1.heap.mem (s1.slots.getD i default).used lu1)
    (hnd : (lf1 ++ lu1).Nodup)
    (hnew : ∀ b ∈ lf1 ++ lu1, b ∈ S1 ∧ (b ∈ F i ++ U i ∨ b ∉ S))
    (hfr : ∀ b ∈ S, b ∉ F i → b ∉ U i → ∀ x, b ≤ x →
      x < b + 16 + load64raw s.heap.mem (b + 8) → s1.heap.mem x = s.heap.mem x) :
    MInv pagesize s1 S1 (fun j => if j = i then lf1 else F j)
      (fun j => if j = i then lu1 else U j) := by
  have hother : ∀ j, j ≠ i → ∀ b ∈ F j ++ U j,
      load64raw s1.heap.mem b = load64raw s.heap.mem b := by
    intro j hji b hb
    have hbi := hM.sep j i hji b hb
    apply load64raw_congr
    intro x hx1 hx2
    exact hfr b (hM.sub j b hb) (fun h => hbi (List.mem_append_left _ h))
      (fun h => hbi (List.mem_append_right _ h)) x hx1 (by omega)
  refine ⟨hreg, fun _ => hacc, fun h => absurd h hs1, ?_, ?_, ?_, ?_, ?_, hH⟩
  · intro j
    by_cases hji : j = i
    · subst hji
      simp only [if_true]
      exact hf1
    · simp only [if_neg hji]
      rw [(hrow j hji).1]
      exact IsList_congr _ _ (hM.isf j)
        (fun b hb => hother j hji b (List.mem_append_left _ hb))
  · intro j
    by_cases hji : j = i
    · subst hji
      simp only [if_true]
      exact hu1
    · simp only [if_neg hji]
      rw [(hrow j hji).2]
      exact IsList_congr _ _ (hM.isu j)
        (fun b hb => hother j hji b (List.mem_append_right _ hb))
  · intro j b hb
    by_cases hji : j = i
    · subst hji
      simp only [if_true] at hb
      exact (hnew b hb).1
    · simp only [if_neg hji] at hb
      exact hSS b (hM.sub j b hb)
  · intro j
    by_cases hji : j = i
    · subst hji
      simp only [if_true]
      exact hnd
    · simp only [if_neg hji]
      exact hM.nodup j
  · intro j k hjk b hb
    by_cases hji : j = i
    · have hki : k ≠ i := fun e => hjk (hji.trans e.symm)
      subst hji
      simp only [if_true] at hb
      simp only [if_neg hki]
      rcases (hnew b hb).2 with q | q
      · exact hM.sep j k hjk b q
      · exact fun hin => q (hM.sub k b hin)
    · simp only [if_neg hji] at hb
      by_cases hki : k = i
      · subst hki
        simp only [if_true]
        intro hin
        rcases (hnew b hin).2 with q | q
        · exact hM.sep j k hjk b hb q
        · exact q (hM.sub j b hb)
      · simp only [if_neg hki]
        exact hM.sep j k hjk b hb

/-- `malloc` after the thread table exists, in a state of several threads: the
invariant is kept, and the rows, lists and blocks of the other threads are
unchanged. -/
theorem malloc_main_minv {pagesize : Nat} (hps : PageOK pagesize)
    (hnum : 0 < pagesize / sizeofThreadTable) {tid : Int} (htid : tid ≠ -1)
    {blkHint : Option Nat} {fuel bytes : Nat} {s : State} {r : Nat × State}
    {S : List Nat} {F U : Nat → List Nat} (hM : MInv pagesize s S F U)
    (h0 : s.thread_tbl ≠ 0) (hR : RowsOK (pagesize / sizeofThreadTable) s.slots)
    (hsm : bytes + sizeofHeader + pagesize < W)
    (he : malloc_main pagesize tid blkHint fuel bytes s = Except.ok r) :
    ∃ S1 F1 U1, MInv pagesize r.2 S1 F1 U1 ∧
      ∀ j, j < pagesize / sizeofThreadTable → (s.slots.getD j default).id ≠ tid →
        (s.slots.getD j default).id ≠ -1 →
        r.2.slots.getD j default = s.slots.getD j default ∧ F1 j = F j ∧ U1 j = U j ∧
        ∀ b ∈ F j ++ U j, ∀ x, b ≤ x → x < b + 16 + load64raw s.heap.mem (b + 8) →
          r.2.heap.mem x = s.heap.mem x := by
  have hacc := (malloc_main_slots he).1 (Nat.ne_of_gt hnum)
  obtain ⟨g1, g2, _⟩ := malloc_main_registry htid h0 hR he
  have hreg : Registry (pagesize / sizeofThreadTable) r.2 := Or.inr ⟨g1, g2⟩
  have hs1 : r.2.slots ≠ [] := by
    intro e
    have := g2.1
    rw [e] at this
    simp at this
    omega
  obtain ⟨q1, q2, q3, q4, _, q6⟩ := hR.scan htid
  unfold malloc_main at he
  simp only at he
  rw [if_neg (fun hc => hc.2 hacc)] at he
  generalize malloc_scan tid s.slots (pagesize / sizeofThreadTable) 0 = sc at he q1 q2 q3 q4 q6
  by_cases hfull : sc.1 = pagesize / sizeofThreadTable
  · rw [if_pos hfull] at he
    injection he with he; subst he
    have e := q6 (Or.inl hfull)
    refine ⟨S, F, U, ?_, ?_⟩
    · show MInv pagesize ⟨s.heap, s.thread_tbl, sc.2⟩ S F U
      rw [e]
      exact hM
    · intro j _ _ _
      show sc.2.getD j default = s.slots.getD j default ∧ _
      rw [e]
      exact ⟨rfl, rfl, rfl, fun _ _ _ _ _ => rfl⟩
  · rw [if_neg hfull] at he
    obtain ⟨hi, hid⟩ := q4 hfull
    have hilen : sc.1 < sc.2.length := by rw [q1.1]; exact hi
    have hfe : IsList s.heap.mem (sc.2.getD sc.1 default).free (F sc.1) := by
      rw [(q3 sc.1).2]; exact hM.isf sc.1
    have hue : IsList s.heap.mem (sc.2.getD sc.1 default).used (U sc.1) := by
      rw [(q3 sc.1).1]; exact hM.isu sc.1
    have hji : ∀ j, j < pagesize / sizeofThreadTable → (s.slots.getD j default).id ≠ tid →
        (s.slots.getD j default).id ≠ -1 → j ≠ sc.1 ∧ sc.2.getD j default = s.slots.getD j default := by
      intro j hj hjt hjc
      have e := q2 j hj hjc
      refine ⟨?_, e⟩
      intro ej
      rw [ej] at e
      rw [ej, ← e, hid] at hjt
      exact hjt rfl
    obtain ⟨f, h1, h2⟩ := bind_ok he
    rcases malloc_body_spec hps hM.heap hfe hue
      (fun b hb => hM.sub sc.1 b (List.mem_append_left _ hb))
      (fun b hb => hM.sub sc.1 b (List.mem_append_right _ hb)) (hM.nodup sc.1) hsm h1 with
      ⟨f0, fe⟩ | ⟨hf0, hbody⟩
    · rw [if_pos f0] at h2
      injection h2 with h2; subst h2
      have hMu := @MInv.update pagesize s ⟨f.2, s.thread_tbl, sc.2⟩ S S F U hM sc.1
        (F sc.1) (U sc.1) hreg hs1 (by rw [fe]; exact hacc) (fun j _ => ⟨(q3 j).2, (q3 j).1⟩)
        (by rw [fe]; exact hM.heap) (fun _ hb => hb) (by rw [fe]; exact hfe)
        (by rw [fe]; exact hue) (hM.nodup sc.1)
        (fun b hb => ⟨hM.sub sc.1 b hb, Or.inl hb⟩) (fun _ _ _ _ _ _ _ => by rw [fe])
      refine ⟨_, _, _, hMu, ?_⟩
      intro j hj hjt hjc
      obtain ⟨n1, n2⟩ := hji j hj hjt hjc
      refine ⟨n2, if_neg n1, if_neg n1, fun _ _ _ _ _ => ?_⟩
      show f.2.mem _ = _
      rw [fe]
    · rw [if_neg hf0] at h2
      obtain ⟨rb, h3, h4⟩ := bind_ok h2
      obtain ⟨hp1, h5, h6⟩ := bind_ok h4
      obtain ⟨a, h7, h8⟩ := bind_ok h6
      injection h8 with h8; subst h8
      obtain ⟨S1, lf1, b1, b2, b3, b4, b5, b6, b7, b8⟩ := hbody rb hp1 a h3 h5 h7
      have hget : (sc.2.set sc.1 ⟨(sc.2.getD sc.1 default).id, a.1, rb.2.1⟩).getD sc.1 default =
          ⟨(sc.2.getD sc.1 default).id, a.1, rb.2.1⟩ := by
        rw [getD_set, if_pos ⟨rfl, hilen⟩]
      have hgetj : ∀ j, j ≠ sc.1 →
          (sc.2.set sc.1 ⟨(sc.2.getD sc.1 default).id, a.1, rb.2.1⟩).getD j default =
            sc.2.getD j default := by
        intro j hj
        rw [getD_set, if_neg (fun hc => hj hc.1.symm)]
      have hMu := @MInv.update pagesize s
        ⟨a.2, s.thread_tbl, sc.2.set sc.1 ⟨(sc.2.getD sc.1 default).id, a.1, rb.2.1⟩⟩ S S1 F U hM
        sc.1 lf1 (U sc.1 ++ [f.1]) hreg hs1 (accessible_of_mapped_subset b3 hacc)
        (fun j hj => by
          show ((sc.2.set sc.1 _).getD j default).free = _ ∧ ((sc.2.set sc.1 _).getD j default).used = _
          rw [hgetj j hj]
          exact ⟨(q3 j).2, (q3 j).1⟩)
        b1 b2
        (by
          show IsList a.2.mem ((sc.2.set sc.1 _).getD sc.1 default).free lf1
          rw [hget]; exact b4)
        (by
          show IsList a.2.mem ((sc.2.set sc.1 _).getD sc.1 default).used (U sc.1 ++ [f.1])
          rw [hget]; exact b5)
        b6 b7 b8
      refine ⟨_, _, _, hMu, ?_⟩
      intro j hj hjt hjc
      obtain ⟨n1, n2⟩ := hji j hj hjt hjc
      refine ⟨?_, if_neg n1, if_neg n1, ?_⟩
      · show (sc.2.set sc.1 _).getD j default = _
        rw [hgetj j n1]; exact n2
      · intro b hb x hx1 hx2
        have hbi := hM.sep j sc.1 n1 b hb
        exact b8 b (hM.sub j b hb) (fun h => hbi (List.mem_append_left _ h))
          (fun h => hbi (List.mem_append_right _ h)) x hx1 hx2

theorem init_slots_heads (tid : Int) (num : Nat) : ∀ i,
    ((init_slots tid num).getD i default).free = 0 ∧
      ((init_slots tid num).getD i default).used = 0 := by
  intro i
  cases i with
  | zero => exact ⟨rfl, rfl⟩
  | succ j =>
    show ((List.replicate (num - 1) (⟨-1, 0, 0⟩ : ThreadTable)).getD j default).free = 0 ∧
      ((List.replicate (num - 1) (⟨-1, 0, 0⟩ : ThreadTable)).getD j default).used = 0
    rw [List.getD_eq_getElem?_getD, List.getElem?_replicate]
    split
    · exact ⟨rfl, rfl⟩
    · exact ⟨rfl, rfl⟩

/-- `malloc` with non-wrapping request size in a state of several threads: the
invariant is kept, and the rows, lists and blocks of the other threads are
unchanged. -/
theorem malloc_minv {pagesize : Nat} (hps : PageOK pagesize)
    (hnum : 0 < pagesize / sizeofThreadTable) {tid : Int} (htid : tid ≠ -1)
    {tblHint blkHint : Option Nat} {fuel bytes : Nat} {s : State} {r : Nat × State}
    {S : List Nat} {F U : Nat → List Nat} (hM : MInv pagesize s S F U)
    (hsm : bytes + sizeofHeader + pagesize < W)
    (he : malloc pagesize tid tblHint blkHint fuel bytes s = Except.ok r) :
    ∃ S1 F1 U1, MInv pagesize r.2 S1 F1 U1 ∧
      ∀ j, j < s.slots.length → (s.slots.getD j default).id ≠ tid →
        (s.slots.getD j default).id ≠ -1 →
        r.2.slots.getD j default = s.slots.getD j default ∧ F1 j = F j ∧ U1 j = U j ∧
        ∀ b ∈ F j ++ U j, ∀ x, b ≤ x → x < b + 16 + load64raw s.heap.mem (b + 8) →
          r.2.heap.mem x = s.heap.mem x := by
  unfold malloc at he
  rcases malloc_init_cases pagesize tid tblHint s with ⟨h0, hc⟩ | ⟨h0, hc⟩ |
    ⟨h0, a, c1, c2, c3, c4, hc⟩
  · rw [hc] at he
    rcases hM.reg with ⟨h1, h2 | h2⟩ | ⟨_, h2⟩
    · exact absurd h2 h0
    · have := (malloc_main_slots he).1 (Nat.ne_of_gt hnum)
      rw [h2] at this
      exact absurd this (not_accessible_failed _ (by unfold sizeofThreadTable; omega))
    · obtain ⟨S1, F1, U1, m1, m2⟩ := malloc_main_minv hps hnum htid hM h0 h2 hsm he
      exact ⟨S1, F1, U1, m1, fun j hj => m2 j (by rw [← h2.1]; exact hj)⟩
  · rw [hc] at he
    simp only [pure, Except.pure] at he
    injection he with he; subst he
    have hs : s.slots = [] := by
      rcases hM.reg with ⟨h1, _⟩ | ⟨h1, _⟩
      · exact h1
      · exact absurd h0 h1
    refine ⟨S, F, U, ⟨Or.inl ⟨hs, Or.inr rfl⟩, fun h => absurd hs h, hM.dead, hM.isf, hM.isu,
      hM.sub, hM.nodup, hM.sep, hM.heap⟩, ?_⟩
    intro j hj
    rw [hs] at hj
    exact absurd hj (Nat.not_lt_zero _)
  · rw [hc] at he
    simp only at he
    have hs : s.slots = [] := by
      rcases hM.reg with ⟨h1, _⟩ | ⟨h1, _⟩
      · exact h1
      · exact absurd h0 h1
    have hS := hM.dead hs
    have hage : pagesize ≤ a := Nat.le_of_dvd c1 (Nat.dvd_of_mod_eq_zero c2)
    have h24 : sizeofThreadTable ≤ pagesize := by
      have := Nat.div_mul_le_self pagesize sizeofThreadTable
      have h3 : 1 * sizeofThreadTable ≤ pagesize / sizeofThreadTable * sizeofThreadTable :=
        Nat.mul_le_mul_right _ hnum
      omega
    have hM1 : MInv pagesize
        ⟨⟨fun x => if a ≤ x ∧ x < a + pagesize then 0 else s.heap.mem x,
          (a, pagesize) :: s.heap.mapped⟩, a, init_slots tid (pagesize / sizeofThreadTable)⟩
        [] (fun _ => []) (fun _ => []) := by
      have hrows := @init_slots_rows (pagesize / sizeofThreadTable) hnum tid htid
      refine ⟨Or.inr ⟨Nat.ne_of_gt c1, hrows⟩, fun _ => ?_, fun _ => rfl, ?_, ?_, ?_, ?_, ?_, ?_⟩
      · exact accessible_of_reg (List.mem_cons_self _ _) (Nat.le_refl _)
          (show a + sizeofThreadTable ≤ a + pagesize by omega) (show a + pagesize ≤ W by omega)
      · intro i
        show IsList _ ((init_slots tid (pagesize / sizeofThreadTable)).getD i default).free []
        rw [(init_slots_heads tid _ i).1]
        rfl
      · intro i
        show IsList _ ((init_slots tid (pagesize / sizeofThreadTable)).getD i default).used []
        rw [(init_slots_heads tid _ i).2]
        rfl
      · intro i b hb
        exact absurd hb (List.not_mem_nil _)
      · intro i
        exact List.nodup_nil
      · intro i j _ b hb
        exact absurd hb (List.not_mem_nil _)
      · refine ⟨?_, fun b hb => absurd hb (List.not_mem_nil _),
          fun b hb => absurd hb (List.not_mem_nil _)⟩
        intro r hr
        rcases List.mem_cons.mp hr with e | hr
        · rw [e]; exact ⟨hage, c3⟩
        · exact hM.heap.regs r hr
    obtain ⟨S1, F1, U1, m1, _⟩ := malloc_main_minv hps hnum htid hM1 (Nat.ne_of_gt c1)
      (init_slots_rows hnum htid) hsm he
    refine ⟨S1, F1, U1, m1, ?_⟩
    intro j hj
    rw [hs] at hj
    exact absurd hj (Nat.not_lt_zero _)

/-- `free` of a valid pointer in a state of several threads: the invariant is
kept, and the rows, lists and blocks of the other threads are unchanged. -/
theorem free_minv {pagesize : Nat} (hnum : 0 < pagesize / sizeofThreadTable) {tid : Int}
    (htid : tid ≠ -1) {fuel p : Nat} {s s1 : State} {S : List Nat} {F U : Nat → List Nat}
    (hM : MInv pagesize s S F U) (hv : ValidPtr pagesize tid s p)
    (he : free pagesize tid fuel p s = Except.ok s1) :
    ∃ F1 U1, MInv pagesize s1 S F1 U1 ∧
      ∀ j, j < s.slots.length → (s.slots.getD j default).id ≠ tid →
        (s.slots.getD j default).id ≠ -1 →
        s1.slots.getD j default = s.slots.getD j default ∧ F1 j = F j ∧ U1 j = U j ∧
        ∀ b ∈ F j ++ U j, ∀ x, b ≤ x → x < b + 16 + load64raw s.heap.mem (b + 8) →
          s1.heap.mem x = s.heap.mem x := by
  obtain ⟨hp0, _, hslot, hon⟩ := hv
  have hreg1 := (free_registry htid hM.reg he).1
  unfold HasSlot at hslot
  unfold slotOf at hon
  have hin : hdr p ∈ U (free_scan tid s.slots (pagesize / sizeofThreadTable) 0) :=
    (IsList_onList (hM.isu _) _).mp hon
  rcases free_scan_spec tid s.slots (pagesize / sizeofThreadTable) 0 with ⟨e, _⟩ | ⟨_, m2, m3, _⟩
  · rw [Nat.zero_add] at e
    exact absurd e hslot
  unfold free at he
  simp only at he
  rw [if_neg hp0] at he
  split at he
  · simp at he
  rename_i hchk
  have hacc : accessible s.heap s.thread_tbl sizeofThreadTable := by
    by_contra hn
    exact hchk ⟨Nat.ne_of_gt hnum, hn⟩
  generalize free_scan tid s.slots (pagesize / sizeofThreadTable) 0 = i at *
  generalize hdr p = h at *
  have hrows : RowsOK (pagesize / sizeofThreadTable) s.slots := by
    rcases hM.reg with ⟨h1, _⟩ | ⟨_, h2⟩
    · exfalso
      have := hM.isu i
      rw [h1] at this
      have e : U i = [] := IsList_zero this
      rw [e] at hin
      exact absurd hin (List.not_mem_nil _)
    · exact h2
  have hilen : i < s.slots.length := by rw [hrows.1]; omega
  obtain ⟨rb, h3, h4⟩ := bind_ok he
  obtain ⟨hp1, h5, h6⟩ := bind_ok h4
  obtain ⟨a, h7, h8⟩ := bind_ok h6
  injection h8 with h8; subst h8
  obtain ⟨b1, b2, b3, b4, b5, b6, b7⟩ := free_body_spec hM.heap (hM.isf i) (hM.isu i)
    (fun b hb => hM.sub i b (List.mem_append_left _ hb))
    (fun b hb => hM.sub i b (List.mem_append_right _ hb)) (hM.nodup i) hin h3 h5 h7
  have hs1 : s.slots.set i ⟨(s.slots.getD i default).id, rb.2.1, a.1⟩ ≠ [] := by
    intro e
    have : (s.slots.set i ⟨(s.slots.getD i default).id, rb.2.1, a.1⟩).length = 0 := by rw [e]; rfl
    rw [List.length_set] at this
    omega
  have hget : (s.slots.set i ⟨(s.slots.getD i default).id, rb.2.1, a.1⟩).getD i default =
      ⟨(s.slots.getD i default).id, rb.2.1, a.1⟩ := by
    rw [getD_set, if_pos ⟨rfl, hilen⟩]
  have hgetj : ∀ j, j ≠ i →
      (s.slots.set i ⟨(s.slots.getD i default).id, rb.2.1, a.1⟩).getD j default =
        s.slots.getD j default := by
    intro j hj
    rw [getD_set, if_neg (fun hc => hj hc.1.symm)]
  have hfr : ∀ b ∈ S, b ∉ F i → b ∉ U i → ∀ x, b ≤ x →
      x < b + 16 + load64raw s.heap.mem (b + 8) → a.2.mem x = s.heap.mem x := by
    intro b hb hbf hbu x hx1 hx2
    exact b7.whole hM.heap (fun c hc => hM.sub i c hc) hb
      (fun hc => (List.mem_append.mp hc).elim hbf hbu) hx1 hx2
  have hMu := @MInv.update pagesize s
    ⟨a.2, s.thread_tbl, s.slots.set i ⟨(s.slots.getD i default).id, rb.2.1, a.1⟩⟩ S S F U hM
    i (F i ++ [h]) ((U i).erase h) hreg1 hs1 (accessible_mapped b2 hacc)
    (fun j hj => by
      show ((s.slots.set i _).getD j default).free = _ ∧ ((s.slots.set i _).getD j default).used = _
      rw [hgetj j hj]
      exact ⟨rfl, rfl⟩)
    b1 (fun _ hb => hb)
    (by
      show IsList a.2.mem ((s.slots.set i _).getD i default).free (F i ++ [h])
      rw [hget]; exact b3)
    (by
      show IsList a.2.mem ((s.slots.set i _).getD i default).used ((U i).erase h)
      rw [hget]; exact b4)
    b5 (fun b hb => ⟨hM.sub i b (b6 b hb), Or.inl (b6 b hb)⟩) hfr
  refine ⟨_, _, hMu, ?_⟩
  intro j hj hjt hjc
  have n1 : j ≠ i := by
    intro e
    rw [e] at hjt
    exact hjt m3
  refine ⟨?_, if_neg n1, if_neg n1, ?_⟩
  · show (s.slots.set i _).getD j default = _
    exact hgetj j n1
  · intro b hb x hx1 hx2
    have hbi := hM.sep j i n1 b hb
    exact hfr b (hM.sub j b hb) (fun h => hbi (List.mem_append_left _ h))
      (fun h => hbi (List.mem_append_right _ h)) x hx1 hx2

theorem MInv_init (pagesize : Nat) : MInv pagesize init [] (fun _ => []) (fun _ => []) := by
  refine ⟨Or.inl ⟨rfl, Or.inl rfl⟩, fun h => absurd rfl h, fun _ => rfl, fun _ => rfl,
    fun _ => rfl, ?_, fun _ => List.nodup_nil, ?_, ?_, ?_, ?_⟩
  · intro i b hb; exact absurd hb (List.not_mem_nil _)
  · intro i j _ b hb; exact absurd hb (List.not_mem_nil _)
  · intro r hr; exact absurd hr (List.not_mem_nil _)
  · intro b hb; exact absurd hb (List.not_mem_nil _)
  · intro a ha; exact absurd ha (List.not_mem_nil _)

/-- One alloc or release step of a thread keeps the invariant and leaves the rows, lists
and blocks of the other threads unchanged. -/
theorem run_minv {pagesize : Nat} (hps : PageOK pagesize)
    (hnum : 0 < pagesize / sizeofThreadTable) {tid : Int} (htid : tid ≠ -1) {c : Call}
    (hc : c.plain pagesize) {fuel p : Nat} {s s1 : State} {S : List Nat} {F U : Nat → List Nat}
    (hM : MInv pagesize s S F U) (hwf : c.wf pagesize tid s)
    (hrun : c.run pagesize tid fuel s = Except.ok (p, s1)) :
    ∃ S1 F1 U1, MInv pagesize s1 S1 F1 U1 ∧
      ∀ j, j < s.slots.length → (s.slots.getD j default).id ≠ tid →
        (s.slots.getD j default).id ≠ -1 →
        s1.slots.getD j default = s.slots.getD j default ∧ F1 j = F j ∧ U1 j = U j ∧
        ∀ b ∈ F j ++ U j, ∀ x, b ≤ x → x < b + 16 + load64raw s.heap.mem (b + 8) →
          s1.heap.mem x = s.heap.mem x := by
  cases c with
  | alloc bytes t b => exact malloc_minv hps hnum htid hM hc.2 hrun
  | zero_alloc count unit t b => exact absurd hc.1 (fun h => h)
  | resize ptr bytes t b => exact absurd hc.1 (fun h => h)
  | release ptr =>
    have hrun2 : (free pagesize tid fuel ptr s).map (fun s1 => (0, s1)) = Except.ok (p, s1) := hrun
    cases hf : free pagesize tid fuel ptr s with
    | error e => rw [hf] at hrun2; cases hrun2
    | ok s2 =>
      rw [hf] at hrun2
      injection hrun2 with e
      injection e with e1 e2
      rw [← e2]
      obtain ⟨F1, U1, m1, m2⟩ := free_minv hnum htid hM hwf hf
      exact ⟨S, F1, U1, m1, m2⟩

theorem MTrace_minv {pagesize : Nat} (hps : PageOK pagesize)
    (hnum : 0 < pagesize / sizeofThreadTable) {s : State}
    (h : MTrace pagesize (Call.plain pagesize) s) : ∃ S F U, MInv pagesize s S F U := by
  induction h with
  | init => exact ⟨_, _, _, MInv_init pagesize⟩
  | @step s0 s1 tid c fuel p _ htid hPc hwf hrun ih =>
    obtain ⟨S, F, U, hM⟩ := ih
    obtain ⟨S1, F1, U1, m1, _⟩ := run_minv hps hnum htid hPc hM hwf hrun
    exact ⟨S1, F1, U1, m1⟩

/-- Thread isolation for non-wrapping request sizes.  With each public call one
atomic step and no thread id equal to `-1`, in every state reached through
alloc and release calls of any threads (release only on pointers valid for
the caller, non-wrapping request sizes, pages a power of two holding at least
one table row): an alloc by thread `tid`, or a release by `tid` of a pointer
valid for `tid`, changes nothing that belongs to another thread.  For every
row `j` claimed by another thread, the row (id, used head, free head) is the
same afterwards, every byte of every block on its two lists (header and
payload) is unchanged, and the blocks reachable from its free and used heads
are exactly the same as before. -/
theorem isolation_nonwrapping {pagesize : Nat} (hps : PageOK pagesize)
    (hnum : 0 < pagesize / sizeofThreadTable) {s s1 : State} {tid : Int} {c : Call}
    {fuel p : Nat} (hs : MTrace pagesize (Call.plain pagesize) s) (htid : tid ≠ -1)
    (hc : c.plain pagesize) (hwf : c.wf pagesize tid s)
    (hrun : c.run pagesize tid fuel s = Except.ok (p, s1)) :
    ∀ j, j < s.slots.length → (s.slots.getD j default).id ≠ tid →
      (s.slots.getD j default).id ≠ -1 →
      s1.slots.getD j default = s.slots.getD j default ∧
      (∀ b, OnList s.heap.mem (s.slots.getD j default).free b ∨
          OnList s.heap.mem (s.slots.getD j default).used b →
        ∀ x, b ≤ x → x < b + sizeofHeader + load64raw s.heap.mem (b + 8) →
          s1.heap.mem x = s.heap.mem x) ∧
      (∀ b, OnList s1.heap.mem (s1.slots.getD j default).free b ↔
        OnList s.heap.mem (s.slots.getD j default).free b) ∧
      (∀ b, OnList s1.heap.mem (s1.slots.getD j default).used b ↔
        OnList s.heap.mem (s.slots.getD j default).used b) := by
  obtain ⟨S, F, U, hM⟩ := MTrace_minv hps hnum hs
  obtain ⟨S1, F1, U1, hM1, hsame⟩ := run_minv hps hnum htid hc hM hwf hrun
  intro j hj hjt hjc
  obtain ⟨e1, e2, e3, e4⟩ := hsame j hj hjt hjc
  refine ⟨e1, ?_, ?_, ?_⟩
  · intro b hb x hx1 hx2
    apply e4 b _ x hx1 (by unfold sizeofHeader at hx2; exact hx2)
    rcases hb with hb | hb
    · exact List.mem_append_left _ ((IsList_onList (hM.isf j) b).mp hb)
    · exact List.mem_append_right _ ((IsList_onList (hM.isu j) b).mp hb)
  · intro b
    rw [IsList_onList (hM1.isf j) b, IsList_onList (hM.isf j) b, e2]
  · intro b
    rw [IsList_onList (hM1.isu j) b, IsList_onList (hM.isu j) b, e3]

/-- Row 0 of thread 7 and its block `0x10000` across the `alloc(8)` of thread 8. -/
theorem isolation_nonwrapping_example :
    state_C20.slots.getD 0 default = state_C20_first.slots.getD 0 default ∧
      (∀ b, OnList state_C20_first.heap.mem (state_C20_first.slots.getD 0 default).free b ∨
          OnList state_C20_first.heap.mem (state_C20_first.slots.getD 0 default).used b →
        ∀ x, b ≤ x → x < b + sizeofHeader + load64raw state_C20_first.heap.mem (b + 8) →
          state_C20.heap.mem x = state_C20_first.heap.mem x) ∧
      (∀ b, OnList state_C20.heap.mem (state_C20.slots.getD 0 default).free b ↔
        OnList state_C20_first.heap.mem (state_C20_first.slots.getD 0 default).free b) ∧
      (∀ b, OnList state_C20.heap.mem (state_C20.slots.getD 0 default).used b ↔
        OnList state_C20_first.heap.mem (state_C20_first.slots.getD 0 default).used b) :=
  @isolation_nonwrapping 64 ⟨6, by decide, by decide, by decide⟩ (by decide) state_C20_first
    state_C20 8 (Call.alloc 8 none (some 0x20000)) 10 0x20010
    (@Trace_MTrace 64 7 (by decide) (Call.plain 64) state_C20_first
      (after_trace (plainB_sound 64) _ (by decide)))
    (by decide) (plainB_sound 64 _ (by decide)) (show (8 : Nat) < W by decide)
    (ok_getOk_pair (0, init) _ 0x20010 (by decide) (by decide))
    0 (by decide) (by decide) (by decide)

theorem mexec_trace {pagesize : Nat} {fuel : Nat} {P : Call → Prop} {Pb : Call → Bool}
    (hP : ∀ c, Pb c = true → P c) :
    ∀ (cs : List (Int × Call)) (s s1 : State), MTrace pagesize P s →
      mexec pagesize fuel Pb cs s = some s1 → MTrace pagesize P s1 := by
  intro cs
  induction cs with
  | nil =>
    intro s s1 ht h
    simp only [mexec] at h
    injection h with h
    rw [← h]; exact ht
  | cons tc cs ih =>
    intro s s1 ht h
    unfold mexec at h
    split at h
    · rename_i hc
      obtain ⟨h1, h2, h3⟩ := hc
      cases hr : tc.2.run pagesize tc.1 fuel s with
      | error e => rw [hr] at h; cases h
      | ok r =>
        rw [hr] at h
        exact ih r.2 s1 (MTrace.step ht h1 (hP _ h2) (wfB_sound h3) hr) h
    · cases h

theorem mafter_trace {pagesize : Nat} {fuel : Nat} {P : Call → Prop} {Pb : Call → Bool}
    (hP : ∀ c, Pb c = true → P c) (cs : List (Int × Call))
    (h : (mexec pagesize fuel Pb cs init).isSome = true) :
    MTrace pagesize P (mafter pagesize fuel Pb cs) := by
  obtain ⟨s, hs⟩ := Option.isSome_iff_exists.mp h
  unfold mafter
  rw [hs]
  exact mexec_trace hP cs init s MTrace.init hs

/-- C13 (failing input): with each call one atomic step, thread 7 calls
`alloc(8)`, `alloc(8)` and `release` of the second pointer, thread 8 calls
`alloc(8)` (its block is `0x31000`, of size 8, on the used list of row 1), and
thread 7 calls `alloc(2^64 - 8)` and `release` of the pointer it got; every
release is given a pointer valid for the caller.  The next `alloc(69616)` of
thread 7 returns `0x20010`, and afterwards the size field of the block
`0x31000` of thread 8 holds 61440 instead of 8, and that block, still on the
used list of thread 8, is reachable from the free head of thread 7. -/
theorem C13_alloc_rewrites_other_thread :
    MTrace 4096 Call.basic state_C13
      ∧ (state_C13.slots.getD 0 default).id = 7 ∧ (state_C13.slots.getD 1 default).id = 8
      ∧ OnList state_C13.heap.mem (state_C13.slots.getD 1 default).used 0x31000
      ∧ load64raw state_C13.heap.mem (0x31000 + 8) = 8
      ∧ ∃ s1, malloc 4096 7 none none 20 69616 state_C13 = Except.ok (0x20010, s1)
          ∧ load64raw s1.heap.mem (0x31000 + 8) = 61440
          ∧ OnList s1.heap.mem (s1.slots.getD 1 default).used 0x31000
          ∧ OnList s1.heap.mem (s1.slots.getD 0 default).free 0x31000 := by
  refine ⟨mafter_trace basicB_sound _ (by decide), by decide, by decide,
    ⟨by decide, 0, by decide⟩, by decide, _, rfl, by decide, ⟨by decide, 0, by decide⟩,
    ⟨by decide, 3, by decide⟩⟩

/-! ## Release of a pointer that is not in the used list -/

/-- The slot loop of `free` only looks at the ids of the rows. -/
theorem free_scan_congr {tid : Int} {slots slots1 : List ThreadTable}
    (h : ∀ j, (slots1.getD j default).id = (slots.getD j default).id) :
    ∀ (n i : Nat), free_scan tid slots1 n i = free_scan tid slots n i := by
  intro n
  induction n with
  | zero => intro i; rfl
  | succ k ih =>
    intro i
    unfold free_scan
    rw [h i, ih (i + 1)]

/-- Writing back the list heads of a row does not change the row that `free` finds. -/
theorem free_scan_set {tid : Int} {slots : List ThreadTable} {i : Nat} {e : ThreadTable}
    (he : e.id = (slots.getD i default).id) (n : Nat) :
    free_scan tid (slots.set i e) n 0 = free_scan tid slots n 0 := by
  apply free_scan_congr
  intro j
  rw [getD_set]
  split
  · rename_i h; rw [he, h.1]
  · rfl

/-- The row of the thread after the list heads were written back. -/
theorem slotOf_set {pagesize : Nat} {tid : Int} {s : State} {hp : Heap} {u f : Nat}
    (hslot : HasSlot pagesize tid s) (hrows : s.slots.length = pagesize / sizeofThreadTable) :
    slotOf pagesize tid ⟨hp, s.thread_tbl,
      s.slots.set (free_scan tid s.slots (pagesize / sizeofThreadTable) 0)
        ⟨(slotOf pagesize tid s).id, u, f⟩⟩ = ⟨(slotOf pagesize tid s).id, u, f⟩ := by
  unfold HasSlot at hslot
  unfold slotOf
  show (s.slots.set _ _).getD (free_scan tid (s.slots.set _ _) _ 0) default = _
  rw [free_scan_set (e := ⟨(s.slots.getD (free_scan tid s.slots (pagesize / sizeofThreadTable) 0) default).id, u, f⟩) rfl, getD_set]
  rcases free_scan_spec tid s.slots (pagesize / sizeofThreadTable) 0 with ⟨e, _⟩ | ⟨_, m2, _, _⟩
  · rw [Nat.zero_add] at e; exact absurd e hslot
  · rw [if_pos ⟨rfl, by omega⟩]

/-- Cutting a chain at one of its nodes. -/
theorem IsList_cut {m : Nat → Nat} {b : Nat} {l2 : List Nat} : ∀ (l1 : List Nat) (head : Nat),
    IsList m head (l1 ++ b :: l2) → (∀ a ∈ l1, a + 8 ≤ b ∨ b + 8 ≤ a) →
    IsList (store64raw m b 0) head (l1 ++ [b]) := by
  intro l1
  induction l1 with
  | nil =>
    intro head h _
    obtain ⟨h1, h2, _⟩ := h
    exact ⟨h1, h2, load64raw_store64raw_same m b 0 (by unfold W; omega)⟩
  | cons c l ih =>
    intro head h hd
    obtain ⟨h1, h2, h3⟩ := h
    refine ⟨h1, h2, ?_⟩
    rw [load64raw_store64raw_disj m b 0 c (by have := hd c (List.mem_cons_self _ _); omega)]
    exact ih _ h3 (fun a ha => hd a (List.mem_cons_of_mem _ ha))

/-- The state that `free` returns after its last `add_block`. -/
theorem free_done {pagesize : Nat} {tid : Int} {s : State} (hslot : HasSlot pagesize tid s)
    (hrows : s.slots.length = pagesize / sizeofThreadTable) (f : Nat) (hp : Heap) :
    ∃ s1 : State, (pure ⟨hp, s.thread_tbl,
        s.slots.set (free_scan tid s.slots (pagesize / sizeofThreadTable) 0)
          ⟨(slotOf pagesize tid s).id, (slotOf pagesize tid s).used, f⟩⟩ : M State) = Except.ok s1 ∧
      s1.thread_tbl = s.thread_tbl ∧ s1.heap = hp ∧
      slotOf pagesize tid s1 = ⟨(slotOf pagesize tid s).id, (slotOf pagesize tid s).used, f⟩ :=
  ⟨_, rfl, rfl, rfl, slotOf_set hslot hrows⟩

theorem hdr_lt (p : Nat) : hdr p < W := by
  unfold hdr
  exact Nat.mod_lt _ (by unfold W; omega)

/-- C3 (amended): let the thread own a row of a table whose page is mapped, let
its used and free lists be NULL-terminated chains `lu` and `lf`, and let `p` be
a non-NULL pointer whose block `hdr p` is not in `lu`; let `hdr p` and the
blocks of both lists be mapped, 8-byte aligned and outside the page of the
thread table (the rows of the table are kept apart from the byte memory in
this development, so this is where it agrees with the C program).  Then
`release(p)`, given fuel for one walk of each list, returns and is not a no-op:
the failed unlink is ignored and the used head stays, but when the block is
not in the free list its `next` field is set to NULL and the block is appended
to the free list, and when it is already in the free list (a second release)
its `next` field, which held NULL or another block before, afterwards holds the
address of the block itself. -/
theorem C3_release_unknown_appends {pagesize : Nat} {tid : Int} {fuel p : Nat} {s : State}
    {lu lf : List Nat} (hslot : HasSlot pagesize tid s)
    (hrows : s.slots.length = pagesize / sizeofThreadTable)
    (hacc : accessible s.heap s.thread_tbl pagesize) (hp0 : p ≠ 0) (hpW : p < W)
    (hh0 : hdr p ≠ 0)
    (hu : IsList s.heap.mem (slotOf pagesize tid s).used lu)
    (hf : IsList s.heap.mem (slotOf pagesize tid s).free lf)
    (hacc8 : ∀ b ∈ hdr p :: (lu ++ lf), accessible s.heap b 8)
    (hal : ∀ b ∈ hdr p :: (lu ++ lf), b % 8 = 0)
    (hout : ∀ b ∈ hdr p :: (lu ++ lf), b + 8 ≤ s.thread_tbl ∨ s.thread_tbl + pagesize ≤ b)
    (hnot : hdr p ∉ lu) (hfuel : lu.length ≤ fuel ∧ lf.length ≤ fuel) :
    ∃ s1, free pagesize tid fuel p s = Except.ok s1 ∧
      s1.thread_tbl = s.thread_tbl ∧ s1.heap.mapped = s.heap.mapped ∧
      (slotOf pagesize tid s1).used = (slotOf pagesize tid s).used ∧
      (hdr p ∉ lf →
        load64raw s1.heap.mem (hdr p) = 0 ∧
        IsList s1.heap.mem (slotOf pagesize tid s1).free (lf ++ [hdr p])) ∧
      (hdr p ∈ lf →
        (slotOf pagesize tid s1).free = (slotOf pagesize tid s).free ∧
        load64raw s1.heap.mem (hdr p) = hdr p ∧ load64raw s.heap.mem (hdr p) ≠ hdr p) := by
  have hnum : 0 < pagesize / sizeofThreadTable := by
    unfold HasSlot at hslot
    rcases free_scan_spec tid s.slots (pagesize / sizeofThreadTable) 0 with ⟨e, _⟩ | ⟨_, m2, _, _⟩
    · rw [Nat.zero_add] at e; exact absurd e hslot
    · omega
  have h24 : sizeofThreadTable ≤ pagesize := by
    have := Nat.div_mul_le_self pagesize sizeofThreadTable
    have h1 : 1 * sizeofThreadTable ≤ pagesize / sizeofThreadTable * sizeofThreadTable :=
      Nat.mul_le_mul_right _ hnum
    omega
  have hacc24 : accessible s.heap s.thread_tbl sizeofThreadTable := by
    simpa using accessible_sub hacc 0 sizeofThreadTable (by omega)
  have haccu : ∀ b ∈ lu, accessible s.heap b 8 := fun b hb =>
    hacc8 b (List.mem_cons_of_mem _ (List.mem_append_left _ hb))
  have haccf : ∀ b ∈ lf, accessible s.heap b 8 := fun b hb =>
    hacc8 b (List.mem_cons_of_mem _ (List.mem_append_right _ hb))
  have haccp : accessible s.heap (hdr p) 8 := hacc8 _ (List.mem_cons_self _ _)
  have half : ∀ b ∈ lf, b % 8 = 0 := fun b hb =>
    hal b (List.mem_cons_of_mem _ (List.mem_append_right _ hb))
  have halp : hdr p % 8 = 0 := hal _ (List.mem_cons_self _ _)
  have hW : (0 : Nat) < W := by unfold W; omega
  have hhW : hdr p < W := hdr_lt p
  rw [free_unknown_eq hslot hacc24 hp0 hu haccu hnot hfuel.1]
  generalize hdr p = h at *
  obtain ⟨hp1, hst, hm1, hmap1⟩ : ∃ hp1 : Heap, store64 s.heap h 0 = Except.ok hp1 ∧
      hp1.mem = store64raw s.heap.mem h 0 ∧ hp1.mapped = s.heap.mapped := by
    refine ⟨⟨store64raw s.heap.mem h 0, s.heap.mapped⟩, ?_, rfl, rfl⟩
    unfold store64
    rw [if_pos haccp]
  rw [hst, ok_bind]
  have hacc1 : ∀ b ∈ lf, accessible hp1 b 8 := fun b hb => accessible_mapped hmap1 (haccf b hb)
  have hn0 : load64raw hp1.mem h = 0 := by
    rw [hm1]; exact load64raw_store64raw_same _ _ _ hW
  have hnd := IsList_nodup _ _ hf
  by_cases hin : h ∈ lf
  · -- second release: the chain is cut at the block and the block is linked to itself
    obtain ⟨l1, l2, rfl⟩ := List.append_of_mem hin
    have hnl1 : h ∉ l1 := fun hc =>
      (List.nodup_append.mp hnd).2.2 hc (List.mem_cons_self _ _)
    have hd1 : ∀ a ∈ l1, a + 8 ≤ h ∨ h + 8 ≤ a := by
      intro a ha
      have h1 := half a (List.mem_append_left _ ha)
      have h2 : a ≠ h := fun hc => hnl1 (hc ▸ ha)
      omega
    have hcut : IsList hp1.mem (slotOf pagesize tid s).free (l1 ++ [h]) := by
      rw [hm1]; exact IsList_cut l1 _ hf hd1
    have hacc2 : ∀ b ∈ l1 ++ [h], accessible hp1 b 8 := by
      intro b hb
      apply hacc1
      rcases List.mem_append.mp hb with hb | hb
      · exact List.mem_append_left _ hb
      · rw [List.mem_singleton.mp hb]; exact hin
    have hlen : (l1 ++ [h]).length ≤ fuel := by
      have := hfuel.2
      simp only [List.length_append, List.length_cons, List.length_nil] at this ⊢
      omega
    rw [add_block_eq fuel h hcut hacc2, if_pos hlen, ok_bind]
    have hl2 : load64raw (store64raw hp1.mem h h) h = h := load64raw_store64raw_same _ _ _ hhW
    obtain ⟨s1, e1, e2, e3, e4⟩ := free_done hslot hrows (slotOf pagesize tid s).free
      ⟨store64raw hp1.mem h h, hp1.mapped⟩
    refine ⟨s1, e1, e2, ?_, ?_, fun hc => absurd hin hc, fun _ => ⟨?_, ?_, ?_⟩⟩
    · rw [e3]; exact hmap1
    · rw [e4]
    · rw [e4]
    · rw [e3]; exact hl2
    · have hmid := IsList_mid l1 _ hf
      cases l2 with
      | nil =>
        rw [IsList_next_nil hmid]
        exact fun hc => hh0 hc.symm
      | cons c l3 =>
        rw [(IsList_next_cons hmid).1]
        intro hc
        have h2 := (List.nodup_append.mp hnd).2.1
        rw [List.nodup_cons] at h2
        exact h2.1 (hc ▸ List.mem_cons_self _ _)
  · -- the block is new to the free list: it is appended with next = NULL
    have hd : ∀ a ∈ lf, a + 8 ≤ h ∨ h + 8 ≤ a := by
      intro a ha
      have h1 := half a ha
      have h2 : a ≠ h := fun hc => hin (hc ▸ ha)
      omega
    have hf1 : IsList hp1.mem (slotOf pagesize tid s).free lf := by
      rw [hm1]; exact IsList_store_other lf _ hf hd
    rcases list_nil_or_snoc lf with rfl | ⟨L, t, rfl⟩
    · have h0 : (slotOf pagesize tid s).free = 0 := hf
      rw [h0, add_block_nil, ok_bind]
      obtain ⟨s1, e1, e2, e3, e4⟩ := free_done hslot hrows h hp1
      refine ⟨s1, e1, e2, ?_, ?_, fun _ => ⟨?_, ?_⟩, fun hc => absurd hc hin⟩
      · rw [e3]; exact hmap1
      · rw [e4]
      · rw [e3]; exact hn0
      · rw [e3, e4]
        exact ⟨rfl, hh0, hn0⟩
    · rw [add_block_eq fuel h hf1 hacc1, if_pos hfuel.2, ok_bind]
      have htp : t + 8 ≤ h ∨ h + 8 ≤ t :=
        hd t (List.mem_append_right _ (List.mem_singleton_self _))
      have hdL : ∀ a ∈ L, a + 8 ≤ t ∨ t + 8 ≤ a := by
        intro a ha
        have h1 := half a (List.mem_append_left _ ha)
        have h2 := half t (List.mem_append_right _ (List.mem_singleton_self _))
        have h3 : a ≠ t := fun hc =>
          (List.nodup_append.mp hnd).2.2 ha (hc ▸ List.mem_singleton_self _)
        omega
      have hl2 : load64raw (store64raw hp1.mem t h) h = 0 := by
        rw [load64raw_store64raw_disj _ _ _ _ (by omega)]
        exact hn0
      have hi2 : IsList (store64raw hp1.mem t h) (slotOf pagesize tid s).free (L ++ [t] ++ [h]) := by
        have := IsList_snoc_store hh0 hhW hn0 htp L _ hf1 hdL
        rw [List.append_assoc]
        exact this
      obtain ⟨s1, e1, e2, e3, e4⟩ := free_done hslot hrows (slotOf pagesize tid s).free
        ⟨store64raw hp1.mem t h, hp1.mapped⟩
      refine ⟨s1, e1, e2, ?_, ?_, fun _ => ⟨?_, ?_⟩, fun hc => absurd hc hin⟩
      · rw [e3]; exact hmap1
      · rw [e4]
      · rw [e3]; exact hl2
      · rw [e3, e4]
        exact hi2

set_option maxRecDepth 4000 in
/-- Witness for C3: the second `release(0x10010)` in `state_C3`. -/
theorem C3_witness :
    ∃ s1, free 4096 7 10 0x10010 state_C3 = Except.ok s1 ∧
      s1.thread_tbl = state_C3.thread_tbl ∧ s1.heap.mapped = state_C3.heap.mapped ∧
      (slotOf 4096 7 s1).used = (slotOf 4096 7 state_C3).used ∧
      (hdr 0x10010 ∉ [0x10000] →
        load64raw s1.heap.mem (hdr 0x10010) = 0 ∧
        IsList s1.heap.mem (slotOf 4096 7 s1).free ([0x10000] ++ [hdr 0x10010])) ∧
      (hdr 0x10010 ∈ [0x10000] →
        (slotOf 4096 7 s1).free = (slotOf 4096 7 state_C3).free ∧
        load64raw s1.heap.mem (hdr 0x10010) = hdr 0x10010 ∧
        load64raw state_C3.heap.mem (hdr 0x10010) ≠ hdr 0x10010) :=
  @C3_release_unknown_appends 4096 7 10 0x10010 state_C3 [] [0x10000] (by decide) (by decide)
    (accessible_of_reg (show (0x100000, 4096) ∈ state_C3.heap.mapped by decide) (by decide)
      (by decide) (by decide))
    (by decide) (by decide) (by decide) (by decide) (by decide) (by decide) (by decide) (by decide)
    (by decide) (by decide)

/-! ## Failing runs after a request that wraps around -/

/-- Copying a range onto itself changes nothing. -/
theorem memcpy_raw_self (m : Nat → Nat) (d : Nat) : ∀ n, memcpy_raw m d d n = m := by
  intro n
  induction n with
  | zero => rfl
  | succ k ih =>
    funext x
    show (if x = d + k then memcpy_raw m d d k (d + k) else memcpy_raw m d d k x) = m x
    rw [ih]
    split
    · rename_i h; rw [h]
    · rfl

theorem memcpy_self {hp : Heap} {d n : Nat} (h : accessible hp d n) :
    memcpy hp d d n = Except.ok hp := by
  unfold memcpy
  rw [if_pos ⟨h, h⟩, memcpy_raw_self]

/-- Two adjacent accessible ranges form one accessible range. -/
theorem accessible_join {hp : Heap} {a n k : Nat} (h1 : accessible hp a n)
    (h2 : accessible hp (a + n) k) : accessible hp a (n + k) := by
  refine ⟨by have := h2.1; omega, fun i hi => ?_⟩
  by_cases h : i < n
  · exact h1.2 i h
  · have := h2.2 (i - n) (by omega)
    rwa [show a + n + (i - n) = a + i by omega] at this

theorem malloc_getOk {pagesize : Nat} {tid : Int} {t b : Option Nat} {fuel bytes q : Nat}
    {s : State} (h : okB (malloc pagesize tid t b fuel bytes s) = true)
    (hq : (getOk (0, init) (malloc pagesize tid t b fuel bytes s)).1 = q) :
    malloc pagesize tid t b fuel bytes s =
      Except.ok (q, (getOk (0, init) (malloc pagesize tid t b fuel bytes s)).2) :=
  ok_getOk_pair (0, init) _ q h hq

theorem calloc_steps {pagesize : Nat} {tid : Int} {t b : Option Nat} {fuel count unit q : Nat}
    {s sa : State} (hq : q ≠ 0)
    (h1 : malloc pagesize tid t b fuel count s = Except.ok (q, sa))
    (h2 : accessible sa.heap q count) :
    calloc pagesize tid t b fuel count unit s =
      Except.ok (q, ⟨⟨memset_raw sa.heap.mem q 0 count, sa.heap.mapped⟩, sa.thread_tbl, sa.slots⟩) := by
  unfold calloc
  rw [h1]
  show (if q = 0 then _ else _) = _
  rw [if_neg hq]
  unfold memset
  rw [if_pos h2]
  rfl

/-- C5 (failing input): a single thread calls `alloc(8)`, `alloc(8)`, `release`
of the second pointer, `alloc(2^64 - 8)` and `release` of that pointer; every
release is given a valid pointer and every mapping starts at a page-aligned
address (`state_C5`).  The next `alloc(0x10000)` returns `0x20010`.  The
calling program then stores four 8-byte words inside the `0x10000` bytes it
was given, at the mapped addresses `0x30000`, `0x30008`, `0x20019` and
`0x20021`; the header of the free block `0x30000` lies in that range.  The
next `alloc(7)` returns `0x20029`, which is not a multiple of 8. -/
theorem C5_unaligned_pointer :
    Trace 4096 7 Call.basic state_C5
      ∧ ∃ s1, malloc 4096 7 none none 10 0x10000 state_C5 = Except.ok (0x20010, s1)
          ∧ (∀ a ∈ [0x30000, 0x30008, 0x20019, 0x20021],
              0x20010 ≤ a ∧ a + 8 ≤ 0x20010 + 0x10000 ∧ accessible s1.heap a 8)
          ∧ ∃ s2, malloc 4096 7 none none 10 7
                (caller_store 0x20021 8 (caller_store 0x20019 0 (caller_store 0x30008 0
                  (caller_store 0x30000 0x20019 s1)))) = Except.ok (0x20029, s2)
              ∧ 0x20029 % 8 = 1 := by
  refine ⟨after_trace basicB_sound _ (by decide), _, rfl, by decide, _, rfl, by decide⟩

/-- C9 (failing input): `state_C7` is reached by a single thread through
`alloc(8)`, `alloc(8)`, `release` of the second pointer, `alloc(2^64 - 8)`,
`release` of that pointer and `alloc(0x10000)`, every release on a valid
pointer.  There `n = 4072` satisfies `n + sizeof(Header) + pagesize < 2^64`,
`alloc(4072)` returns `0x20018`, a valid pointer, and `release(0x20018)`
returns.  The next `alloc(4072)` does not return a pointer: whatever the
kernel would answer and however much fuel it is given, it ends in a fault
(`split` stores a header at `0x31008`, which is not mapped). -/
theorem C9_second_alloc_faults :
    Trace 4096 7 Call.basic state_C7
      ∧ 4072 + sizeofHeader + 4096 < W
      ∧ ∃ s1 s2, malloc 4096 7 none none 10 4072 state_C7 = Except.ok (0x20018, s1)
          ∧ ValidPtr 4096 7 s1 0x20018
          ∧ free 4096 7 10 0x20018 s1 = Except.ok s2
          ∧ ∀ (t b : Option Nat) (n : Nat),
              malloc 4096 7 t b (n + 10) 4072 s2 = Except.error Err.fault := by
  refine ⟨after_trace basicB_sound _ (by decide), by decide, _, _, rfl, ?_, rfl, ?_⟩
  · exact ⟨by decide, by decide, by decide, by decide, 3, by decide⟩
  · intro t b n
    rfl

/-- C10 (failing input): `state_C10_wrapped` is reached by a single thread
through `alloc(8)`, `alloc(126960)`, `alloc(8)`, `release` of the third
pointer, `alloc(2^64 - 8)`, `release` of that pointer and `alloc(0x10000)`,
every release on a valid pointer.  There `0x22010` is a valid pointer whose
block `0x22000` has 126960 payload bytes.  `resize(0x22010, 5000)` returns
`0x22010`, the pointer it was given, and afterwards the block `0x22000` is
reachable from the used head and from the free head of the thread. -/
theorem C10_resize_returns_same_pointer :
    Trace 4096 7 Call.basic state_C10_wrapped
      ∧ ValidPtr 4096 7 state_C10_wrapped 0x22010
      ∧ load64raw state_C10_wrapped.heap.mem (hdr 0x22010 + 8) = 126960
      ∧ ∃ s1, realloc 4096 7 none none 10 0x22010 5000 state_C10_wrapped = Except.ok (0x22010, s1)
          ∧ OnList s1.heap.mem (slotOf 4096 7 s1).used (hdr 0x22010)
          ∧ OnList s1.heap.mem (slotOf 4096 7 s1).free (hdr 0x22010) := by
  refine ⟨after_trace basicB_sound _ (by decide),
    ⟨by decide, by decide, by decide, by decide, 1, by decide⟩, by decide,
    state_C10_wrapped_resized, ?_, ⟨by decide, 4, by decide⟩, ⟨by decide, 6, by decide⟩⟩
  refine realloc_steps (by decide)
    (show malloc 4096 7 none none 10 5000 state_C10_wrapped =
        Except.ok (0x22010, state_C10_wrapped_malloc) from malloc_getOk (by decide) (by decide))
    (memcpy_self (accessible_of_reg (show (0x22000, 0x1f000) ∈ state_C10_wrapped_malloc.heap.mapped
      by decide) (by decide) (by decide) (by decide)))
    (ok_getOk init _ (by decide))

/-- C11 (failing input): `state_C11_wrapped` is reached by a single thread
through `alloc(8)`, `alloc(131072)`, `alloc(8)`, `release` of the third
pointer, `alloc(2^64 - 8)` and `release` of that pointer, every release on a
valid pointer.  There the block `0x21000` is on the used list with size
131072.  `calloc(131072, 1)` returns `0x20010`.  Afterwards the size field of
the returned block `0x20000` holds 0, less than the count; the header of the
block `0x21000` lies inside the zeroed range `[0x20010, 0x20010 + 131072)`, the
block is still on the used list and its size field now holds 0; and the
returned block is not on the used list. -/
theorem C11_zero_alloc_overwrites_header :
    Trace 4096 7 Call.basic state_C11_wrapped
      ∧ OnList state_C11_wrapped.heap.mem (slotOf 4096 7 state_C11_wrapped).used 0x21000
      ∧ load64raw state_C11_wrapped.heap.mem (0x21000 + 8) = 131072
      ∧ ∃ s1, calloc 4096 7 none none 10 131072 1 state_C11_wrapped = Except.ok (0x20010, s1)
          ∧ load64raw s1.heap.mem (hdr 0x20010 + 8) = 0
          ∧ (0x20010 ≤ 0x21000 ∧ 0x21000 + sizeofHeader ≤ 0x20010 + 131072)
          ∧ OnList s1.heap.mem (slotOf 4096 7 s1).used 0x21000
          ∧ load64raw s1.heap.mem (0x21000 + 8) = 0
          ∧ ¬ OnList s1.heap.mem (slotOf 4096 7 s1).used (hdr 0x20010) := by
  refine ⟨after_trace basicB_sound _ (by decide), ⟨by decide, 1, by decide⟩, by decide,
    state_C11_wrapped_zeroed, ?_, by decide, by decide, ⟨by decide, 1, by decide⟩, by decide, ?_⟩
  · refine calloc_steps (by decide)
      (show malloc 4096 7 none none 10 131072 state_C11_wrapped =
        Except.ok (0x20010, state_C11_wrapped_malloc) from malloc_getOk (by decide) (by decide)) ?_
    have e1 : accessible state_C11_wrapped_malloc.heap 0x20010 0xff0 :=
      accessible_of_reg (show (0x20000, 0x1000) ∈ state_C11_wrapped_malloc.heap.mapped by decide)
        (by decide) (by decide) (by decide)
    have e2 : accessible state_C11_wrapped_malloc.heap (0x20010 + 0xff0) 0x1f010 :=
      accessible_of_reg (show (0x21000, 0x21000) ∈ state_C11_wrapped_malloc.heap.mapped by decide)
        (by decide) (by decide) (by decide)
    exact accessible_join e1 e2
  · rw [IsList_onList (show IsList state_C11_wrapped_zeroed.heap.mem
      (slotOf 4096 7 state_C11_wrapped_zeroed).used [0x10000, 0x21000] by decide)]
    decide

/-- C20 (failing input): with each call one atomic step, the kernel maps the
thread table at `0x30000`, and thread 7 calls `alloc(8)`, `alloc(8)`,
`release` of the second pointer, `alloc(2^64 - 8)` and `release` of that
pointer, every release on a valid pointer (`state_C20_wrapped`); row 0 then
has id 7.  The next `alloc(65520)` of thread 7 returns `0x20010`, and `split`
has made a block header at `0x30000`, the address of the table: afterwards
that address is on the free list of the thread, the word at `0x30000` (the
`next` field of the header) holds NULL and the word at `0x30008` (its `size`
field) holds `0x10000`.  The rows are kept apart from the byte memory here;
in the C program these two words are the fields `id` and `used` of row 0, so
the id of the claimed row 0 is 0 after the call and no longer 7. -/
theorem C20_header_in_registry :
    MTrace 4096 Call.basic state_C20_wrapped
      ∧ state_C20_wrapped.thread_tbl = 0x30000
      ∧ (state_C20_wrapped.slots.getD 0 default).id = 7
      ∧ ∃ s1, malloc 4096 7 none none 20 65520 state_C20_wrapped = Except.ok (0x20010, s1)
          ∧ OnList s1.heap.mem (s1.slots.getD 0 default).free s1.thread_tbl
          ∧ load64raw s1.heap.mem s1.thread_tbl = 0
          ∧ load64raw s1.heap.mem (s1.thread_tbl + 8) = 0x10000 := by
  refine ⟨mafter_trace basicB_sound _ (by decide), by decide, by decide, _, rfl,
    ⟨by decide, 3, by decide⟩, by decide, by decide⟩

end Myalloc
